import Mathlib

/-!
# A shallow embedding of the `malloc` repository (`src/src/stdlib.c`)

The allocator keeps a doubly linked list of in-band block headers inside the
data segment obtained from `sbrk`.  The embedding keeps

* a typed header store `hdr : Nat → Option Block` (addresses are byte addresses,
  a header occupies `sizeof(struct Block) = 40` bytes on an LP64 target),
* a byte store `bytes : Nat → Nat` for the payloads (it is separate from the header
  store: the embedding follows the program as long as the bytes a call writes lie in
  payloads of blocks of the list),
* the global `blocks_start`, the kernel break and the largest break the kernel
  is willing to grant.

`size_t` values are natural numbers reduced modulo `2^64` wherever the C code
computes with them, `int` values are reduced to the signed 32 bit range.
Recursive C functions take a fuel argument; running out of fuel is reported as
`Err.fuel`, a dereference of an address that holds no header as `Err.segv`,
the `exit(-1)` after a failed magic check as `Err.exit` and a call of
`pthread_spin_lock` by the thread that holds the lock as `Err.hang`.

The calls to `pthread_spin_lock` / `pthread_spin_unlock` do not touch the block
list.  `malloc`, `free` and `realloc` are entered with the lock free and call no
public function while they hold it, so their lock calls are left out of the
sequential functions; `calloc` calls `malloc` while it holds the lock, which is part of its
definition.  The section on the public functions with their lock calls pairs every
public function with the trace of lock calls it issues.
-/

namespace Malloc

/-- Number of values of a `size_t` / pointer (LP64). -/
def WORD : Nat := 2 ^ 64

/-- `#define MAGIC_NUMBER 0xDEADBEEF` -/
def MAGIC_NUMBER : Nat := 0xDEADBEEF

/-- `(void*)-1`, the all-ones pointer returned by a failing `sbrk`. -/
def FAIL : Nat := 2 ^ 64 - 1

/-- `struct Block` : the in-band metadata record. -/
structure Block where
  magic_ : Nat
  size_ : Nat
  used_ : Nat
  next_ : Nat
  prev_ : Nat
deriving DecidableEq, Repr

/-- `getMetaSize` : `sizeof(struct Block)`, five 8-byte words. -/
def getMetaSize : Nat := 40

/-- Ways in which a call does not return to its caller. -/
inductive Err where
  | exit
  | segv
  | fuel
  | hang
deriving DecidableEq, Repr

/-- Process state seen by the allocator. -/
structure State where
  hdr : Nat → Option Block
  bytes : Nat → Nat
  blocks_start : Nat
  brk : Nat
  brkMax : Nat

/-- The heap before the first call: no block, break `B`, kernel limit `M`. -/
def emptyHeap (B M : Nat) (mem : Nat → Nat) : State :=
  { hdr := fun _ => none, bytes := mem, blocks_start := 0, brk := B, brkMax := M }

/-- Read the header stored at address `a` (a null or header-less address faults). -/
def load (s : State) (a : Nat) : Except Err Block :=
  if a = 0 then .error .segv
  else match s.hdr a with
    | none => .error .segv
    | some b => .ok b

/-- Overwrite the header at address `a`. -/
def put (s : State) (a : Nat) (b : Block) : State :=
  { s with hdr := fun x => if x = a then some b else s.hdr x }

/-- Field update `a->f = v` on an existing header. -/
def modify (s : State) (a : Nat) (f : Block → Block) : Except Err State :=
  match load s a with
  | .error e => .error e
  | .ok b => .ok (put s a (f b))

/-- The state with the kernel break moved to `k`. -/
def withBrk (s : State) (k : Nat) : State := { s with brk := k }

/-- Conversion of an integer to `int` (two's complement, 32 bit). -/
def toInt32 (x : Int) : Int :=
  let r := x % 4294967296
  if r < 2147483648 then r else r - 4294967296

/-- Conversion of a `size_t` to `intptr_t` (two's complement, 64 bit). -/
def toInt64 (x : Nat) : Int :=
  let r := x % WORD
  if r < 2 ^ 63 then (r : Int) else (r : Int) - (WORD : Int)

/-- Modelled from the spec: the kernel adapter `grow_or_shrink(delta)` (`sbrk`, not part
of the sources).  It returns the old break and moves the break by `delta`; a request
that would leave `[0, brkMax]` is refused with the all-ones pointer. -/
def sbrk (s : State) (delta : Int) : Nat × State :=
  let nb : Int := (s.brk : Int) + delta
  if 0 ≤ nb ∧ nb ≤ (s.brkMax : Int) then (s.brk, withBrk s nb.toNat)
  else (FAIL, s)

/-- Modelled from the spec: `memcpy` (not part of the sources) as a byte-by-byte copy
running from low to high addresses. -/
def memcpy (m : Nat → Nat) (dst src : Nat) : Nat → (Nat → Nat)
  | 0 => m
  | k + 1 =>
    let m1 := memcpy m dst src k
    fun x => if x = dst + k then m1 (src + k) else m1 x

/-- Modelled from the spec: `memset` (not part of the sources), `n` bytes set to `c`. -/
def memset (m : Nat → Nat) (dst c n : Nat) : Nat → Nat :=
  fun x => if dst ≤ x ∧ x < dst + n then c else m x

/-- Pointer arithmetic `block + 1`. -/
def payload (block : Nat) : Nat := (block + getMetaSize) % WORD

/-- Pointer arithmetic `((struct Block*) ptr) - 1` on a 64 bit pointer: the subtraction
wraps around below `sizeof(struct Block)`. -/
def header (ptr : Nat) : Nat :=
  if getMetaSize ≤ ptr then ptr - getMetaSize else ptr + (WORD - getMetaSize)

/-- `getMallocSize` -/
def getMallocSize (s : State) (ptr : Nat) : Except Err Nat :=
  match load s (header ptr) with
  | .error e => .error e
  | .ok block =>
    if block.magic_ ≠ MAGIC_NUMBER then .error .exit
    else .ok block.size_

/-- `insertBlock` : append at the end of the list. -/
def insertBlock : Nat → State → Nat → Nat → Except Err State
  | 0, _, _, _ => .error .fuel
  | fuel + 1, s, block_to_be_inserted, current_block =>
    match load s current_block with
    | .error e => .error e
    | .ok cur =>
      if cur.magic_ ≠ MAGIC_NUMBER then .error .exit
      else if cur.next_ = 0 then
        match modify s current_block (fun b => { b with next_ := block_to_be_inserted }) with
        | .error e => .error e
        | .ok s1 => modify s1 block_to_be_inserted (fun b => { b with prev_ := current_block })
      else insertBlock fuel s block_to_be_inserted cur.next_

/-- `checkForwardMerge` -/
def checkForwardMerge : Nat → State → Nat → Nat → Nat → Except Err Nat
  | 0, _, _, _, _ => .error .fuel
  | fuel + 1, s, current_block, needed_size, available_size =>
    if current_block = 0 then .ok 0
    else match load s current_block with
      | .error e => .error e
      | .ok cur =>
        if cur.magic_ ≠ MAGIC_NUMBER then .error .exit
        else if available_size ≥ needed_size then .ok 1
        else if cur.used_ ≠ 0 ∧ available_size < needed_size then .ok 0
        else if cur.used_ = 0 then
          checkForwardMerge fuel s cur.next_ needed_size
            ((available_size + getMetaSize + cur.size_) % WORD)
        else .ok 0

/-- The merging branch of `forwardBlockMerge` (lines 147-150): three stores into `first`
and one into the successor of `current`.  `current->next_` is read once: the store to
`first->next_` that precedes the second read writes the very same value when
`current == first` and another header otherwise. -/
def forwardLink (s : State) (first current current_available : Nat) : Except Err State :=
  match load s current with
  | .error e => .error e
  | .ok cur =>
    match modify s first (fun b => { b with next_ := cur.next_ }) with
    | .error e => .error e
    | .ok s1 =>
      match modify s1 first (fun b => { b with size_ := current_available }) with
      | .error e => .error e
      | .ok s2 =>
        match modify s2 cur.next_ (fun b => { b with prev_ := first }) with
        | .error e => .error e
        | .ok s3 => modify s3 first (fun b => { b with used_ := 1 })

/-- `forwardBlockMerge` -/
def forwardBlockMerge : Nat → State → Nat → Nat → Nat → Nat → Except Err State
  | 0, _, _, _, _, _ => .error .fuel
  | fuel + 1, s, first, current, size, available =>
    match load s current with
    | .error e => .error e
    | .ok cur =>
      if cur.magic_ ≠ MAGIC_NUMBER then .error .exit
      else
        let current_available :=
          if current = first then cur.size_
          else (available + cur.size_ + getMetaSize) % WORD
        if current_available ≥ size then forwardLink s first current current_available
        else if available < size ∧ cur.used_ = 0 then
          if current = first then forwardBlockMerge fuel s first cur.next_ size cur.size_
          else forwardBlockMerge fuel s first cur.next_ size
            ((available + cur.size_ + getMetaSize) % WORD)
        else .ok s

/-- `findFreeBlock` : the block found (`0` for `NULL`) and the state after a merge. -/
def findFreeBlock : Nat → State → Nat → Nat → Except Err (Nat × State)
  | 0, _, _, _ => .error .fuel
  | fuel + 1, s, current_block, size =>
    if current_block = 0 then .ok (0, s)
    else match load s current_block with
      | .error e => .error e
      | .ok cur =>
        if cur.magic_ ≠ MAGIC_NUMBER then .error .exit
        else if cur.used_ = 0 ∧ size ≤ cur.size_ then .ok (current_block, s)
        else
          let rest : Except Err (Nat × State) :=
            if cur.next_ ≠ 0 then findFreeBlock fuel s cur.next_ size else .ok (0, s)
          if cur.used_ = 0 then
            match checkForwardMerge (fuel + 1) s current_block size 0 with
            | .error e => .error e
            | .ok r =>
              if r = 1 then
                match forwardBlockMerge (fuel + 1) s current_block current_block size 0 with
                | .error e => .error e
                | .ok s1 => .ok (current_block, s1)
              else rest
          else rest

/-- The `int free_size` of `freeBlocks` (line 241): both operands are cast to `int`. -/
def freeSize (size : Nat) : Int :=
  toInt32 (-1 * toInt32 (toInt32 (getMetaSize : Int) + toInt32 (size : Int)))

/-- `freeBlocks` : give the free suffix of the list back to the kernel. -/
def freeBlocks : Nat → State → Nat → Except Err State
  | 0, _, _ => .error .fuel
  | fuel + 1, s, current_block =>
    if current_block = 0 then .ok s
    else match load s current_block with
      | .error e => .error e
      | .ok cur =>
        if cur.magic_ ≠ MAGIC_NUMBER then .error .exit
        else if cur.used_ = 1 then .ok s
        else
          let free_size := freeSize cur.size_
          let temp_prev := cur.prev_
          if cur.next_ = 0 ∧ cur.prev_ = 0 ∧ cur.used_ = 0 then
            .ok { (sbrk s free_size).2 with blocks_start := 0 }
          else
            let unlinked : Except Err State :=
              if cur.next_ = 0 ∧ cur.used_ = 0 then
                match (if cur.prev_ ≠ 0 then modify s cur.prev_ (fun b => { b with next_ := 0 })
                       else .ok s) with
                | .error e => .error e
                | .ok s1 => .ok (sbrk s1 free_size).2
              else .ok s
            match unlinked with
            | .error e => .error e
            | .ok s2 => if temp_prev ≠ 0 then freeBlocks fuel s2 temp_prev else .ok s2

/-- `checkBackwardMerge` -/
def checkBackwardMerge : Nat → State → Nat → Nat → Nat → Except Err Nat
  | 0, _, _, _, _ => .error .fuel
  | fuel + 1, s, current_block, needed_size, available_size =>
    if current_block = 0 then .ok 0
    else match load s current_block with
      | .error e => .error e
      | .ok cur =>
        if cur.magic_ ≠ MAGIC_NUMBER then .error .exit
        else if (available_size + cur.size_) % WORD ≥ needed_size ∧ cur.used_ = 0 then .ok 1
        else if cur.used_ = 0 ∧ cur.prev_ ≠ 0 then
          checkBackwardMerge fuel s cur.prev_ needed_size
            ((available_size + getMetaSize + cur.size_) % WORD)
        else .ok 0

/-- The merging branch of `backwardBlockMerge` (lines 334-340).  `first->next_` is read
once: the store to `first->next_->prev_` does not change a `next_` field. -/
def backwardLink (s : State) (first current current_available : Nat) : Except Err State :=
  match load s first with
  | .error e => .error e
  | .ok fst =>
    match (if fst.next_ ≠ 0 then modify s fst.next_ (fun b => { b with prev_ := current })
           else .ok s) with
    | .error e => .error e
    | .ok s1 =>
      match modify s1 current (fun b => { b with next_ := fst.next_ }) with
      | .error e => .error e
      | .ok s2 =>
        match modify s2 current (fun b => { b with size_ := current_available }) with
        | .error e => .error e
        | .ok s3 => modify s3 current (fun b => { b with used_ := 1 })

/-- `backwardBlockMerge` : the header of the merged block (`0` for `NULL`). -/
def backwardBlockMerge : Nat → State → Nat → Nat → Nat → Nat → Except Err (Nat × State)
  | 0, _, _, _, _, _ => .error .fuel
  | fuel + 1, s, first, current, size, available =>
    if current = 0 then .ok (0, s)
    else match load s current with
      | .error e => .error e
      | .ok cur =>
        if cur.magic_ ≠ MAGIC_NUMBER then .error .exit
        else
          let current_available :=
            if current = first then cur.size_
            else (available + cur.size_ + getMetaSize) % WORD
          if current_available ≥ size then
            match backwardLink s first current current_available with
            | .error e => .error e
            | .ok s1 => .ok (current, s1)
          else backwardBlockMerge fuel s first cur.prev_ size current_available

/-- `malloc` : the pointer returned (`0` for `NULL`, `FAIL` for `(void*)-1`). -/
def malloc (fuel : Nat) (s : State) (size : Nat) : Except Err (Nat × State) :=
  if size = 0 then .ok (0, s)
  else match findFreeBlock fuel s s.blocks_start size with
    | .error e => .error e
    | .ok (free_block, s1) =>
      if free_block ≠ 0 then
        match modify s1 free_block (fun b => { b with used_ := 1 }) with
        | .error e => .error e
        | .ok s2 => .ok (payload free_block, s2)
      else
        let r := sbrk s1 (toInt64 ((getMetaSize + size) % WORD))
        let new_block := r.1
        if new_block = FAIL then .ok (FAIL, r.2)
        else if new_block = 0 then .error .segv
        else
          let s3 := put r.2 new_block
            { magic_ := MAGIC_NUMBER, used_ := 1, next_ := 0, prev_ := 0, size_ := size }
          if s3.blocks_start = 0 then .ok (payload new_block, { s3 with blocks_start := new_block })
          else match insertBlock fuel s3 new_block s3.blocks_start with
            | .error e => .error e
            | .ok s4 => .ok (payload new_block, s4)

/-- `free` -/
def free (fuel : Nat) (s : State) (ptr : Nat) : Except Err State :=
  if ptr = 0 then .ok s
  else match load s (header ptr) with
    | .error e => .error e
    | .ok block =>
      if block.magic_ ≠ MAGIC_NUMBER then .error .exit
      else if block.used_ = 0 then .ok s
      else match modify s (header ptr) (fun b => { b with used_ := 0 }) with
        | .error e => .error e
        | .ok s1 => if block.next_ = 0 then freeBlocks fuel s1 (header ptr) else .ok s1

/-- The tail of the fallback path of `realloc` (lines 410-421): magic check of the new
header, then `memcpy(new_block_data, ptr, block->size_)`. -/
def copyInto (s : State) (new_block_data ptr : Nat) : Except Err (Nat × State) :=
  match load s (header new_block_data) with
  | .error e => .error e
  | .ok new_block =>
    if new_block.magic_ ≠ MAGIC_NUMBER then .error .exit
    else match load s (header ptr) with
      | .error e => .error e
      | .ok block =>
        .ok (new_block_data, { s with bytes := memcpy s.bytes new_block_data ptr block.size_ })

/-- `realloc` -/
def realloc (fuel : Nat) (s : State) (ptr size : Nat) : Except Err (Nat × State) :=
  if ptr = 0 then malloc fuel s size
  else match load s (header ptr) with
    | .error e => .error e
    | .ok block =>
      if block.magic_ ≠ MAGIC_NUMBER then .error .exit
      else match modify s (header ptr) (fun b => { b with used_ := 0 }) with
        | .error e => .error e
        | .ok s1 =>
          match (if block.next_ ≠ 0 then checkForwardMerge fuel s1 (header ptr) size 0
                 else .ok 0) with
          | .error e => .error e
          | .ok fwd =>
            if fwd ≠ 0 then
              match forwardBlockMerge fuel s1 (header ptr) (header ptr) size 0 with
              | .error e => .error e
              | .ok s2 => .ok (payload (header ptr), s2)
            else
              match (if block.prev_ ≠ 0 then checkBackwardMerge fuel s1 (header ptr) size 0
                     else .ok 0) with
              | .error e => .error e
              | .ok bwd =>
                if bwd ≠ 0 then
                  match backwardBlockMerge fuel s1 (header ptr) (header ptr) size 0 with
                  | .error e => .error e
                  | .ok (merged, s2) =>
                    match load s2 (header ptr) with
                    | .error e => .error e
                    | .ok old =>
                      .ok (payload merged,
                        { s2 with bytes := memcpy s2.bytes (payload merged) ptr old.size_ })
                else
                  match malloc fuel s1 size with
                  | .error e => .error e
                  | .ok (new_block_data, s2) => copyInto s2 new_block_data ptr

/-- A call of `pthread_spin_lock` or `pthread_spin_unlock` on `malloc_lock`. -/
inductive LockEv where
  | lock
  | unlock
deriving DecidableEq, Repr

/-- Modelled from the spec: the spin lock (`pthread.h` is not part of the sources) as a
boolean, `true` when held.  The acquire step is enabled only when the lock is free: a
thread that calls `pthread_spin_lock` on the lock it holds spins forever (`none`).
Unlocking leaves the lock free. -/
def lockStep : Bool → LockEv → Option Bool
  | false, .lock => some true
  | true, .lock => none
  | _, .unlock => some false

/-- Modelled from the spec: the lock after a sequence of lock calls made by one thread,
`none` when one of the acquire steps is not enabled. -/
def runLocks : Bool → List LockEv → Option Bool
  | st, [] => some st
  | st, e :: es =>
    match lockStep st e with
    | none => none
    | some st1 => runLocks st1 es

/-- `malloc` called while `malloc_lock` is in the state `held`.  The return for a zero
size (line 466) comes before `pthread_spin_lock` at line 469; behind it the call is
`malloc` when the acquire step is enabled, and it does not return when the lock is held
(`Err.hang`). -/
def mallocWithLock (held : Bool) (fuel : Nat) (s : State) (size : Nat) :
    Except Err (Nat × State) :=
  if size = 0 then .ok (0, s)
  else match lockStep held .lock with
    | none => .error .hang
    | some _ => malloc fuel s size

/-- `calloc`, entered with the lock free: `pthread_spin_lock` at line 439, then the call
of `malloc` at line 441 with the lock still held (`lock_initialized` is set by then, so
`malloc` does not initialise the lock again); the lock is released at lines 444 and
447. -/
def calloc (fuel : Nat) (s : State) (nmemb size : Nat) : Except Err (Nat × State) :=
  if nmemb = 0 ∨ size = 0 then .ok (0, s)
  else match lockStep false .lock with
    | none => .error .hang
    | some held =>
      match mallocWithLock held fuel s ((nmemb * size) % WORD) with
      | .error e => .error e
      | .ok (alloced_memory, s1) =>
        if alloced_memory = 0 then .ok (0, s1)
        else .ok (alloced_memory,
          { s1 with bytes := memset s1.bytes alloced_memory 0 ((nmemb * size) % WORD) })

/-- One call of the public interface. -/
inductive Call where
  | allocate (n : Nat)
  | zero_allocate (count size : Nat)
  | resize (p n : Nat)
  | release (p : Nat)
deriving DecidableEq, Repr

/-- Perform one call; a `release` is recorded with result `0`. -/
def step (fuel : Nat) (s : State) : Call → Except Err (Nat × State)
  | .allocate n => malloc fuel s n
  | .zero_allocate c n => calloc fuel s c n
  | .resize p n => realloc fuel s p n
  | .release p =>
    match free fuel s p with
    | .error e => .error e
    | .ok s1 => .ok (0, s1)

/-- Perform a sequence of calls, collecting the returned pointers in order. -/
def run (fuel : Nat) : State → List Call → Except Err (List Nat × State)
  | s, [] => .ok ([], s)
  | s, c :: cs =>
    match step fuel s c with
    | .error e => .error e
    | .ok (p, s1) =>
      match run fuel s1 cs with
      | .error e => .error e
      | .ok (ps, s2) => .ok (p :: ps, s2)

/-- What a sequence of calls lets its caller see: the returned pointers, `blocks_start`
and the kernel break (`none` when a call did not return). -/
def outcome (r : Except Err (List Nat × State)) : Option (List Nat × Nat × Nat) :=
  match r with
  | .error _ => none
  | .ok (ps, s) => some (ps, s.blocks_start, s.brk)

/-- The way a call failed to return, if it did. -/
def failure {α : Type} (r : Except Err α) : Option Err :=
  match r with
  | .error e => some e
  | .ok _ => none

/-- The table of live allocations `(pointer, requested size)` after a sequence of calls
with the given results: successful allocations enter it, `release` and `resize`
remove the pointer they were applied to. -/
def liveTable : List Call → List Nat → List (Nat × Nat) → List (Nat × Nat)
  | [], _, t => t
  | _ :: _, [], t => t
  | c :: cs, p :: ps, t =>
    liveTable cs ps
      (match c with
       | .allocate n => if p = 0 ∨ p = FAIL then t else t ++ [(p, n)]
       | .zero_allocate k n => if p = 0 ∨ p = FAIL then t else t ++ [(p, k * n)]
       | .resize q n => t.filter (fun e => decide (e.1 ≠ q)) ++ [(p, n)]
       | .release q => t.filter (fun e => decide (e.1 ≠ q)))

/-- Every `release` and `resize` of the sequence is applied to a pointer that is live
at that moment. -/
def releasesLive : List Call → List Nat → List (Nat × Nat) → Bool
  | [], _, _ => true
  | _ :: _, [], _ => true
  | c :: cs, p :: ps, t =>
    (match c with
     | .resize q _ => decide (q ∈ t.map Prod.fst)
     | .release q => decide (q ∈ t.map Prod.fst)
     | _ => true)
    && releasesLive cs ps (liveTable [c] [p] t)

/-- The payload ranges `[p, p+n)` of the allocations in the table are pairwise disjoint. -/
def PayloadsDisjoint (t : List (Nat × Nat)) : Prop :=
  t.Pairwise (fun a b => a.1 + a.2 ≤ b.1 ∨ b.1 + b.2 ≤ a.1)

instance (t : List (Nat × Nat)) : Decidable (PayloadsDisjoint t) := by
  unfold PayloadsDisjoint; infer_instance

/-- Invariants (i)-(iii) for the blocks at the addresses `x :: xs`, where `prev` is the
header in front of `x`: every header carries the magic number, `prev_` and `next_`
mirror the list, each footprint ends where the next header starts and the last one
ends at the break `brk`. -/
def chain (m : Nat → Option Block) (brk : Nat) : Nat → List Nat → Prop
  | _, [] => True
  | prev, x :: xs =>
    ∃ b, m x = some b ∧ x ≠ 0 ∧ b.magic_ = MAGIC_NUMBER ∧ b.prev_ = prev ∧
      b.next_ = xs.headD 0 ∧ x + getMetaSize + b.size_ = xs.headD brk ∧ chain m brk x xs

/-- The heap is well formed and `l` lists the addresses of its headers in list order. -/
def WellFormed (s : State) (l : List Nat) : Prop :=
  s.blocks_start = l.headD 0 ∧ chain s.hdr s.brk 0 l

/-- Address `a` is reached from `a0` by following `next_` links through `l`. -/
def Linked (m : Nat → Option Block) : Nat → List Nat → Prop
  | a, [] => a = 0
  | a, x :: xs => a = x ∧ x ≠ 0 ∧ ∃ b, m x = some b ∧ Linked m b.next_ xs

/-- The header at address `a` is in the list that starts at `blocks_start`. -/
def InList (s : State) (a : Nat) : Prop :=
  ∃ l, Linked s.hdr s.blocks_start l ∧ a ∈ l

/-- Pointer `p` is live: it is the payload of a used block of size `size` in the list `l`. -/
def Live (s : State) (l : List Nat) (p size : Nat) : Prop :=
  ∃ a b, a ∈ l ∧ s.hdr a = some b ∧ b.used_ = 1 ∧ b.size_ = size ∧ p = a + getMetaSize

/-- The empty heap used in the scenarios: break `4096`, a kernel that grants up to `2^40`,
recognisable memory contents. -/
def heap0 : State := emptyHeap 4096 (2 ^ 40) (fun x => x % 251)

/-- Pointer `p` is one header past a block of the list that is in use and has room for
`n` bytes; `getMallocSize` reports that size. -/
def GoodPtr (s : State) (n p : Nat) : Prop :=
  ∃ a b, p = payload a ∧ InList s a ∧ s.hdr a = some b ∧ b.used_ = 1 ∧ n ≤ b.size_ ∧
    getMallocSize s p = .ok b.size_

/-- The state a sequence of calls leaves behind (the start state if a call does not
return). -/
def stateAfter (fuel : Nat) (s : State) (cs : List Call) : State :=
  match run fuel s cs with
  | .ok (_, s1) => s1
  | .error _ => s

/-! ## Heaps used in the scenarios -/

/-- Two blocks of 64 bytes, the first one released (scenario S1 before its last call). -/
def heapA : State :=
  stateAfter 10 heap0 [Call.allocate 64, Call.allocate 64, Call.release 4136]

/-- Two live blocks of 16 bytes (scenario S5 before the resize). -/
def heapB : State := stateAfter 10 heap0 [Call.allocate 16, Call.allocate 16]

/-- A live block of 8 bytes followed by a live block of `2^32` bytes. -/
def heapD : State := stateAfter 10 heap0 [Call.allocate 8, Call.allocate 4294967296]

/-- An empty heap whose kernel grants at most four more bytes. -/
def heapX : State := emptyHeap 4096 4100 (fun x => x % 251)

/-- One live block of 8 bytes on a kernel that has six bytes left to grant. -/
def heapY : State :=
  stateAfter 10 (emptyHeap 4096 4150 (fun x => x % 251)) [Call.allocate 8]

/-- A released block of 32 bytes followed by a live block of 64 bytes, the last of the
list. -/
def heapF : State :=
  stateAfter 10 heap0 [Call.allocate 32, Call.allocate 64, Call.release 4136]

/-- Two released blocks of 32 bytes followed by a live block of 32 bytes (scenario S3
before its last call). -/
def heapS3 : State :=
  stateAfter 10 heap0 [Call.allocate 32, Call.allocate 32, Call.allocate 32,
    Call.release 4136, Call.release 4208]

/-- A released block of 32 bytes followed by live blocks of 64 and 8 bytes. -/
def heapG : State :=
  stateAfter 10 heap0 [Call.allocate 32, Call.allocate 64, Call.allocate 8, Call.release 4136]

/-- Three live blocks of 16 bytes. -/
def heapH : State :=
  stateAfter 10 heap0 [Call.allocate 16, Call.allocate 16, Call.allocate 16]

/-- The walk of the planner as the specification describes it (section 4.C and claim C15,
not the code): `available` has been accumulated so far, `succs` are the successors still
ahead.  The walk succeeds as soon as `available ≥ need` and fails at a used successor or
behind the last block. -/
def specForwardWalk (m : Nat → Option Block) (need : Nat) : Nat → List Nat → Bool
  | available, [] => decide (need ≤ available)
  | available, x :: xs =>
    decide (need ≤ available) ||
      (match m x with
       | some b =>
         decide (b.used_ = 0) && specForwardWalk m need (available + getMetaSize + b.size_) xs
       | none => false)

/-- The planner `can_forward_satisfy(start, need)` as the specification describes it
(section 4.C and claim C15, not the code): `start` is free and contributes its size
only, every free successor contributes its header and its size. -/
def specCanForwardSatisfy (m : Nat → Option Block) (need start : Nat) (succs : List Nat) :
    Bool :=
  match m start with
  | some b => decide (b.used_ = 0) && specForwardWalk m need b.size_ succs
  | none => false

/-! ## The public functions with their lock calls -/

/-- `malloc` together with the lock calls it makes, in program order, up to the point
where it returns or stops: `pthread_spin_lock` at line 469, `pthread_spin_unlock` at
lines 477, 485, 506 and 520. -/
def mallocL (fuel : Nat) (s : State) (size : Nat) : List LockEv × Except Err (Nat × State) :=
  if size = 0 then ([], .ok (0, s))
  else match findFreeBlock fuel s s.blocks_start size with
    | .error e => ([.lock], .error e)
    | .ok (free_block, s1) =>
      if free_block ≠ 0 then
        match modify s1 free_block (fun b => { b with used_ := 1 }) with
        | .error e => ([.lock], .error e)
        | .ok s2 => ([.lock, .unlock], .ok (payload free_block, s2))
      else
        let r := sbrk s1 (toInt64 ((getMetaSize + size) % WORD))
        let new_block := r.1
        if new_block = FAIL then ([.lock, .unlock], .ok (FAIL, r.2))
        else if new_block = 0 then ([.lock], .error .segv)
        else
          let s3 := put r.2 new_block
            { magic_ := MAGIC_NUMBER, used_ := 1, next_ := 0, prev_ := 0, size_ := size }
          if s3.blocks_start = 0 then
            ([.lock, .unlock], .ok (payload new_block, { s3 with blocks_start := new_block }))
          else match insertBlock fuel s3 new_block s3.blocks_start with
            | .error e => ([.lock], .error e)
            | .ok s4 => ([.lock, .unlock], .ok (payload new_block, s4))

/-- `free` together with its lock calls: `pthread_spin_lock` at line 541,
`pthread_spin_unlock` at lines 548, 562 and 573. -/
def freeL (fuel : Nat) (s : State) (ptr : Nat) : List LockEv × Except Err State :=
  if ptr = 0 then ([], .ok s)
  else match load s (header ptr) with
    | .error e => ([.lock], .error e)
    | .ok block =>
      if block.magic_ ≠ MAGIC_NUMBER then ([.lock, .unlock], .error .exit)
      else if block.used_ = 0 then ([.lock, .unlock], .ok s)
      else match modify s (header ptr) (fun b => { b with used_ := 0 }) with
        | .error e => ([.lock], .error e)
        | .ok s1 =>
          if block.next_ = 0 then
            match freeBlocks fuel s1 (header ptr) with
            | .error e => ([.lock], .error e)
            | .ok s2 => ([.lock, .unlock], .ok s2)
          else ([.lock, .unlock], .ok s1)

/-- The tail of the fallback path of `realloc` with its lock calls:
`pthread_spin_unlock` at lines 415 and 420. -/
def copyIntoL (s : State) (new_block_data ptr : Nat) :
    List LockEv × Except Err (Nat × State) :=
  match load s (header new_block_data) with
  | .error e => ([], .error e)
  | .ok new_block =>
    if new_block.magic_ ≠ MAGIC_NUMBER then ([.unlock], .error .exit)
    else match load s (header ptr) with
      | .error e => ([], .error e)
      | .ok block =>
        ([.unlock],
          .ok (new_block_data, { s with bytes := memcpy s.bytes new_block_data ptr block.size_ }))

/-- `realloc` together with its lock calls: `pthread_spin_lock` at lines 373 and 408,
`pthread_spin_unlock` at lines 380, 391, 400 and 405; `realloc(NULL, size)` and the
fallback path call `malloc` with the lock released. -/
def reallocL (fuel : Nat) (s : State) (ptr size : Nat) :
    List LockEv × Except Err (Nat × State) :=
  if ptr = 0 then mallocL fuel s size
  else match load s (header ptr) with
    | .error e => ([.lock], .error e)
    | .ok block =>
      if block.magic_ ≠ MAGIC_NUMBER then ([.lock, .unlock], .error .exit)
      else match modify s (header ptr) (fun b => { b with used_ := 0 }) with
        | .error e => ([.lock], .error e)
        | .ok s1 =>
          match (if block.next_ ≠ 0 then checkForwardMerge fuel s1 (header ptr) size 0
                 else .ok 0) with
          | .error e => ([.lock], .error e)
          | .ok fwd =>
            if fwd ≠ 0 then
              match forwardBlockMerge fuel s1 (header ptr) (header ptr) size 0 with
              | .error e => ([.lock], .error e)
              | .ok s2 => ([.lock, .unlock], .ok (payload (header ptr), s2))
            else
              match (if block.prev_ ≠ 0 then checkBackwardMerge fuel s1 (header ptr) size 0
                     else .ok 0) with
              | .error e => ([.lock], .error e)
              | .ok bwd =>
                if bwd ≠ 0 then
                  match backwardBlockMerge fuel s1 (header ptr) (header ptr) size 0 with
                  | .error e => ([.lock], .error e)
                  | .ok (merged, s2) =>
                    match load s2 (header ptr) with
                    | .error e => ([.lock], .error e)
                    | .ok old =>
                      ([.lock, .unlock], .ok (payload merged,
                        { s2 with bytes := memcpy s2.bytes (payload merged) ptr old.size_ }))
                else
                  match mallocL fuel s1 size with
                  | (t, .error e) => ([.lock, .unlock] ++ t, .error e)
                  | (t, .ok (new_block_data, s2)) =>
                    ([.lock, .unlock] ++ t ++ [.lock] ++ (copyIntoL s2 new_block_data ptr).1,
                      (copyIntoL s2 new_block_data ptr).2)

/-- `calloc` together with its lock calls: `pthread_spin_lock` at line 439, the call of
`malloc` at line 441 with the lock held, `pthread_spin_unlock` at lines 444 and 447.  The
first component lists the lock calls in program order, the second is what the statements
between them compute; `calloc` returns it only when every acquire step of the first
component is enabled. -/
def callocL (fuel : Nat) (s : State) (nmemb size : Nat) :
    List LockEv × Except Err (Nat × State) :=
  if nmemb = 0 ∨ size = 0 then ([], .ok (0, s))
  else match mallocL fuel s ((nmemb * size) % WORD) with
    | (t, .error e) => (.lock :: t, .error e)
    | (t, .ok (alloced_memory, s1)) =>
      if alloced_memory = 0 then (.lock :: t ++ [.unlock], .ok (0, s1))
      else (.lock :: t ++ [.unlock], .ok (alloced_memory,
        { s1 with bytes := memset s1.bytes alloced_memory 0 ((nmemb * size) % WORD) }))

/-- The lock discipline of one call entered with the lock free: no acquire step is
attempted while the lock is held, and the lock is free again if the call returns. -/
def LockOk {α : Type} (r : List LockEv × Except Err α) : Prop :=
  match r.2 with
  | .ok _ => runLocks false r.1 = some false
  | .error _ => runLocks false r.1 ≠ none

/-- The bytes a block gains when it absorbs the blocks `xs`: `sizeof(struct Block)` plus
the payload size for each of them (the sum of claims C16 and C17). -/
def absorbed (m : Nat → Option Block) : List Nat → Nat
  | [] => 0
  | x :: xs => getMetaSize + ((m x).map Block.size_).getD 0 + absorbed m xs

/-- A released block of 16 bytes followed by a live block of 16 bytes, the last of the
list. -/
def heapE : State :=
  stateAfter 10 heap0 [Call.allocate 16, Call.allocate 16, Call.release 4136]

/-- Released blocks of 8 bytes at 4096 and 4248 around the live block of 64 bytes at 4144,
followed by a live block of 8 bytes. -/
def heapL : State :=
  stateAfter 10 heap0 [Call.allocate 8, Call.allocate 64, Call.allocate 8, Call.allocate 8,
    Call.release 4136, Call.release 4288]

/-- Live blocks of 16 bytes at 4096 and 4152, a released block of 64 bytes at 4208 and a
live block of 8 bytes at 4312. -/
def heapR : State :=
  stateAfter 10 heap0 [Call.allocate 16, Call.allocate 16, Call.allocate 64, Call.allocate 8,
    Call.release 4248]

/-! ## Headers, chains and the list reached from `blocks_start` -/

theorem load_ok {s : State} {a : Nat} {b : Block} (ha : a ≠ 0) (h : s.hdr a = some b) :
    load s a = .ok b := by
  simp [load, ha, h]

theorem load_ok_iff {s : State} {a : Nat} {b : Block} :
    load s a = .ok b ↔ a ≠ 0 ∧ s.hdr a = some b := by
  unfold load
  by_cases ha : a = 0
  · simp [ha]
  · cases h : s.hdr a <;> simp [ha]

theorem modify_ok_iff {s s1 : State} {a : Nat} {f : Block → Block} :
    modify s a f = .ok s1 ↔ ∃ b, a ≠ 0 ∧ s.hdr a = some b ∧ s1 = put s a (f b) := by
  unfold modify
  cases h : load s a with
  | error e =>
    constructor
    · intro h1; cases h1
    · rintro ⟨b, hb⟩
      have := load_ok hb.1 hb.2.1
      rw [h] at this
      cases this
  | ok b =>
    rw [load_ok_iff] at h
    constructor
    · intro h1
      injection h1 with h1
      exact ⟨b, h.1, h.2, h1.symm⟩
    · rintro ⟨b1, _, hb1, rfl⟩
      rw [h.2] at hb1
      injection hb1 with hb1
      rw [hb1]

@[simp] theorem put_hdr (s : State) (a : Nat) (b : Block) (x : Nat) :
    (put s a b).hdr x = if x = a then some b else s.hdr x := rfl
@[simp] theorem put_bytes (s : State) (a : Nat) (b : Block) : (put s a b).bytes = s.bytes := rfl
@[simp] theorem put_brk (s : State) (a : Nat) (b : Block) : (put s a b).brk = s.brk := rfl
@[simp] theorem put_brkMax (s : State) (a : Nat) (b : Block) : (put s a b).brkMax = s.brkMax := rfl
@[simp] theorem put_blocks_start (s : State) (a : Nat) (b : Block) :
    (put s a b).blocks_start = s.blocks_start := rfl

theorem chain_cons {m : Nat → Option Block} {brk pv x : Nat} {xs : List Nat} :
    chain m brk pv (x :: xs) ↔
      ∃ b, m x = some b ∧ x ≠ 0 ∧ b.magic_ = MAGIC_NUMBER ∧ b.prev_ = pv ∧
        b.next_ = xs.headD 0 ∧ x + getMetaSize + b.size_ = xs.headD brk ∧ chain m brk x xs :=
  Iff.rfl

/-- Every block of a chain lies in front of the break (footprint included). -/
theorem chain_le_brk {m : Nat → Option Block} {brk : Nat} :
    ∀ (l : List Nat) (pv : Nat), chain m brk pv l →
      ∀ y ∈ l, ∃ b, m y = some b ∧ y + getMetaSize + b.size_ ≤ brk
  | [], _, _, y, hy => by cases hy
  | x :: xs, pv, h, y, hy => by
    obtain ⟨b, hb, _, _, _, _, hend, hrest⟩ := h
    have ih := chain_le_brk xs x hrest
    cases xs with
    | nil =>
      simp at hy
      subst hy
      exact ⟨b, hb, by simpa using hend.le⟩
    | cons z zs =>
      rcases List.mem_cons.1 hy with rfl | hy
      · obtain ⟨bz, hbz, hle⟩ := ih z (List.mem_cons_self _ _)
        refine ⟨b, hb, ?_⟩
        simp at hend
        simp [getMetaSize] at *
        omega
      · exact ih y hy

/-- Blocks further down a chain start at or after the end of the first footprint. -/
theorem chain_head_lt {m : Nat → Option Block} {brk : Nat} :
    ∀ (xs : List Nat) (pv x : Nat), chain m brk pv (x :: xs) →
      ∀ y ∈ xs, ∃ b, m x = some b ∧ x + getMetaSize + b.size_ ≤ y
  | [], _, _, _, y, hy => by cases hy
  | z :: zs, pv, x, h, y, hy => by
    obtain ⟨b, hb, _, _, _, _, hend, hrest⟩ := h
    simp at hend
    refine ⟨b, hb, ?_⟩
    rcases List.mem_cons.1 hy with rfl | hy
    · omega
    · obtain ⟨bz, hbz, hle⟩ := chain_head_lt zs x z hrest y hy
      simp [getMetaSize] at *
      omega

theorem chain_not_mem {m : Nat → Option Block} {brk pv x : Nat} {xs : List Nat}
    (h : chain m brk pv (x :: xs)) : x ∉ xs := by
  intro hx
  obtain ⟨b, _, hle⟩ := chain_head_lt xs pv x h x hx
  simp [getMetaSize] at hle
  omega

theorem chain_frame {m m1 : Nat → Option Block} {brk : Nat} :
    ∀ (l : List Nat) (pv : Nat), (∀ x ∈ l, m1 x = m x) → chain m brk pv l → chain m1 brk pv l
  | [], _, _, _ => trivial
  | x :: xs, pv, hm, h => by
    obtain ⟨b, hb, h1, h2, h3, h4, h5, hrest⟩ := h
    refine ⟨b, ?_, h1, h2, h3, h4, h5, chain_frame xs x (fun y hy => hm y (List.mem_cons_of_mem _ hy)) hrest⟩
    rw [hm x (List.mem_cons_self _ _)]
    exact hb

theorem chain_linked {m : Nat → Option Block} {brk : Nat} :
    ∀ (l : List Nat) (pv : Nat), chain m brk pv l → Linked m (l.headD 0) l
  | [], _, _ => rfl
  | x :: xs, pv, h => by
    obtain ⟨b, hb, h1, _, _, h4, _, hrest⟩ := h
    refine ⟨rfl, h1, b, hb, ?_⟩
    rw [h4]
    exact chain_linked xs x hrest

theorem linked_frame {m m1 : Nat → Option Block} :
    ∀ (l : List Nat) (a : Nat),
      (∀ x ∈ l, (m1 x).map Block.next_ = (m x).map Block.next_) → Linked m a l → Linked m1 a l
  | [], _, _, h => h
  | x :: xs, a, hm, h => by
    obtain ⟨h0, h1, b, hb, hrest⟩ := h
    have hx := hm x (List.mem_cons_self _ _)
    rw [hb] at hx
    cases hb1 : m1 x with
    | none => rw [hb1] at hx; cases hx
    | some b1 =>
      rw [hb1] at hx
      simp at hx
      refine ⟨h0, h1, b1, hb1, ?_⟩
      rw [hx]
      exact linked_frame xs _ (fun y hy => hm y (List.mem_cons_of_mem _ hy)) hrest

theorem checkForwardMerge_step {s : State} {cur : Nat} {b : Block} (fp n a : Nat)
    (h0 : cur ≠ 0) (hb : s.hdr cur = some b) (hm : b.magic_ = MAGIC_NUMBER) :
    checkForwardMerge (fp + 1) s cur n a =
      if n ≤ a then .ok 1
      else if b.used_ ≠ 0 then .ok 0
      else checkForwardMerge fp s b.next_ n ((a + getMetaSize + b.size_) % WORD) := by
  rw [checkForwardMerge]
  simp only [h0, load_ok h0 hb, hm, if_false, ne_eq, not_true_eq_false, ge_iff_le]
  by_cases h1 : n ≤ a
  · simp [h1]
  · by_cases h2 : b.used_ = 0
    · simp [h1, h2]
    · simp [h1, h2]

theorem checkForwardMerge_null (fp : Nat) (s : State) (n a : Nat) :
    checkForwardMerge fp s 0 n a ≠ .ok 1 := by
  cases fp <;> simp [checkForwardMerge]

theorem forwardBlockMerge_step {s : State} {cur : Nat} {b : Block} (fe first n A : Nat)
    (h0 : cur ≠ 0) (hb : s.hdr cur = some b) (hm : b.magic_ = MAGIC_NUMBER) :
    forwardBlockMerge (fe + 1) s first cur n A =
      if n ≤ (if cur = first then b.size_ else (A + b.size_ + getMetaSize) % WORD) then
        forwardLink s first cur (if cur = first then b.size_ else (A + b.size_ + getMetaSize) % WORD)
      else if A < n ∧ b.used_ = 0 then
        forwardBlockMerge fe s first b.next_ n
          (if cur = first then b.size_ else (A + b.size_ + getMetaSize) % WORD)
      else .ok s := by
  rw [forwardBlockMerge]
  simp only [load_ok h0 hb, hm, ne_eq, not_true_eq_false, if_false, ge_iff_le]
  by_cases h1 : cur = first <;> simp [h1]

/-- Once the planner has accepted, the executor reaches its merging branch. -/
theorem forward_agree {s : State} {brk n first : Nat} (hbrk : brk < WORD) :
    ∀ (rest : List Nat) (pv cur A fp fe : Nat) (s1 : State),
      chain s.hdr brk pv (cur :: rest) → cur ≠ first → A + getMetaSize + first = cur → A < n →
      checkForwardMerge fp s cur n (A + getMetaSize) = .ok 1 →
      forwardBlockMerge fe s first cur n A = .ok s1 →
      ∃ c ca, c ∈ cur :: rest ∧ n ≤ ca ∧ forwardLink s first c ca = .ok s1 := by
  intro rest
  induction rest with
  | nil =>
    intro pv cur A fp fe s1 hch hne hA hlt hp he
    obtain ⟨b, hb, h0, hmag, _, hnext, hend, _⟩ := hch
    simp at hnext hend
    cases fp with
    | zero => simp [checkForwardMerge] at hp
    | succ fp =>
      cases fe with
      | zero => simp [forwardBlockMerge] at he
      | succ fe =>
        rw [checkForwardMerge_step fp n _ h0 hb hmag] at hp
        rw [forwardBlockMerge_step fe first n A h0 hb hmag] at he
        simp only [hne, if_false] at he
        have hca : (A + b.size_ + getMetaSize) % WORD = A + b.size_ + getMetaSize := by
          apply Nat.mod_eq_of_lt
          simp [getMetaSize] at *
          omega
        rw [hca] at he
        by_cases h1 : n ≤ A + getMetaSize
        · have h2 : n ≤ A + b.size_ + getMetaSize := by omega
          rw [if_pos h2] at he
          exact ⟨cur, _, List.mem_cons_self _ _, h2, he⟩
        · rw [if_neg h1] at hp
          by_cases h3 : b.used_ = 0
          · simp only [h3, ne_eq, not_true_eq_false, if_false, hnext] at hp
            exact absurd hp (checkForwardMerge_null _ _ _ _)
          · simp [h3] at hp
  | cons y ys ih =>
    intro pv cur A fp fe s1 hch hne hA hlt hp he
    have hch0 := hch
    obtain ⟨b, hb, h0, hmag, _, hnext, hend, hrest⟩ := hch
    simp at hnext hend
    obtain ⟨by1, hby, hyle⟩ := chain_le_brk _ _ hrest y (List.mem_cons_self _ _)
    cases fp with
    | zero => simp [checkForwardMerge] at hp
    | succ fp =>
      cases fe with
      | zero => simp [forwardBlockMerge] at he
      | succ fe =>
        rw [checkForwardMerge_step fp n _ h0 hb hmag] at hp
        rw [forwardBlockMerge_step fe first n A h0 hb hmag] at he
        simp only [hne, if_false] at he
        have hca : (A + b.size_ + getMetaSize) % WORD = A + b.size_ + getMetaSize := by
          apply Nat.mod_eq_of_lt
          simp [getMetaSize] at *
          omega
        rw [hca] at he
        by_cases h2 : n ≤ A + b.size_ + getMetaSize
        · rw [if_pos h2] at he
          exact ⟨cur, _, List.mem_cons_self _ _, h2, he⟩
        · rw [if_neg h2] at he
          have h1 : ¬ n ≤ A + getMetaSize := by omega
          rw [if_neg h1] at hp
          by_cases h3 : b.used_ = 0
          · simp only [h3, ne_eq, not_true_eq_false, if_false, hnext] at hp
            simp only [h3, hlt, and_self, if_true, hnext] at he
            have hpa : (A + getMetaSize + getMetaSize + b.size_) % WORD
                = (A + b.size_ + getMetaSize) + getMetaSize := by
              rw [Nat.mod_eq_of_lt]
              · omega
              · simp [getMetaSize] at *
                omega
            rw [hpa] at hp
            obtain ⟨c, ca, hc, hn, hl⟩ := ih cur y (A + b.size_ + getMetaSize) fp fe s1 hrest
              (by simp [getMetaSize] at *; omega) (by simp [getMetaSize] at *; omega)
              (by omega) hp he
            exact ⟨c, ca, List.mem_cons_of_mem _ hc, hn, hl⟩
          · simp [h3] at hp

theorem forwardLink_spec {s s1 : State} {first c ca : Nat} {f cb : Block}
    (hf : s.hdr first = some f) (hc : s.hdr c = some cb) (hzf : cb.next_ ≠ first)
    (h : forwardLink s first c ca = .ok s1) :
    first ≠ 0 ∧ cb.next_ ≠ 0 ∧ ∃ zb, s.hdr cb.next_ = some zb ∧
      s1.hdr = (fun x => if x = first then
                  some { f with next_ := cb.next_, size_ := ca, used_ := 1 }
                else if x = cb.next_ then some { zb with prev_ := first } else s.hdr x) ∧
      s1.bytes = s.bytes ∧ s1.brk = s.brk ∧ s1.brkMax = s.brkMax ∧
      s1.blocks_start = s.blocks_start := by
  unfold forwardLink at h
  cases hl : load s c with
  | error e => rw [hl] at h; cases h
  | ok cb1 =>
    rw [hl] at h
    obtain ⟨_, hc1⟩ := load_ok_iff.1 hl
    rw [hc] at hc1
    injection hc1 with hc1
    subst hc1
    simp only at h
    cases h1 : modify s first (fun b => { b with next_ := cb.next_ }) with
    | error e => rw [h1] at h; cases h
    | ok s2 =>
      rw [h1] at h
      simp only at h
      obtain ⟨f1, hf0, hf1, rfl⟩ := modify_ok_iff.1 h1
      rw [hf] at hf1
      injection hf1 with hf1
      subst hf1
      cases h2 : modify (put s first { f with next_ := cb.next_ }) first
          (fun b => { b with size_ := ca }) with
      | error e => rw [h2] at h; cases h
      | ok s3 =>
        rw [h2] at h
        simp only at h
        obtain ⟨f2, _, hf2, rfl⟩ := modify_ok_iff.1 h2
        simp at hf2
        subst hf2
        cases h3 : modify (put (put s first { f with next_ := cb.next_ }) first
            { f with next_ := cb.next_, size_ := ca }) cb.next_
            (fun b => { b with prev_ := first }) with
        | error e => rw [h3] at h; cases h
        | ok s4 =>
          rw [h3] at h
          obtain ⟨zb, hz0, hz, rfl⟩ := modify_ok_iff.1 h3
          simp [hzf] at hz
          obtain ⟨f3, _, hf3, rfl⟩ := modify_ok_iff.1 h
          simp [Ne.symm hzf] at hf3
          subst hf3
          refine ⟨hf0, hz0, zb, hz, ?_, rfl, rfl, rfl, rfl⟩
          funext x
          simp
          by_cases hx : x = first
          · simp [hx]
          · simp [hx]

theorem chain_append_right {m : Nat → Option Block} {brk : Nat} :
    ∀ (l1 l2 : List Nat) (pv : Nat), chain m brk pv (l1 ++ l2) → chain m brk (l1.getLastD pv) l2
  | [], _, _, h => h
  | [x], l2, pv, h => by
    obtain ⟨b, _, _, _, _, _, _, hrest⟩ := h
    exact hrest
  | x :: y :: ys, l2, pv, h => by
    obtain ⟨b, _, _, _, _, _, _, hrest⟩ := h
    have := chain_append_right (y :: ys) l2 x hrest
    simpa [List.getLastD] using this

theorem chain_append_lt {m : Nat → Option Block} {brk : Nat} :
    ∀ (l1 l2 : List Nat) (pv x : Nat), chain m brk pv (l1 ++ x :: l2) → ∀ y ∈ l1, y < x
  | [], _, _, _, _, y, hy => by cases hy
  | z :: zs, l2, pv, x, h, y, hy => by
    rcases List.mem_cons.1 hy with rfl | hy
    · obtain ⟨b, _, hle⟩ := chain_head_lt (zs ++ x :: l2) pv y h x (by simp)
      simp [getMetaSize] at hle
      omega
    · obtain ⟨b, _, _, _, _, _, _, hrest⟩ := h
      exact chain_append_lt zs l2 z x hrest y hy

theorem linked_replace_tail {m m1 : Nat → Option Block} {x : Nat} {r r1 : List Nat} :
    ∀ (l1 : List Nat) (a : Nat), Linked m a (l1 ++ x :: r) →
      (∀ y ∈ l1, (m1 y).map Block.next_ = (m y).map Block.next_) →
      Linked m1 x (x :: r1) → Linked m1 a (l1 ++ x :: r1)
  | [], a, h, _, h1 => by
    obtain ⟨h0, _⟩ := h
    rw [h0]
    exact h1
  | y :: ys, a, h, hm, h1 => by
    obtain ⟨h0, hy0, b, hb, hrest⟩ := h
    have hy := hm y (List.mem_cons_self _ _)
    rw [hb] at hy
    cases hb1 : m1 y with
    | none => rw [hb1] at hy; cases hy
    | some b1 =>
      rw [hb1] at hy
      simp at hy
      refine ⟨h0, hy0, b1, hb1, ?_⟩
      rw [hy]
      exact linked_replace_tail ys _ hrest (fun z hz => hm z (List.mem_cons_of_mem _ hz)) h1

/-- State after the merging branch of the forward executor, seen from the list. -/
theorem forward_merge_post {s s1 : State} {l1 rest : List Nat} {first c ca : Nat}
    (hch : chain s.hdr s.brk 0 (l1 ++ first :: rest))
    (hhead : s.blocks_start = (l1 ++ first :: rest).headD 0)
    (hc : c ∈ first :: rest) (h : forwardLink s first c ca = .ok s1) :
    InList s1 first ∧
      (∃ b, s1.hdr first = some b ∧ b.size_ = ca ∧ b.used_ = 1 ∧ b.magic_ = MAGIC_NUMBER) ∧
      s1.bytes = s.bytes ∧ s1.brk = s.brk ∧ s1.brkMax = s.brkMax ∧
      (∀ x, x ≠ first → (s1.hdr x).map Block.size_ = (s.hdr x).map Block.size_) := by
  have hsuf := chain_append_right l1 (first :: rest) 0 hch
  obtain ⟨l0, l3, hsplit⟩ := List.append_of_mem hc
  have hcch : chain s.hdr s.brk (l0.getLastD (l1.getLastD 0)) (c :: l3) := by
    rw [hsplit] at hsuf
    exact chain_append_right l0 (c :: l3) _ hsuf
  obtain ⟨f, hf, hf0, hfmag, _, _, _, _⟩ := hsuf
  obtain ⟨cb, hcb, hc0, _, _, hcnext, hcend, hl3⟩ := hcch
  -- every block behind `first` starts later than `first`
  have hlater : ∀ y ∈ rest, first < y := by
    intro y hy
    obtain ⟨b, hb, hle⟩ := chain_head_lt rest _ first (chain_append_right l1 (first :: rest) 0 hch) y hy
    simp [getMetaSize] at hle
    omega
  have hl3sub : ∀ y ∈ l3, y ∈ rest := by
    intro y hy
    rcases l0 with _ | ⟨w, ws⟩
    · simp at hsplit; rw [hsplit.2]; exact hy
    · simp at hsplit; rw [hsplit.2]; simp [hy]
  have hzf : cb.next_ ≠ first := by
    rw [hcnext]
    cases l3 with
    | nil =>
      intro h0
      simp at h0
      exact hf0 h0.symm
    | cons z zs =>
      simp
      have := hlater z (hl3sub z (List.mem_cons_self _ _))
      omega
  obtain ⟨_, hz0, zb, hzb, hhdr, hby, hbrk, hmax, hstart⟩ := forwardLink_spec hf hcb hzf h
  have hnext : ∀ x, x ≠ first → (s1.hdr x).map Block.next_ = (s.hdr x).map Block.next_ := by
    intro x hx
    rw [hhdr]
    by_cases hxz : x = cb.next_
    · subst hxz; simp [hzf, hzb]
    · simp [hx, hxz]
  have hsize : ∀ x, x ≠ first → (s1.hdr x).map Block.size_ = (s.hdr x).map Block.size_ := by
    intro x hx
    rw [hhdr]
    by_cases hxz : x = cb.next_
    · subst hxz; simp [hzf, hzb]
    · simp [hx, hxz]
  have hfirst : s1.hdr first = some { f with next_ := cb.next_, size_ := ca, used_ := 1 } := by
    rw [hhdr]; simp
  refine ⟨?_, ⟨_, hfirst, rfl, rfl, hfmag⟩, hby, hbrk, hmax, hsize⟩
  refine ⟨l1 ++ first :: l3, ?_, by simp⟩
  have hlinked := chain_linked _ _ hch
  rw [hstart, hhead]
  refine linked_replace_tail l1 _ hlinked ?_ ?_
  · intro y hy
    apply hnext
    have := chain_append_lt l1 rest 0 first hch y hy
    omega
  · refine ⟨rfl, hf0, _, hfirst, ?_⟩
    simp only
    rw [hcnext]
    have := chain_linked l3 c hl3
    refine linked_frame l3 _ ?_ this
    intro y hy
    apply hnext
    have := hlater y (hl3sub y hy)
    omega

/-- Planner/executor agreement from the start block. -/
theorem forward_top {s : State} {brk n first : Nat} (hbrk : brk < WORD) (hn : 0 < n)
    {rest : List Nat} {pv fp fe : Nat} {s1 : State}
    (hch : chain s.hdr brk pv (first :: rest))
    (hp : checkForwardMerge fp s first n 0 = .ok 1)
    (he : forwardBlockMerge fe s first first n 0 = .ok s1) :
    ∃ c ca, c ∈ first :: rest ∧ n ≤ ca ∧ forwardLink s first c ca = .ok s1 := by
  have hch0 := hch
  obtain ⟨b, hb, h0, hmag, _, hnext, hend, hrest⟩ := hch
  cases fp with
  | zero => simp [checkForwardMerge] at hp
  | succ fp =>
    cases fe with
    | zero => simp [forwardBlockMerge] at he
    | succ fe =>
      rw [checkForwardMerge_step fp n _ h0 hb hmag] at hp
      rw [forwardBlockMerge_step fe first n 0 h0 hb hmag] at he
      simp only [if_true] at he
      have h1 : ¬ n ≤ 0 := by omega
      rw [if_neg h1] at hp
      by_cases h3 : b.used_ = 0
      · simp only [h3, ne_eq, not_true_eq_false, if_false] at hp
        by_cases h2 : n ≤ b.size_
        · rw [if_pos h2] at he
          exact ⟨first, _, List.mem_cons_self _ _, h2, he⟩
        · rw [if_neg h2] at he
          simp only [hn, h3, and_self, if_true] at he
          cases rest with
          | nil =>
            simp at hnext
            rw [hnext] at hp
            exact absurd hp (checkForwardMerge_null _ _ _ _)
          | cons y ys =>
            simp at hnext hend
            rw [hnext] at hp he
            obtain ⟨by1, hby, hyle⟩ := chain_le_brk _ _ hrest y (List.mem_cons_self _ _)
            have hpa : (0 + getMetaSize + b.size_) % WORD = b.size_ + getMetaSize := by
              rw [Nat.mod_eq_of_lt]
              · omega
              · simp [getMetaSize] at *
                omega
            rw [hpa] at hp
            obtain ⟨c, ca, hc, hca, hl⟩ := forward_agree hbrk ys first y b.size_ fp fe s1 hrest
              (by simp [getMetaSize] at *; omega) (by simp [getMetaSize] at *; omega)
              (by omega) hp he
            exact ⟨c, ca, List.mem_cons_of_mem _ hc, hca, hl⟩
      · simp [h3] at hp

/-- What `findFreeBlock` returns on a well-formed list: nothing and an untouched state,
or a block of the list that is large enough. -/
theorem findFreeBlock_spec {s : State} {n : Nat} (hbrk : s.brk < WORD) (hn : 0 < n) :
    ∀ (l2 l1 : List Nat) (fuel r : Nat) (s1 : State),
      chain s.hdr s.brk 0 (l1 ++ l2) → s.blocks_start = (l1 ++ l2).headD 0 →
      findFreeBlock fuel s (l2.headD 0) n = .ok (r, s1) →
      (r = 0 ∧ s1 = s) ∨
      (r ∈ l2 ∧ r ≠ 0 ∧ InList s1 r ∧
        (∃ b, s1.hdr r = some b ∧ n ≤ b.size_ ∧ b.magic_ = MAGIC_NUMBER) ∧
        s1.bytes = s.bytes ∧ s1.brk = s.brk ∧ s1.brkMax = s.brkMax ∧
        (∀ x, x ≠ r → (s1.hdr x).map Block.size_ = (s.hdr x).map Block.size_)) := by
  intro l2
  induction l2 with
  | nil =>
    intro l1 fuel r s1 _ _ h
    cases fuel with
    | zero => simp [findFreeBlock] at h
    | succ fuel =>
      simp [findFreeBlock] at h
      exact Or.inl ⟨h.1.symm, h.2.symm⟩
  | cons x xs ih =>
    intro l1 fuel r s1 hch hhead h
    have hsuf := chain_append_right l1 (x :: xs) 0 hch
    obtain ⟨b, hb, h0, hmag, _, hnext, hend, hrest⟩ := hsuf
    cases fuel with
    | zero => simp [findFreeBlock] at h
    | succ fuel =>
      rw [findFreeBlock] at h
      simp only [List.headD_cons, h0, if_false, load_ok h0 hb, hmag, ne_eq,
        not_true_eq_false] at h
      have hrec : (if ¬ b.next_ = 0 then findFreeBlock fuel s b.next_ n else .ok (0, s))
            = .ok (r, s1) →
          (r = 0 ∧ s1 = s) ∨
          (r ∈ x :: xs ∧ r ≠ 0 ∧ InList s1 r ∧
            (∃ b, s1.hdr r = some b ∧ n ≤ b.size_ ∧ b.magic_ = MAGIC_NUMBER) ∧
            s1.bytes = s.bytes ∧ s1.brk = s.brk ∧ s1.brkMax = s.brkMax ∧
            (∀ x, x ≠ r → (s1.hdr x).map Block.size_ = (s.hdr x).map Block.size_)) := by
        intro hr
        by_cases hnz : b.next_ = 0
        · simp [hnz] at hr
          exact Or.inl ⟨hr.1.symm, hr.2.symm⟩
        · simp only [hnz, not_false_eq_true, if_true] at hr
          rw [hnext] at hr
          have hch2 : chain s.hdr s.brk 0 ((l1 ++ [x]) ++ xs) := by simpa using hch
          have hhead2 : s.blocks_start = ((l1 ++ [x]) ++ xs).headD 0 := by simpa using hhead
          rcases ih (l1 ++ [x]) fuel r s1 hch2 hhead2 hr with h1 | ⟨h1, h2⟩
          · exact Or.inl h1
          · exact Or.inr ⟨List.mem_cons_of_mem _ h1, h2⟩
      by_cases hdirect : b.used_ = 0 ∧ n ≤ b.size_
      · rw [if_pos hdirect] at h
        injection h with h
        injection h with hr hs
        subst hr hs
        refine Or.inr ⟨List.mem_cons_self _ _, h0, ?_, ⟨b, hb, hdirect.2, hmag⟩, rfl, rfl, rfl,
          fun _ _ => rfl⟩
        exact ⟨l1 ++ x :: xs, by rw [hhead]; exact chain_linked _ _ hch, by simp⟩
      · rw [if_neg hdirect] at h
        by_cases hu : b.used_ = 0
        · rw [if_pos hu] at h
          cases hp : checkForwardMerge (fuel + 1) s x n 0 with
          | error e => rw [hp] at h; cases h
          | ok v =>
            rw [hp] at h
            simp only at h
            by_cases hv : v = 1
            · rw [if_pos hv] at h
              subst hv
              cases he : forwardBlockMerge (fuel + 1) s x x n 0 with
              | error e => rw [he] at h; cases h
              | ok s2 =>
                rw [he] at h
                injection h with h
                injection h with hr hs
                subst hr hs
                obtain ⟨c, ca, hc, hca, hl⟩ := forward_top hbrk hn
                  (chain_append_right l1 (x :: xs) 0 hch) hp he
                obtain ⟨hin, ⟨b2, hb2, hsz, hu2, hm2⟩, hby, hbk, hmx, hsize⟩ :=
                  forward_merge_post hch hhead hc hl
                exact Or.inr ⟨List.mem_cons_self _ _, h0, hin, ⟨b2, hb2, by omega, hm2⟩,
                  hby, hbk, hmx, hsize⟩
            · rw [if_neg hv] at h
              exact hrec h
        · rw [if_neg hu] at h
          exact hrec h

/-- `insertBlock` hangs the new header behind the last block of the list. -/
theorem insertBlock_spec {brk new : Nat} {nb : Block} (hnew0 : new ≠ 0) (hnb : nb.next_ = 0) :
    ∀ (xs : List Nat) (x pv fuel : Nat) (s s4 : State),
      chain s.hdr brk pv (x :: xs) → new ∉ x :: xs → s.hdr new = some nb →
      insertBlock fuel s new x = .ok s4 →
      Linked s4.hdr x (x :: xs ++ [new]) ∧
      (∃ q, s4.hdr new = some { nb with prev_ := q }) ∧
      (∀ z, z ∉ x :: xs → z ≠ new → s4.hdr z = s.hdr z) ∧
      (∀ z, (s4.hdr z).map Block.size_ = (s.hdr z).map Block.size_) ∧
      s4.bytes = s.bytes ∧ s4.brk = s.brk ∧ s4.brkMax = s.brkMax ∧
      s4.blocks_start = s.blocks_start := by
  intro xs
  induction xs with
  | nil =>
    intro x pv fuel s s4 hch hnot hnewh h
    obtain ⟨b, hb, h0, hmag, _, hnext, _, _⟩ := hch
    simp at hnext hnot
    cases fuel with
    | zero => simp [insertBlock] at h
    | succ fuel =>
      rw [insertBlock] at h
      simp only [load_ok h0 hb, hmag, ne_eq, not_true_eq_false, if_false, hnext, if_true] at h
      cases h1 : modify s x (fun b => { b with next_ := new }) with
      | error e => rw [h1] at h; cases h
      | ok s2 =>
        rw [h1] at h
        obtain ⟨b1, _, hb1, rfl⟩ := modify_ok_iff.1 h1
        rw [hb] at hb1
        injection hb1 with hb1
        subst hb1
        obtain ⟨b2, _, hb2, rfl⟩ := modify_ok_iff.1 h
        simp [hnot, hnewh] at hb2
        subst hb2
        refine ⟨?_, ⟨x, by simp⟩, ?_, ?_, rfl, rfl, rfl, rfl⟩
        · refine ⟨rfl, h0, { b with next_ := new }, by simp [Ne.symm hnot], ?_⟩
          refine ⟨rfl, hnew0, { nb with prev_ := x }, by simp, ?_⟩
          simpa [Linked] using hnb
        · intro z hz1 hz2
          simp at hz1
          simp [hz1, hz2]
        · intro z
          by_cases hz2 : z = new
          · simp [hz2, hnewh]
          · by_cases hz1 : z = x
            · simp [hz2, hz1, hb, Ne.symm hnot]
            · simp [hz1, hz2]
  | cons y ys ih =>
    intro x pv fuel s s4 hch hnot hnewh h
    have hxn := chain_not_mem hch
    obtain ⟨b, hb, h0, hmag, _, hnext, _, hrest⟩ := hch
    have hy0 : y ≠ 0 := by
      obtain ⟨_, _, hy0, _⟩ := hrest
      exact hy0
    simp at hnext
    cases fuel with
    | zero => simp [insertBlock] at h
    | succ fuel =>
      rw [insertBlock] at h
      simp only [load_ok h0 hb, hmag, ne_eq, not_true_eq_false, if_false, hnext, hy0] at h
      have hnot2 : new ∉ y :: ys := fun hm => hnot (List.mem_cons_of_mem _ hm)
      obtain ⟨hl, hq, hfr, hsz, hby, hbk, hmx, hst⟩ := ih y x fuel s s4 hrest hnot2 hnewh h
      refine ⟨?_, hq, ?_, hsz, hby, hbk, hmx, hst⟩
      · refine ⟨rfl, h0, b, ?_, ?_⟩
        · rw [hfr x hxn]
          · exact hb
          · intro hxe
            exact hnot (by simp [hxe])
        · rw [hnext]
          exact hl
      · intro z hz1 hz2
        exact hfr z (fun hm => hz1 (List.mem_cons_of_mem _ hm)) hz2

theorem inList_put_used {s : State} {r a : Nat} {b : Block} {u : Nat}
    (hb : s.hdr r = some b) (h : InList s a) :
    InList (put s r { b with used_ := u }) a := by
  obtain ⟨l, hl, ha⟩ := h
  refine ⟨l, ?_, ha⟩
  refine linked_frame l _ ?_ hl
  intro x _
  by_cases hx : x = r
  · simp [hx, hb]
  · simp [hx]

/-- `malloc` on a well-formed heap: failure is reported by the all-ones pointer and leaves
headers and bytes alone, success returns the payload of a used block of the list that is
large enough; the block is an old one or sits at the old break. -/
theorem malloc_spec {s s1 : State} {l : List Nat} {n fuel p : Nat}
    (hwf : WellFormed s l) (hbrk : s.brk < WORD) (hn : 0 < n)
    (h : malloc fuel s n = .ok (p, s1)) :
    (p = FAIL ∧ s1.hdr = s.hdr ∧ s1.bytes = s.bytes) ∨
    ∃ a b, p = payload a ∧ a ≠ 0 ∧ (a ∈ l ∨ a = s.brk) ∧ InList s1 a ∧ s1.hdr a = some b ∧
      b.used_ = 1 ∧ n ≤ b.size_ ∧ b.magic_ = MAGIC_NUMBER ∧ s1.bytes = s.bytes ∧
      (∀ x, x ≠ a → (s1.hdr x).map Block.size_ = (s.hdr x).map Block.size_) := by
  obtain ⟨hhead, hch⟩ := hwf
  unfold malloc at h
  rw [if_neg (by omega)] at h
  cases hf : findFreeBlock fuel s s.blocks_start n with
  | error e => rw [hf] at h; cases h
  | ok v =>
    obtain ⟨r, s2⟩ := v
    rw [hf] at h
    simp only at h
    rw [hhead] at hf
    rcases findFreeBlock_spec hbrk hn l [] fuel r s2 hch hhead hf with
      ⟨hr, hs⟩ | ⟨hrl, hr0, hin, ⟨b, hb, hsz, hmag⟩, hby, hbk, hmx, hsize⟩
    · subst hr hs
      simp only [ne_eq, not_true_eq_false, if_false] at h
      by_cases hfail : (sbrk s2 (toInt64 ((getMetaSize + n) % WORD))).1 = FAIL
      · rw [if_pos hfail] at h
        injection h with h
        injection h with hp hs
        subst hp hs
        left
        refine ⟨rfl, ?_, ?_⟩
        · unfold sbrk; simp only; split <;> rfl
        · unfold sbrk; simp only; split <;> rfl
      · rw [if_neg hfail] at h
        have hgrant : (sbrk s2 (toInt64 ((getMetaSize + n) % WORD))).1 = s2.brk := by
          unfold sbrk at hfail ⊢
          simp only at hfail ⊢
          split
          · rfl
          · rename_i hc
            rw [if_neg hc] at hfail
            exact absurd rfl hfail
        have hhdr : (sbrk s2 (toInt64 ((getMetaSize + n) % WORD))).2.hdr = s2.hdr := by
          unfold sbrk; simp only; split <;> rfl
        have hbytes : (sbrk s2 (toInt64 ((getMetaSize + n) % WORD))).2.bytes = s2.bytes := by
          unfold sbrk; simp only; split <;> rfl
        have hstart : (sbrk s2 (toInt64 ((getMetaSize + n) % WORD))).2.blocks_start
            = s2.blocks_start := by
          unfold sbrk; simp only; split <;> rfl
        rw [hgrant] at h
        by_cases hb0 : s2.brk = 0
        · rw [if_pos hb0] at h; cases h
        · rw [if_neg hb0] at h
          simp only [put_blocks_start, hstart] at h
          right
          by_cases hempty : s2.blocks_start = 0
          · rw [if_pos hempty] at h
            injection h with h
            injection h with hp hs
            subst hp hs
            refine ⟨s2.brk, { magic_ := MAGIC_NUMBER, used_ := 1, next_ := 0, prev_ := 0, size_ := n },
              rfl, hb0, Or.inr rfl, ?_, by simp, rfl, le_refl _, rfl, ?_, ?_⟩
            · refine ⟨[s2.brk], ?_, by simp⟩
              refine ⟨rfl, hb0,
                { magic_ := MAGIC_NUMBER, used_ := 1, next_ := 0, prev_ := 0, size_ := n },
                by simp, ?_⟩
              rfl
            · simp [hbytes]
            · intro x hx
              simp [hx, hhdr]
          · rw [if_neg hempty] at h
            cases hi : insertBlock fuel (put (sbrk s2 (toInt64 ((getMetaSize + n) % WORD))).2 s2.brk
                { magic_ := MAGIC_NUMBER, used_ := 1, next_ := 0, prev_ := 0, size_ := n })
                s2.brk s2.blocks_start with
            | error e => rw [hi] at h; cases h
            | ok s4 =>
              rw [hi] at h
              injection h with h
              injection h with hp hs
              subst hp hs
              cases l with
              | nil => simp at hhead; exact absurd hhead hempty
              | cons x xs =>
                simp at hhead
                rw [hhead] at hi
                have hnot : s2.brk ∉ x :: xs := by
                  intro hm
                  obtain ⟨b, _, hle⟩ := chain_le_brk _ _ hch _ hm
                  simp [getMetaSize] at hle
                  omega
                have hch3 : chain (put (sbrk s2 (toInt64 ((getMetaSize + n) % WORD))).2 s2.brk
                    { magic_ := MAGIC_NUMBER, used_ := 1, next_ := 0, prev_ := 0, size_ := n }).hdr
                    s2.brk 0 (x :: xs) := by
                  refine chain_frame _ _ ?_ hch
                  intro y hy
                  have : y ≠ s2.brk := fun hye => hnot (hye ▸ hy)
                  simp [this, hhdr]
                have hnbz : (Block.mk MAGIC_NUMBER n 1 0 0).next_ = 0 := rfl
                obtain ⟨hl, ⟨q, hq⟩, hfr, hsz, hby, _, _, hst⟩ :=
                  insertBlock_spec hb0 hnbz xs x 0 fuel _ s4 hch3 hnot (by simp) hi
                refine ⟨s2.brk, _, rfl, hb0, Or.inr rfl, ?_, hq, rfl, le_refl _, rfl, ?_, ?_⟩
                · refine ⟨x :: xs ++ [s2.brk], ?_, by simp⟩
                  rw [hst]
                  simp only [put_blocks_start, hstart, hhead]
                  exact hl
                · rw [hby]; simp [hbytes]
                · intro z hz
                  rw [hsz z]
                  simp [hz, hhdr]
    · simp only [ne_eq, hr0, not_false_eq_true, if_true] at h
      cases hm : modify s2 r (fun b => { b with used_ := 1 }) with
      | error e => rw [hm] at h; cases h
      | ok s3 =>
        rw [hm] at h
        injection h with h
        injection h with hp hs
        subst hp hs
        obtain ⟨b1, _, hb1, rfl⟩ := modify_ok_iff.1 hm
        rw [hb] at hb1
        injection hb1 with hb1
        subst hb1
        right
        refine ⟨r, { b with used_ := 1 }, rfl, hr0, Or.inl (by simpa using hrl),
          inList_put_used hb hin, by simp, rfl, hsz, hmag, by simp [hby], ?_⟩
        intro x hx
        simp [hx, hsize x hx]

theorem chain_put_used {s : State} {a u brk : Nat} {b : Block} (hb : s.hdr a = some b) :
    ∀ (l : List Nat) (pv : Nat), chain s.hdr brk pv l →
      chain (put s a { b with used_ := u }).hdr brk pv l
  | [], _, _ => trivial
  | x :: xs, pv, h => by
    obtain ⟨bx, hbx, h1, h2, h3, h4, h5, hrest⟩ := h
    by_cases hx : x = a
    · subst hx
      rw [hb] at hbx
      injection hbx with hbx
      subst hbx
      exact ⟨{ b with used_ := u }, by simp, h1, h2, h3, h4, h5, chain_put_used hb xs x hrest⟩
    · exact ⟨bx, by simp [hx, hbx], h1, h2, h3, h4, h5, chain_put_used hb xs x hrest⟩

theorem chain_sep {m : Nat → Option Block} {brk pv : Nat} {l : List Nat} {x y : Nat}
    (h : chain m brk pv l) (hx : x ∈ l) (hy : y ∈ l) (hxy : x < y) :
    ∃ b, m x = some b ∧ x + getMetaSize + b.size_ ≤ y := by
  obtain ⟨l0, l3, rfl⟩ := List.append_of_mem hx
  rcases List.mem_append.1 hy with h0 | h0
  · have := chain_append_lt l0 l3 pv x h y h0
    omega
  · rcases List.mem_cons.1 h0 with h1 | h1
    · omega
    · exact chain_head_lt l3 _ x (chain_append_right l0 (x :: l3) pv h) y h1

theorem chain_mem {m : Nat → Option Block} {brk : Nat} :
    ∀ (l : List Nat) (pv : Nat), chain m brk pv l → ∀ y ∈ l,
      ∃ b, m y = some b ∧ y ≠ 0 ∧ b.magic_ = MAGIC_NUMBER
  | [], _, _, y, hy => by cases hy
  | x :: xs, pv, h, y, hy => by
    obtain ⟨b, hb, h0, hmag, _, _, _, hrest⟩ := h
    rcases List.mem_cons.1 hy with rfl | hy
    · exact ⟨b, hb, h0, hmag⟩
    · exact chain_mem xs x hrest y hy

theorem checkBackwardMerge_step {s : State} {cur : Nat} {b : Block} (fp n a : Nat)
    (h0 : cur ≠ 0) (hb : s.hdr cur = some b) (hm : b.magic_ = MAGIC_NUMBER) :
    checkBackwardMerge (fp + 1) s cur n a =
      if n ≤ (a + b.size_) % WORD ∧ b.used_ = 0 then .ok 1
      else if b.used_ = 0 ∧ b.prev_ ≠ 0 then
        checkBackwardMerge fp s b.prev_ n ((a + getMetaSize + b.size_) % WORD)
      else .ok 0 := by
  rw [checkBackwardMerge]
  simp only [h0, load_ok h0 hb, hm, if_false, ne_eq, not_true_eq_false, ge_iff_le]

theorem backwardBlockMerge_step {s : State} {cur : Nat} {b : Block} (fe first n A : Nat)
    (h0 : cur ≠ 0) (hb : s.hdr cur = some b) (hm : b.magic_ = MAGIC_NUMBER) :
    backwardBlockMerge (fe + 1) s first cur n A =
      if n ≤ (if cur = first then b.size_ else (A + b.size_ + getMetaSize) % WORD) then
        match backwardLink s first cur
            (if cur = first then b.size_ else (A + b.size_ + getMetaSize) % WORD) with
        | .error e => .error e
        | .ok s1 => .ok (cur, s1)
      else backwardBlockMerge fe s first b.prev_ n
        (if cur = first then b.size_ else (A + b.size_ + getMetaSize) % WORD) := by
  rw [backwardBlockMerge]
  simp only [h0, load_ok h0 hb, hm, ne_eq, not_true_eq_false, if_false, ge_iff_le]

/-- Once the backward planner has accepted, the backward executor merges at a block of the
list in front of `first`. -/
theorem backward_agree {s : State} {brk n first E : Nat} (hE : E < WORD) :
    ∀ (l0 : List Nat) (cur : Nat) (post : List Nat) (A fp fe r : Nat) (s1 : State),
      chain s.hdr brk 0 (l0 ++ cur :: post) → first ∈ post →
      (∀ b, s.hdr cur = some b → A + getMetaSize + cur + getMetaSize + b.size_ = E) →
      checkBackwardMerge fp s cur n (A + getMetaSize) = .ok 1 →
      backwardBlockMerge fe s first cur n A = .ok (r, s1) →
      ∃ ca, r ∈ l0 ++ [cur] ∧ n ≤ ca ∧ backwardLink s first r ca = .ok s1 := by
  intro l0
  induction l0 using List.reverseRecOn with
  | nil =>
    intro cur post A fp fe r s1 hch hfirst hinv hp he
    obtain ⟨b, hb, h0, hmag, hprev, _, _, _⟩ := hch
    have hne : cur ≠ first := by
      have := chain_not_mem (show chain s.hdr brk 0 (cur :: post) from ⟨b, hb, h0, hmag, hprev, ‹_›, ‹_›, ‹_›⟩)
      intro hc; subst hc; exact this hfirst
    have hEq := hinv b hb
    cases fp with
    | zero => simp [checkBackwardMerge] at hp
    | succ fp =>
      cases fe with
      | zero => simp [backwardBlockMerge] at he
      | succ fe =>
        rw [checkBackwardMerge_step fp n _ h0 hb hmag] at hp
        rw [backwardBlockMerge_step fe first n A h0 hb hmag] at he
        simp only [hne, if_false] at he
        have hca : (A + b.size_ + getMetaSize) % WORD = A + b.size_ + getMetaSize := by
          apply Nat.mod_eq_of_lt; omega
        have hpa : (A + getMetaSize + b.size_) % WORD = A + b.size_ + getMetaSize := by
          rw [Nat.mod_eq_of_lt] <;> omega
        rw [hca] at he
        rw [hpa] at hp
        by_cases h2 : n ≤ A + b.size_ + getMetaSize
        · rw [if_pos h2] at he
          cases hl : backwardLink s first cur (A + b.size_ + getMetaSize) with
          | error e => rw [hl] at he; cases he
          | ok s2 =>
            rw [hl] at he
            injection he with he
            injection he with hr hs
            subst hr hs
            exact ⟨_, by simp, h2, hl⟩
        · simp [h2, hprev] at hp
  | append_singleton l0 p ih =>
    intro cur post A fp fe r s1 hch hfirst hinv hp he
    have hsuf := chain_append_right (l0 ++ [p]) (cur :: post) 0 hch
    have hne : cur ≠ first := by
      have := chain_not_mem hsuf
      intro hc; subst hc; exact this hfirst
    obtain ⟨b, hb, h0, hmag, hprev, _, _, _⟩ := hsuf
    simp at hprev
    have hEq := hinv b hb
    have hch2 : chain s.hdr brk 0 (l0 ++ p :: cur :: post) := by simpa using hch
    have hpsuf := chain_append_right l0 (p :: cur :: post) 0 hch2
    obtain ⟨bp, hbp, hp0, _, _, _, hpend, _⟩ := hpsuf
    simp at hpend
    cases fp with
    | zero => simp [checkBackwardMerge] at hp
    | succ fp =>
      cases fe with
      | zero => simp [backwardBlockMerge] at he
      | succ fe =>
        rw [checkBackwardMerge_step fp n _ h0 hb hmag] at hp
        rw [backwardBlockMerge_step fe first n A h0 hb hmag] at he
        simp only [hne, if_false] at he
        have hca : (A + b.size_ + getMetaSize) % WORD = A + b.size_ + getMetaSize := by
          apply Nat.mod_eq_of_lt; omega
        have hpa : (A + getMetaSize + b.size_) % WORD = A + b.size_ + getMetaSize := by
          rw [Nat.mod_eq_of_lt] <;> omega
        have hpb : (A + getMetaSize + getMetaSize + b.size_) % WORD
            = A + b.size_ + getMetaSize + getMetaSize := by
          rw [Nat.mod_eq_of_lt] <;> omega
        rw [hca] at he
        rw [hpa, hpb] at hp
        by_cases h2 : n ≤ A + b.size_ + getMetaSize
        · rw [if_pos h2] at he
          cases hl : backwardLink s first cur (A + b.size_ + getMetaSize) with
          | error e => rw [hl] at he; cases he
          | ok s2 =>
            rw [hl] at he
            injection he with he
            injection he with hr hs
            subst hr hs
            exact ⟨_, by simp, h2, hl⟩
        · rw [if_neg h2] at he
          rw [if_neg (fun hc => h2 hc.1)] at hp
          by_cases h3 : b.used_ = 0 ∧ b.prev_ ≠ 0
          · rw [if_pos h3, hprev] at hp
            rw [hprev] at he
            obtain ⟨ca, hr, hca2, hl⟩ := ih p (cur :: post) (A + b.size_ + getMetaSize) fp fe r s1
              hch2 (List.mem_cons_of_mem _ hfirst)
              (by
                intro b2 hb2
                rw [hbp] at hb2
                injection hb2 with hb2
                subst hb2
                omega)
              hp he
            refine ⟨ca, ?_, hca2, hl⟩
            simp at hr ⊢
            rcases hr with hr | hr
            · exact Or.inl hr
            · exact Or.inr (Or.inl hr)
          · rw [if_neg h3] at hp
            simp at hp

/-- Backward planner/executor agreement from the start block. -/
theorem backward_top {s : State} {brk n first : Nat} (hbrk : brk < WORD)
    {l1 rest : List Nat} {fp fe r : Nat} {s1 : State}
    (hch : chain s.hdr brk 0 (l1 ++ first :: rest))
    (hp : checkBackwardMerge fp s first n 0 = .ok 1)
    (he : backwardBlockMerge fe s first first n 0 = .ok (r, s1)) :
    ∃ ca, r ∈ l1 ++ [first] ∧ n ≤ ca ∧ backwardLink s first r ca = .ok s1 := by
  have hsuf := chain_append_right l1 (first :: rest) 0 hch
  obtain ⟨b, hb, h0, hmag, hprev, _, _, _⟩ := hsuf
  have hle : first + getMetaSize + b.size_ ≤ brk := by
    obtain ⟨b2, hb2, hle⟩ := chain_le_brk _ _ hch first (by simp)
    rw [hb] at hb2
    injection hb2 with hb2
    subst hb2
    exact hle
  cases fp with
  | zero => simp [checkBackwardMerge] at hp
  | succ fp =>
    cases fe with
    | zero => simp [backwardBlockMerge] at he
    | succ fe =>
      rw [checkBackwardMerge_step fp n _ h0 hb hmag] at hp
      rw [backwardBlockMerge_step fe first n 0 h0 hb hmag] at he
      simp only [if_true] at he
      have hpa : (0 + b.size_) % WORD = b.size_ := by
        rw [Nat.mod_eq_of_lt] <;> omega
      have hpb : (0 + getMetaSize + b.size_) % WORD = b.size_ + getMetaSize := by
        rw [Nat.mod_eq_of_lt] <;> omega
      rw [hpa, hpb] at hp
      by_cases h2 : n ≤ b.size_
      · rw [if_pos h2] at he
        cases hl : backwardLink s first first b.size_ with
        | error e => rw [hl] at he; cases he
        | ok s2 =>
          rw [hl] at he
          injection he with he
          injection he with hr hs
          subst hr hs
          exact ⟨_, by simp, h2, hl⟩
      · rw [if_neg h2] at he
        rw [if_neg (fun hc => h2 hc.1)] at hp
        by_cases h3 : b.used_ = 0 ∧ b.prev_ ≠ 0
        · rw [if_pos h3] at hp
          rcases List.eq_nil_or_concat l1 with hnil | ⟨l0, p, hl1⟩
          · subst hnil
            simp at hprev
            exact absurd hprev h3.2
          · subst hl1
            simp at hprev
            rw [hprev] at hp he
            have hch2 : chain s.hdr brk 0 (l0 ++ p :: first :: rest) := by simpa using hch
            have hpsuf := chain_append_right l0 (p :: first :: rest) 0 hch2
            obtain ⟨bp, hbp, hp0, _, _, _, hpend, _⟩ := hpsuf
            simp at hpend
            have hE : first + getMetaSize + b.size_ < WORD := by omega
            obtain ⟨ca, hr, hca2, hl⟩ := backward_agree hE l0 p (first :: rest) b.size_ fp fe r s1
              hch2 (List.mem_cons_self _ _)
              (by
                intro b2 hb2
                rw [hbp] at hb2
                injection hb2 with hb2
                subst hb2
                omega)
              hp he
            refine ⟨ca, ?_, hca2, hl⟩
            simp at hr ⊢
            tauto
        · rw [if_neg h3] at hp
          simp at hp

theorem backwardLink_spec {s s1 : State} {first c ca : Nat} {f cb : Block}
    (hf : s.hdr first = some f) (hc : s.hdr c = some cb) (hzc : f.next_ ≠ c)
    (h : backwardLink s first c ca = .ok s1) :
    c ≠ 0 ∧
      s1.hdr = (fun x => if x = c then
                  some { cb with next_ := f.next_, size_ := ca, used_ := 1 }
                else if x = f.next_ ∧ f.next_ ≠ 0 then
                  (s.hdr x).map (fun zb => { zb with prev_ := c })
                else s.hdr x) ∧
      s1.bytes = s.bytes ∧ s1.brk = s.brk ∧ s1.brkMax = s.brkMax ∧
      s1.blocks_start = s.blocks_start := by
  unfold backwardLink at h
  cases hl : load s first with
  | error e => rw [hl] at h; cases h
  | ok f1 =>
    rw [hl] at h
    obtain ⟨_, hf1⟩ := load_ok_iff.1 hl
    rw [hf] at hf1
    injection hf1 with hf1
    subst hf1
    simp only at h
    cases h1 : (if f.next_ ≠ 0 then modify s f.next_ (fun b => { b with prev_ := c })
        else .ok s) with
    | error e => rw [h1] at h; cases h
    | ok s2 =>
      rw [h1] at h
      simp only at h
      have hs2 : s2.hdr = (fun x => if x = f.next_ ∧ f.next_ ≠ 0 then
            (s.hdr x).map (fun zb => { zb with prev_ := c }) else s.hdr x) ∧
          s2.bytes = s.bytes ∧ s2.brk = s.brk ∧ s2.brkMax = s.brkMax ∧
          s2.blocks_start = s.blocks_start := by
        by_cases hz : f.next_ = 0
        · simp [hz] at h1
          subst h1
          simp [hz]
        · simp only [ne_eq, hz, not_false_eq_true, if_true] at h1
          obtain ⟨zb, _, hzb, rfl⟩ := modify_ok_iff.1 h1
          refine ⟨?_, rfl, rfl, rfl, rfl⟩
          funext x
          by_cases hx : x = f.next_
          · simp [hx, hz, hzb]
          · simp [hx]
      obtain ⟨hh2, hb2, hk2, hm2, hst2⟩ := hs2
      cases h3 : modify s2 c (fun b => { b with next_ := f.next_ }) with
      | error e => rw [h3] at h; cases h
      | ok s3 =>
        rw [h3] at h
        simp only at h
        obtain ⟨c1, hc0, hc1, rfl⟩ := modify_ok_iff.1 h3
        have : c1 = cb := by
          rw [hh2] at hc1
          simp [Ne.symm hzc, hc] at hc1
          exact hc1.symm
        subst this
        cases h4 : modify (put s2 c { c1 with next_ := f.next_ }) c
            (fun b => { b with size_ := ca }) with
        | error e => rw [h4] at h; cases h
        | ok s4 =>
          rw [h4] at h
          obtain ⟨c2, _, hc2, rfl⟩ := modify_ok_iff.1 h4
          simp at hc2
          subst hc2
          obtain ⟨c3, _, hc3, rfl⟩ := modify_ok_iff.1 h
          simp at hc3
          subst hc3
          refine ⟨hc0, ?_, hb2, hk2, hm2, hst2⟩
          funext x
          simp
          by_cases hx : x = c
          · simp [hx]
          · simp [hx, hh2]

/-- State after the merging branch of the backward executor, seen from the list. -/
theorem backward_merge_post {s s1 : State} {l1 rest : List Nat} {first r ca : Nat}
    (hch : chain s.hdr s.brk 0 (l1 ++ first :: rest))
    (hhead : s.blocks_start = (l1 ++ first :: rest).headD 0)
    (hr : r ∈ l1 ++ [first]) (h : backwardLink s first r ca = .ok s1) :
    r ≠ 0 ∧ r ≤ first ∧ InList s1 r ∧
      (∃ b, s1.hdr r = some b ∧ b.size_ = ca ∧ b.used_ = 1 ∧ b.magic_ = MAGIC_NUMBER) ∧
      s1.bytes = s.bytes ∧
      (∀ x, x ≠ r → (s1.hdr x).map Block.size_ = (s.hdr x).map Block.size_) := by
  have hsuf := chain_append_right l1 (first :: rest) 0 hch
  have hrle : r ≤ first := by
    rcases List.mem_append.1 hr with h1 | h1
    · exact (chain_append_lt l1 rest 0 first hch r h1).le
    · simp at h1; omega
  have hrl : r ∈ l1 ++ first :: rest := by
    rcases List.mem_append.1 hr with h1 | h1
    · simp [h1]
    · simp at h1; simp [h1]
  obtain ⟨cb, hcb, hr0, hcmag⟩ := chain_mem _ _ hch r hrl
  have hlater : ∀ y ∈ rest, first < y := by
    intro y hy
    obtain ⟨b, hb, hle⟩ := chain_head_lt rest _ first hsuf y hy
    simp [getMetaSize] at hle
    omega
  obtain ⟨f, hf, hf0, hfmag, _, hfnext, _, hrest⟩ := hsuf
  have hzc : f.next_ ≠ r := by
    rw [hfnext]
    cases rest with
    | nil => simpa using Ne.symm hr0
    | cons z zs =>
      simp
      have := hlater z (List.mem_cons_self _ _)
      omega
  obtain ⟨_, hhdr, hby, hbk, hmx, hst⟩ := backwardLink_spec hf hcb hzc h
  have hnext : ∀ x, x ≠ r → (s1.hdr x).map Block.next_ = (s.hdr x).map Block.next_ := by
    intro x hx
    rw [hhdr]
    by_cases hxz : x = f.next_ ∧ f.next_ ≠ 0
    · obtain ⟨rfl, hz0⟩ := hxz
      simp only [hzc, if_false, hz0, ne_eq, not_false_eq_true, and_self, if_true]
      cases s.hdr f.next_ <;> rfl
    · simp only [hx, if_false, hxz]
  have hsize : ∀ x, x ≠ r → (s1.hdr x).map Block.size_ = (s.hdr x).map Block.size_ := by
    intro x hx
    rw [hhdr]
    by_cases hxz : x = f.next_ ∧ f.next_ ≠ 0
    · obtain ⟨rfl, hz0⟩ := hxz
      simp only [hzc, if_false, hz0, ne_eq, not_false_eq_true, and_self, if_true]
      cases s.hdr f.next_ <;> rfl
    · simp only [hx, if_false, hxz]
  have hrh : s1.hdr r = some { cb with next_ := f.next_, size_ := ca, used_ := 1 } := by
    rw [hhdr]; simp
  refine ⟨hr0, hrle, ?_, ⟨_, hrh, rfl, rfl, hcmag⟩, hby, hsize⟩
  obtain ⟨l0, tail, hsplit⟩ := List.append_of_mem hrl
  refine ⟨l0 ++ r :: rest, ?_, by simp⟩
  have hlinked := chain_linked _ _ hch
  rw [hst, hhead]
  rw [hsplit] at hlinked hch ⊢
  refine linked_replace_tail l0 _ hlinked ?_ ?_
  · intro y hy
    apply hnext
    have := chain_append_lt l0 tail 0 r hch y hy
    omega
  · refine ⟨rfl, hr0, _, hrh, ?_⟩
    simp only
    rw [hfnext]
    refine linked_frame rest _ ?_ (chain_linked rest first hrest)
    intro y hy
    apply hnext
    have := hlater y hy
    omega

theorem header_payload {a : Nat} (ha : a < WORD) : header (payload a) = a := by
  unfold header payload
  simp only [WORD, getMetaSize] at *
  split <;> omega

theorem payload_eq {a : Nat} (ha : a + getMetaSize < WORD) : payload a = a + getMetaSize := by
  unfold payload
  exact Nat.mod_eq_of_lt ha

theorem header_add (a : Nat) : header (a + getMetaSize) = a := by
  unfold header
  simp

theorem checkForwardMerge_01 :
    ∀ (fp : Nat) (s : State) (c n a v : Nat),
      checkForwardMerge fp s c n a = .ok v → v = 0 ∨ v = 1
  | 0, _, _, _, _, _, h => by simp [checkForwardMerge] at h
  | fp + 1, s, c, n, a, v, h => by
    rw [checkForwardMerge] at h
    split at h
    · injection h with h; exact Or.inl h.symm
    · split at h
      · cases h
      · split at h
        · cases h
        · split at h
          · injection h with h; exact Or.inr h.symm
          · split at h
            · injection h with h; exact Or.inl h.symm
            · split at h
              · exact checkForwardMerge_01 fp _ _ _ _ _ h
              · injection h with h; exact Or.inl h.symm

theorem checkBackwardMerge_01 :
    ∀ (fp : Nat) (s : State) (c n a v : Nat),
      checkBackwardMerge fp s c n a = .ok v → v = 0 ∨ v = 1
  | 0, _, _, _, _, _, h => by simp [checkBackwardMerge] at h
  | fp + 1, s, c, n, a, v, h => by
    rw [checkBackwardMerge] at h
    split at h
    · injection h with h; exact Or.inl h.symm
    · split at h
      · cases h
      · split at h
        · cases h
        · split at h
          · injection h with h; exact Or.inr h.symm
          · split at h
            · exact checkBackwardMerge_01 fp _ _ _ _ _ h
            · injection h with h; exact Or.inl h.symm

theorem memcpy_untouched (m : Nat → Nat) (dst src : Nat) :
    ∀ (k x : Nat), (x < dst ∨ dst + k ≤ x) → memcpy m dst src k x = m x
  | 0, _, _ => rfl
  | k + 1, x, hx => by
    have hne : x ≠ dst + k := by omega
    simp only [memcpy, hne, if_false]
    exact memcpy_untouched m dst src k x (by omega)

/-- A low-to-high copy delivers the source bytes when the destination starts at or below
the source, or behind its end. -/
theorem memcpy_copy (m : Nat → Nat) (dst src : Nat) :
    ∀ (k i : Nat), (dst ≤ src ∨ src + k ≤ dst) → i < k →
      memcpy m dst src k (dst + i) = m (src + i)
  | 0, _, _, hi => by omega
  | k + 1, i, hpos, hi => by
    by_cases hik : i = k
    · subst hik
      simp only [memcpy, if_true]
      exact memcpy_untouched m dst src i (src + i) (by omega)
    · have hne : dst + i ≠ dst + k := by omega
      simp only [memcpy, hne, if_false]
      exact memcpy_copy m dst src k i (by omega) (by omega)

theorem goodPtr_intro {s : State} {n a : Nat} {b : Block} (ha : a < WORD) (ha0 : a ≠ 0)
    (hin : InList s a) (hb : s.hdr a = some b) (hu : b.used_ = 1) (hsz : n ≤ b.size_)
    (hmag : b.magic_ = MAGIC_NUMBER) : GoodPtr s n (payload a) := by
  refine ⟨a, b, rfl, hin, hb, hu, hsz, ?_⟩
  unfold getMallocSize
  rw [header_payload ha, load_ok ha0 hb]
  simp only [hmag, ne_eq, not_true_eq_false, if_false]

/-- `realloc` on a live pointer of a well-formed heap: the pointer it returns is the payload
of a used block with room for `n` bytes, and the old contents arrive there. -/
theorem realloc_spec {s s1 : State} {l : List Nat} {n fuel q sz r : Nat}
    (hwf : WellFormed s l) (hbrk : s.brk < WORD) (hn : 0 < n) (hlive : Live s l q sz)
    (h : realloc fuel s q n = .ok (r, s1)) :
    (r ≠ FAIL → GoodPtr s1 n r) ∧
      (∀ i, i < min sz n → s1.bytes (r + i) = s.bytes (q + i)) := by
  obtain ⟨hhead, hch⟩ := hwf
  obtain ⟨a, b, hal, hb, hused, hsize, hq⟩ := hlive
  obtain ⟨b1, hb1, ha0, hmag⟩ := chain_mem _ _ hch a hal
  rw [hb] at hb1; injection hb1 with hb1; subst hb1
  obtain ⟨b1, hb1, hale⟩ := chain_le_brk _ _ hch a hal
  rw [hb] at hb1; injection hb1 with hb1; subst hb1
  have haW : a + getMetaSize < WORD := by omega
  have hhq : header q = a := by rw [hq]; exact header_add a
  have hq0 : q ≠ 0 := by simp [getMetaSize] at hq; omega
  unfold realloc at h
  rw [if_neg hq0, hhq, load_ok ha0 hb] at h
  simp only [hmag, ne_eq, not_true_eq_false, if_false] at h
  have hmod : modify s a (fun b => { b with used_ := 0 }) = .ok (put s a { b with used_ := 0 }) :=
    modify_ok_iff.2 ⟨b, ha0, hb, rfl⟩
  rw [hmod] at h
  simp only at h
  -- the state in which the merges are tried
  have hch1 : chain (put s a { b with used_ := 0 }).hdr s.brk 0 l := chain_put_used hb l 0 hch
  obtain ⟨l1, rest, hsplit⟩ := List.append_of_mem hal
  subst hsplit
  have hb0 : (put s a { b with used_ := 0 }).hdr a = some { b with used_ := 0 } := by simp
  cases hfw : (if ¬ b.next_ = 0 then
      checkForwardMerge fuel (put s a { b with used_ := 0 }) a n 0 else .ok 0) with
  | error e => rw [hfw] at h; cases h
  | ok fwd =>
    rw [hfw] at h
    simp only at h
    by_cases hfwd : fwd = 0
    · -- no forward merge
      subst hfwd
      simp only [ne_eq, not_true_eq_false, if_false] at h
      cases hbw : (if ¬ b.prev_ = 0 then
          checkBackwardMerge fuel (put s a { b with used_ := 0 }) a n 0 else .ok 0) with
      | error e => rw [hbw] at h; cases h
      | ok bwd =>
        rw [hbw] at h
        simp only at h
        by_cases hbwd : bwd = 0
        · -- fallback: allocate and copy
          subst hbwd
          simp only [ne_eq, not_true_eq_false, if_false] at h
          cases hm : malloc fuel (put s a { b with used_ := 0 }) n with
          | error e => rw [hm] at h; cases h
          | ok v =>
            obtain ⟨p, s2⟩ := v
            rw [hm] at h
            simp only at h
            unfold copyInto at h
            rw [hhq] at h
            cases hl1 : load s2 (header p) with
            | error e => rw [hl1] at h; cases h
            | ok nbk =>
              rw [hl1] at h
              simp only at h
              split at h
              · cases h
              · cases hl2 : load s2 a with
                | error e => rw [hl2] at h; cases h
                | ok old =>
                  rw [hl2] at h
                  injection h with h
                  injection h with hr hs
                  subst hr hs
                  obtain ⟨_, hold⟩ := load_ok_iff.1 hl2
                  have hwf1 : WellFormed (put s a { b with used_ := 0 }) (l1 ++ a :: rest) :=
                    ⟨hhead, hch1⟩
                  rcases malloc_spec hwf1 hbrk hn hm with
                    ⟨hp, hh, hby⟩ | ⟨a2, b2, hp, ha20, hwhere, hin, hb2, hu2, hsz2, hmag2, hby, hsz⟩
                  · refine ⟨fun hne => absurd hp hne, ?_⟩
                    intro i hi
                    simp only
                    rw [hh, hb0] at hold
                    injection hold with hold
                    subst hold
                    rw [hby]
                    simp only [put_bytes]
                    subst hp
                    apply memcpy_copy
                    · right
                      simp only [FAIL, WORD, getMetaSize] at *
                      omega
                    · omega
                  · have ha2W : a2 < WORD := by
                      rcases hwhere with h1 | h1
                      · obtain ⟨_, _, hle⟩ := chain_le_brk _ _ hch a2 h1
                        omega
                      · rw [h1]; exact hbrk
                    constructor
                    · intro _
                      rw [hp]
                      exact goodPtr_intro ha2W ha20 hin hb2 hu2 hsz2 hmag2
                    · intro i hi
                      simp only
                      rw [hby]
                      simp only [put_bytes]
                      by_cases haa : a2 = a
                      · subst haa
                        rw [hb2] at hold
                        injection hold with hold
                        subst hold
                        have : p = q := by rw [hp, hq]; exact payload_eq haW
                        subst this
                        apply memcpy_copy
                        · left; exact le_refl _
                        · omega
                      · have hsza := hsz a (Ne.symm haa)
                        rw [hold, hb0] at hsza
                        simp at hsza
                        rw [hsza]
                        apply memcpy_copy
                        · rcases hwhere with h1 | h1
                          · obtain ⟨_, _, hle2⟩ := chain_le_brk _ _ hch a2 h1
                            have hp2 : p = a2 + getMetaSize := by
                              rw [hp]; exact payload_eq (by omega)
                            rcases Nat.lt_or_gt_of_ne haa with h2 | h2
                            · left; omega
                            · right
                              obtain ⟨b3, hb3, hle3⟩ := chain_sep hch hal h1 h2
                              rw [hb] at hb3; injection hb3 with hb3; subst hb3
                              omega
                          · have h1b : a2 = s.brk := h1
                            subst h1b
                            unfold payload at hp
                            simp only [WORD, getMetaSize] at *
                            omega
                        · omega
        · -- backward merge
          rw [if_pos hbwd] at h
          have hb1 : bwd = 1 := by
            by_cases hpv : b.prev_ = 0
            · simp [hpv] at hbw; exact absurd hbw.symm hbwd
            · simp only [hpv, not_false_eq_true, if_true] at hbw
              rcases checkBackwardMerge_01 _ _ _ _ _ _ hbw with h1 | h1
              · exact absurd h1 hbwd
              · exact h1
          subst hb1
          have hbw2 : checkBackwardMerge fuel (put s a { b with used_ := 0 }) a n 0 = .ok 1 := by
            by_cases hpv : b.prev_ = 0
            · simp [hpv] at hbw
            · simpa [hpv] using hbw
          cases hbm : backwardBlockMerge fuel (put s a { b with used_ := 0 }) a a n 0 with
          | error e => rw [hbm] at h; cases h
          | ok v =>
            obtain ⟨mg, s2⟩ := v
            rw [hbm] at h
            simp only at h
            cases hl2 : load s2 a with
            | error e => rw [hl2] at h; cases h
            | ok old =>
              rw [hl2] at h
              injection h with h
              injection h with hr hs
              subst hr hs
              obtain ⟨_, hold⟩ := load_ok_iff.1 hl2
              obtain ⟨ca, hmem, hca, hlink⟩ := backward_top hbrk hch1 hbw2 hbm
              obtain ⟨hmg0, hmgle, hin, ⟨b2, hb2, hsz2, hu2, hmag2⟩, hby, hsz⟩ :=
                backward_merge_post hch1 hhead hmem hlink
              have hpm : payload mg = mg + getMetaSize := payload_eq (by omega)
              constructor
              · intro _
                exact goodPtr_intro (by omega) hmg0 hin hb2 hu2 (by omega) hmag2
              · intro i hi
                simp only
                rw [hby, hpm]
                simp only [put_bytes]
                apply memcpy_copy
                · left; omega
                · by_cases hma : mg = a
                  · subst hma
                    rw [hb2] at hold
                    injection hold with hold
                    subst hold
                    omega
                  · have hsza := hsz a (Ne.symm hma)
                    rw [hold, hb0] at hsza
                    simp at hsza
                    omega
    · -- forward merge
      rw [if_pos hfwd] at h
      have hfw2 : checkForwardMerge fuel (put s a { b with used_ := 0 }) a n 0 = .ok 1 := by
        by_cases hnx : b.next_ = 0
        · simp [hnx] at hfw; exact absurd hfw.symm hfwd
        · simp only [hnx, not_false_eq_true, if_true] at hfw
          rcases checkForwardMerge_01 _ _ _ _ _ _ hfw with h1 | h1
          · exact absurd h1 hfwd
          · rw [h1] at hfw; exact hfw
      cases hfm : forwardBlockMerge fuel (put s a { b with used_ := 0 }) a a n 0 with
      | error e => rw [hfm] at h; cases h
      | ok s2 =>
        rw [hfm] at h
        injection h with h
        injection h with hr hs
        subst hr hs
        obtain ⟨c, ca, hc, hca, hlink⟩ := forward_top hbrk hn
          (chain_append_right l1 (a :: rest) 0 hch1) hfw2 hfm
        obtain ⟨hin, ⟨b2, hb2, hsz2, hu2, hmag2⟩, hby, _, _, _⟩ :=
          forward_merge_post hch1 hhead hc hlink
        constructor
        · intro _
          exact goodPtr_intro (by omega) ha0 hin hb2 hu2 (by omega) hmag2
        · intro i _
          rw [hby, payload_eq haW, hq]
          rfl

/-! ## Symbolic evaluation of short call sequences -/

@[simp] theorem withBrk_hdr (s : State) (k : Nat) : (withBrk s k).hdr = s.hdr := rfl
@[simp] theorem withBrk_bytes (s : State) (k : Nat) : (withBrk s k).bytes = s.bytes := rfl
@[simp] theorem withBrk_brk (s : State) (k : Nat) : (withBrk s k).brk = k := rfl
@[simp] theorem withBrk_brkMax (s : State) (k : Nat) : (withBrk s k).brkMax = s.brkMax := rfl
@[simp] theorem withBrk_blocks_start (s : State) (k : Nat) :
    (withBrk s k).blocks_start = s.blocks_start := rfl

theorem sbrk_grant {s : State} {n : Nat} (h1 : getMetaSize + n < 2 ^ 63)
    (h2 : s.brk + getMetaSize + n ≤ s.brkMax) :
    sbrk s (toInt64 ((getMetaSize + n) % WORD))
      = (s.brk, withBrk s (s.brk + getMetaSize + n)) := by
  have hmod : (getMetaSize + n) % WORD = getMetaSize + n := by
    apply Nat.mod_eq_of_lt
    simp only [WORD]
    omega
  have h64 : toInt64 (getMetaSize + n) = ((getMetaSize + n : Nat) : Int) := by
    unfold toInt64
    simp only [hmod]
    rw [if_pos h1]
  rw [hmod, h64]
  unfold sbrk
  have hc : 0 ≤ (s.brk : Int) + ((getMetaSize + n : Nat) : Int) ∧
      (s.brk : Int) + ((getMetaSize + n : Nat) : Int) ≤ (s.brkMax : Int) := by
    constructor <;> omega
  simp only [hc, and_self, if_true]
  have ht : ((s.brk : Int) + ((getMetaSize + n : Nat) : Int)).toNat = s.brk + getMetaSize + n := by
    omega
  rw [ht]

theorem freeSize_small {b : Nat} (h : getMetaSize + b < 2 ^ 31) :
    freeSize b = -((getMetaSize + b : Nat) : Int) := by
  unfold freeSize toInt32
  simp only [getMetaSize] at *
  omega

theorem sbrk_release {s : State} {k : Nat} (h1 : k ≤ s.brk) (h2 : s.brk ≤ s.brkMax) :
    sbrk s (-(k : Int)) = (s.brk, withBrk s (s.brk - k)) := by
  unfold sbrk
  have hc : 0 ≤ (s.brk : Int) + -(k : Int) ∧ (s.brk : Int) + -(k : Int) ≤ (s.brkMax : Int) := by
    constructor <;> omega
  simp only [hc, and_self, if_true]
  have ht : ((s.brk : Int) + -(k : Int)).toNat = s.brk - k := by omega
  rw [ht]

/-- The first allocation: the header is written at the old break. -/
theorem malloc_first {s : State} {n fuel : Nat} (hstart : s.blocks_start = 0) (hn : 0 < n)
    (hb0 : s.brk ≠ 0) (hfail : s.brk ≠ FAIL) (h1 : getMetaSize + n < 2 ^ 63)
    (h2 : s.brk + getMetaSize + n ≤ s.brkMax) (hfuel : 1 ≤ fuel) :
    malloc fuel s n = .ok (payload s.brk,
      { put (withBrk s (s.brk + getMetaSize + n)) s.brk (Block.mk MAGIC_NUMBER n 1 0 0) with
        blocks_start := s.brk }) := by
  obtain ⟨f, rfl⟩ : ∃ f, fuel = f + 1 := ⟨fuel - 1, by omega⟩
  unfold malloc
  rw [if_neg (by omega), hstart]
  simp only [findFreeBlock, if_true, ne_eq, not_true_eq_false, if_false]
  rw [sbrk_grant h1 h2]
  simp only [hfail, hb0, if_false, put_blocks_start, withBrk_blocks_start, hstart, if_true]

theorem modify_ok {s : State} {a : Nat} {b : Block} (f : Block → Block) (ha : a ≠ 0)
    (h : s.hdr a = some b) : modify s a f = .ok (put s a (f b)) :=
  modify_ok_iff.2 ⟨b, ha, h, rfl⟩

theorem insertBlock_last {s : State} {cur new : Nat} {b nb : Block} (f : Nat)
    (h0 : cur ≠ 0) (hb : s.hdr cur = some b) (hm : b.magic_ = MAGIC_NUMBER)
    (hnx : b.next_ = 0) (hn0 : new ≠ 0) (hnb : s.hdr new = some nb) (hne : new ≠ cur) :
    insertBlock (f + 1) s new cur
      = .ok (put (put s cur { b with next_ := new }) new { nb with prev_ := cur }) := by
  rw [insertBlock]
  simp only [load_ok h0 hb, hm, hnx, ne_eq, not_true_eq_false, if_false, if_true]
  have hnb2 : (put s cur { b with next_ := new }).hdr new = some nb := by
    simp [hne, hnb]
  rw [modify_ok _ h0 hb]
  simp only
  rw [modify_ok _ hn0 hnb2]
  simp only [hm]

theorem findFreeBlock_none_last {s : State} {cur n : Nat} {b : Block} (f : Nat)
    (h0 : cur ≠ 0) (hb : s.hdr cur = some b) (hm : b.magic_ = MAGIC_NUMBER)
    (hnx : b.next_ = 0) (hn : 0 < n) (hu : b.used_ ≠ 0 ∨ (b.used_ = 0 ∧ b.size_ < n)) :
    findFreeBlock (f + 2) s cur n = .ok (0, s) := by
  rw [findFreeBlock]
  simp only [h0, if_false, load_ok h0 hb, hm, ne_eq, not_true_eq_false, hnx, if_true]
  rcases hu with hu | ⟨hu, hsz⟩
  · simp [hu]
  · have hc : checkForwardMerge (f + 1 + 1) s cur n 0 = .ok 0 := by
      rw [checkForwardMerge_step (f + 1) n 0 h0 hb hm]
      simp [Nat.not_le.2 hn, hu, hnx, checkForwardMerge]
    simp [hu, Nat.not_le.2 hsz, hc]

/-- A list of one block that cannot serve the request: the new block is appended. -/
theorem malloc_second {s : State} {n fuel h0 : Nat} {b0 : Block}
    (hstart : s.blocks_start = h0) (h00 : h0 ≠ 0) (hh : s.hdr h0 = some b0)
    (hm : b0.magic_ = MAGIC_NUMBER) (hnx : b0.next_ = 0)
    (hu : b0.used_ ≠ 0 ∨ (b0.used_ = 0 ∧ b0.size_ < n)) (hn : 0 < n)
    (hb0 : s.brk ≠ 0) (hfail : s.brk ≠ FAIL) (hne : s.brk ≠ h0)
    (h1 : getMetaSize + n < 2 ^ 63) (h2 : s.brk + getMetaSize + n ≤ s.brkMax)
    (hfuel : 2 ≤ fuel) :
    malloc fuel s n = .ok (payload s.brk,
      put (put (put (withBrk s (s.brk + getMetaSize + n)) s.brk (Block.mk MAGIC_NUMBER n 1 0 0))
        h0 { b0 with next_ := s.brk }) s.brk (Block.mk MAGIC_NUMBER n 1 0 h0)) := by
  obtain ⟨f, rfl⟩ : ∃ f, fuel = f + 2 := ⟨fuel - 2, by omega⟩
  unfold malloc
  rw [if_neg (by omega), hstart, findFreeBlock_none_last f h00 hh hm hnx hn hu]
  simp only [ne_eq, not_true_eq_false, if_false]
  rw [sbrk_grant h1 h2]
  simp only [hfail, hb0, if_false, put_blocks_start, withBrk_blocks_start, hstart, h00]
  have hh1 : (put (withBrk s (s.brk + getMetaSize + n)) s.brk
      (Block.mk MAGIC_NUMBER n 1 0 0)).hdr h0 = some b0 := by
    simp [Ne.symm hne, hh]
  have hh2 : (put (withBrk s (s.brk + getMetaSize + n)) s.brk
      (Block.mk MAGIC_NUMBER n 1 0 0)).hdr s.brk = some (Block.mk MAGIC_NUMBER n 1 0 0) := by
    simp
  rw [insertBlock_last (f + 1) h00 hh1 hm hnx hb0 hh2 hne]

theorem freeBlocks_used {s : State} {cur : Nat} {b : Block} (f : Nat)
    (h0 : cur ≠ 0) (hb : s.hdr cur = some b) (hm : b.magic_ = MAGIC_NUMBER)
    (hu : b.used_ = 1) : freeBlocks (f + 1) s cur = .ok s := by
  rw [freeBlocks]
  simp only [h0, if_false, load_ok h0 hb, hm, ne_eq, not_true_eq_false, hu, if_true]

theorem freeBlocks_tail {s : State} {cur p : Nat} {b bp : Block} (f : Nat)
    (h0 : cur ≠ 0) (hb : s.hdr cur = some b) (hm : b.magic_ = MAGIC_NUMBER)
    (hu : b.used_ = 0) (hnx : b.next_ = 0) (hpv : b.prev_ = p) (hp0 : p ≠ 0)
    (hbp : s.hdr p = some bp) (hsz : getMetaSize + b.size_ < 2 ^ 31)
    (hk : getMetaSize + b.size_ ≤ s.brk) (hmax : s.brk ≤ s.brkMax) :
    freeBlocks (f + 1) s cur
      = freeBlocks f (withBrk (put s p { bp with next_ := 0 })
          (s.brk - (getMetaSize + b.size_))) p := by
  rw [freeBlocks]
  simp only [h0, if_false, load_ok h0 hb, hm, ne_eq, not_true_eq_false, hu, hnx, hpv, hp0,
    and_false, false_and, and_self, if_true, zero_ne_one, not_false_eq_true]
  rw [modify_ok _ hp0 hbp]
  simp only
  rw [freeSize_small hsz, sbrk_release (by simpa using hk) (by simpa using hmax)]
  rfl

/-- Releasing the last of two blocks while the first is in use: the block is unlinked and
its footprint is given back to the kernel. -/
theorem free_tail_second {s : State} {h0 h1 fuel : Nat} {b0 b1 : Block}
    (hh0 : s.hdr h0 = some b0) (hh1 : s.hdr h1 = some b1) (h00 : h0 ≠ 0) (h10 : h1 ≠ 0)
    (hne : h0 ≠ h1) (hm0 : b0.magic_ = MAGIC_NUMBER) (hm1 : b1.magic_ = MAGIC_NUMBER)
    (hu1 : b1.used_ ≠ 0) (hnx : b1.next_ = 0) (hpv : b1.prev_ = h0) (hu0 : b0.used_ = 1)
    (hsz : getMetaSize + b1.size_ < 2 ^ 31) (hk : getMetaSize + b1.size_ ≤ s.brk)
    (hmax : s.brk ≤ s.brkMax) (hfuel : 2 ≤ fuel) :
    free fuel s (h1 + getMetaSize)
      = .ok (withBrk (put (put s h1 { b1 with used_ := 0 }) h0 { b0 with next_ := 0 })
          (s.brk - (getMetaSize + b1.size_))) := by
  obtain ⟨f, rfl⟩ : ∃ f, fuel = f + 2 := ⟨fuel - 2, by omega⟩
  unfold free
  have hp : h1 + getMetaSize ≠ 0 := by simp [getMetaSize]
  rw [if_neg hp, header_add, load_ok h10 hh1]
  simp only [hm1, ne_eq, not_true_eq_false, if_false, hu1, hnx, if_true]
  rw [modify_ok _ h10 hh1]
  simp only
  have hb1 : (put s h1 { b1 with used_ := 0 }).hdr h1 = some { b1 with used_ := 0 } := by simp
  have hb0 : (put s h1 { b1 with used_ := 0 }).hdr h0 = some b0 := by simp [hne, hh0]
  rw [freeBlocks_tail (f + 1) h10 hb1 hm1 rfl hnx hpv h00 hb0 hsz hk hmax]
  have hb2 : (withBrk (put (put s h1 { b1 with used_ := 0 }) h0 { b0 with next_ := 0 })
      ((put s h1 { b1 with used_ := 0 }).brk - (getMetaSize + b1.size_))).hdr h0
      = some { b0 with next_ := 0 } := by simp
  rw [freeBlocks_used f h00 hb2 hm0 hu0]
  simp only [hm1, hnx, put_brk]

theorem copyInto_ok {s : State} {p q : Nat} {nb ob : Block}
    (h1 : load s (header p) = .ok nb) (hm : nb.magic_ = MAGIC_NUMBER)
    (h2 : load s (header q) = .ok ob) :
    copyInto s p q = .ok (p, { s with bytes := memcpy s.bytes p q ob.size_ }) := by
  unfold copyInto
  rw [h1]
  simp only [hm, ne_eq, not_true_eq_false, if_false]
  rw [h2]

theorem getMallocSize_ok {s : State} {p : Nat} {b : Block}
    (h1 : load s (header p) = .ok b) (hm : b.magic_ = MAGIC_NUMBER) :
    getMallocSize s p = .ok b.size_ := by
  unfold getMallocSize
  rw [h1]
  simp only [hm, ne_eq, not_true_eq_false, if_false]

/-- Growing the only block of the list: no neighbour can be merged, a new block is
appended at the break and the payload is copied there. -/
theorem realloc_single_fallback {s : State} {h0 n fuel : Nat} {b0 : Block}
    (hstart : s.blocks_start = h0) (h00 : h0 ≠ 0) (hh : s.hdr h0 = some b0)
    (hm : b0.magic_ = MAGIC_NUMBER) (hnx : b0.next_ = 0) (hpv : b0.prev_ = 0)
    (hsz : b0.size_ < n) (hb0 : s.brk ≠ 0) (hfail : s.brk ≠ FAIL) (hne : s.brk ≠ h0)
    (h1 : getMetaSize + n < 2 ^ 63) (h2 : s.brk + getMetaSize + n ≤ s.brkMax)
    (hW : s.brk + getMetaSize < WORD) (hfuel : 2 ≤ fuel) :
    ∃ s1, realloc fuel s (h0 + getMetaSize) n = .ok (s.brk + getMetaSize, s1) ∧
      s1.bytes = memcpy s.bytes (s.brk + getMetaSize) (h0 + getMetaSize) b0.size_ ∧
      getMallocSize s1 (s.brk + getMetaSize) = .ok n ∧
      s1.hdr h0 = some { b0 with used_ := 0, next_ := s.brk } ∧
      s1.blocks_start = h0 ∧ s1.brk = s.brk + getMetaSize + n := by
  obtain ⟨mg, sz, u, nx, pv⟩ := b0
  simp only at hm hnx hpv hsz
  subst hm hnx hpv
  have hn : 0 < n := by omega
  have hp : h0 + getMetaSize ≠ 0 := by simp [getMetaSize]
  have hpay : payload s.brk = s.brk + getMetaSize := payload_eq hW
  have hs1 : (put s h0 (Block.mk MAGIC_NUMBER sz 0 0 0)).hdr h0
      = some (Block.mk MAGIC_NUMBER sz 0 0 0) := by simp
  have hmal := @malloc_second (put s h0 (Block.mk MAGIC_NUMBER sz 0 0 0)) n fuel h0 _
    hstart h00 hs1 rfl rfl (Or.inr ⟨rfl, hsz⟩) hn hb0 hfail hne h1 h2 hfuel
  simp only [put_brk, hpay] at hmal
  unfold realloc
  rw [if_neg hp, header_add, load_ok h00 hh]
  simp only [ne_eq, not_true_eq_false, if_false]
  rw [modify_ok _ h00 hh]
  simp only [not_true_eq_false, if_false]
  rw [hmal]
  simp only
  have hl1 : load (put (put (put (withBrk (put s h0 (Block.mk MAGIC_NUMBER sz 0 0 0))
        (s.brk + getMetaSize + n)) s.brk (Block.mk MAGIC_NUMBER n 1 0 0)) h0
        (Block.mk MAGIC_NUMBER sz 0 s.brk 0)) s.brk (Block.mk MAGIC_NUMBER n 1 0 h0))
      (header (s.brk + getMetaSize)) = .ok (Block.mk MAGIC_NUMBER n 1 0 h0) := by
    rw [header_add]
    apply load_ok hb0
    simp
  have hl2 : load (put (put (put (withBrk (put s h0 (Block.mk MAGIC_NUMBER sz 0 0 0))
        (s.brk + getMetaSize + n)) s.brk (Block.mk MAGIC_NUMBER n 1 0 0)) h0
        (Block.mk MAGIC_NUMBER sz 0 s.brk 0)) s.brk (Block.mk MAGIC_NUMBER n 1 0 h0))
      (header (h0 + getMetaSize)) = .ok (Block.mk MAGIC_NUMBER sz 0 s.brk 0) := by
    rw [header_add]
    apply load_ok h00
    simp [Ne.symm hne]
  rw [copyInto_ok hl1 rfl hl2]
  refine ⟨_, rfl, rfl, ?_, ?_, hstart, rfl⟩
  · exact getMallocSize_ok hl1 rfl
  · simp [Ne.symm hne]

theorem run_cons_ok {fuel : Nat} {s s1 s2 : State} {c : Call} {cs : List Call} {p : Nat}
    {ps : List Nat} (h1 : step fuel s c = .ok (p, s1)) (h2 : run fuel s1 cs = .ok (ps, s2)) :
    run fuel s (c :: cs) = .ok (p :: ps, s2) := by
  rw [run, h1]
  simp only
  rw [h2]

theorem step_release_ok {fuel : Nat} {s s1 : State} {p : Nat} (h : free fuel s p = .ok s1) :
    step fuel s (Call.release p) = .ok (0, s1) := by
  rw [step, h]

/-! ## Release after an allocation -/

theorem sbrk_hdr (s : State) (d : Int) : (sbrk s d).2.hdr = s.hdr := by
  unfold sbrk; simp only; split <;> rfl

theorem sbrk_bytes (s : State) (d : Int) : (sbrk s d).2.bytes = s.bytes := by
  unfold sbrk; simp only; split <;> rfl

theorem sbrk_blocks_start (s : State) (d : Int) : (sbrk s d).2.blocks_start = s.blocks_start := by
  unfold sbrk; simp only; split <;> rfl

theorem sbrk_brkMax (s : State) (d : Int) : (sbrk s d).2.brkMax = s.brkMax := by
  unfold sbrk; simp only; split <;> rfl

/-- A call of `sbrk` is refused and changes nothing, or returns the old break. -/
theorem sbrk_cases (s : State) (d : Int) :
    ((sbrk s d).1 = FAIL ∧ (sbrk s d).2 = s) ∨
    ((sbrk s d).1 = s.brk ∧ ((sbrk s d).2.brk : Int) = (s.brk : Int) + d ∧
      (sbrk s d).2.brk ≤ s.brkMax) := by
  unfold sbrk
  simp only
  split
  · rename_i hc
    right
    refine ⟨rfl, ?_, ?_⟩
    · simp only [withBrk_brk]
      omega
    · simp only [withBrk_brk]
      omega
  · left
    exact ⟨rfl, rfl⟩

/-- The block `findFreeBlock` hands back was free when the search began. -/
theorem findFreeBlock_free :
    ∀ (fuel : Nat) (s : State) (cur n r : Nat) (s1 : State),
      findFreeBlock fuel s cur n = .ok (r, s1) → r ≠ 0 →
      ∃ b, s.hdr r = some b ∧ b.used_ = 0 ∧ b.magic_ = MAGIC_NUMBER
  | 0, _, _, _, _, _, h, _ => by simp [findFreeBlock] at h
  | fuel + 1, s, cur, n, r, s1, h, hr => by
    rw [findFreeBlock] at h
    by_cases hc : cur = 0
    · rw [if_pos hc] at h
      injection h with h
      injection h with h1 h2
      exact absurd h1.symm hr
    · rw [if_neg hc] at h
      cases hl : load s cur with
      | error e => rw [hl] at h; cases h
      | ok b =>
        rw [hl] at h
        simp only at h
        obtain ⟨_, hb⟩ := load_ok_iff.1 hl
        by_cases hmag : b.magic_ = MAGIC_NUMBER
        · simp only [hmag, ne_eq, not_true_eq_false, if_false] at h
          have hrec : (if ¬ b.next_ = 0 then findFreeBlock fuel s b.next_ n else .ok (0, s))
                = .ok (r, s1) → ∃ b, s.hdr r = some b ∧ b.used_ = 0 ∧ b.magic_ = MAGIC_NUMBER := by
            intro h1
            by_cases hnz : b.next_ = 0
            · simp [hnz] at h1
              exact absurd h1.1.symm hr
            · simp only [hnz, not_false_eq_true, if_true] at h1
              exact findFreeBlock_free fuel s _ n r s1 h1 hr
          by_cases hdirect : b.used_ = 0 ∧ n ≤ b.size_
          · rw [if_pos hdirect] at h
            injection h with h
            injection h with h1 h2
            subst h1
            exact ⟨b, hb, hdirect.1, hmag⟩
          · rw [if_neg hdirect] at h
            by_cases hu : b.used_ = 0
            · rw [if_pos hu] at h
              cases hp : checkForwardMerge (fuel + 1) s cur n 0 with
              | error e => rw [hp] at h; cases h
              | ok v =>
                rw [hp] at h
                simp only at h
                by_cases hv : v = 1
                · rw [if_pos hv] at h
                  cases he : forwardBlockMerge (fuel + 1) s cur cur n 0 with
                  | error e => rw [he] at h; cases h
                  | ok s2 =>
                    rw [he] at h
                    injection h with h
                    injection h with h1 h2
                    subst h1
                    exact ⟨b, hb, hu, hmag⟩
                · rw [if_neg hv] at h
                  exact hrec h
            · rw [if_neg hu] at h
              exact hrec h
        · simp only [hmag, ne_eq, not_false_eq_true, if_true] at h
          cases h

/-- `insertBlock` on a chain: the last block gets the new header as successor and the new
header gets that block as predecessor. -/
theorem insertBlock_chain {brk new : Nat} {nb : Block} (hnew0 : new ≠ 0) :
    ∀ (xs : List Nat) (x pv fuel : Nat) (s s4 : State),
      chain s.hdr brk pv (x :: xs) → new ∉ x :: xs → s.hdr new = some nb →
      insertBlock fuel s new x = .ok s4 →
      ∃ t bt, (x :: xs).getLast? = some t ∧ s.hdr t = some bt ∧ bt.next_ = 0 ∧ t ≠ 0 ∧
        t ≠ new ∧ bt.magic_ = MAGIC_NUMBER ∧
        s4 = put (put s t { bt with next_ := new }) new { nb with prev_ := t } := by
  intro xs
  induction xs with
  | nil =>
    intro x pv fuel s s4 hch hnot hnewh h
    obtain ⟨b, hb, h0, hmag, _, hnext, _, _⟩ := hch
    simp at hnext hnot
    cases fuel with
    | zero => simp [insertBlock] at h
    | succ fuel =>
      rw [insertBlock_last fuel h0 hb hmag hnext hnew0 hnewh hnot] at h
      injection h with h
      exact ⟨x, b, rfl, hb, hnext, h0, fun e => hnot e.symm, hmag, h.symm⟩
  | cons y ys ih =>
    intro x pv fuel s s4 hch hnot hnewh h
    obtain ⟨b, hb, h0, hmag, _, hnext, _, hrest⟩ := hch
    simp at hnext
    have hy0 : y ≠ 0 := by
      obtain ⟨_, _, hy0, _⟩ := hrest
      exact hy0
    cases fuel with
    | zero => simp [insertBlock] at h
    | succ fuel =>
      rw [insertBlock] at h
      simp only [load_ok h0 hb, hmag, ne_eq, not_true_eq_false, if_false, hnext, hy0] at h
      have hnot2 : new ∉ y :: ys := fun hm => hnot (List.mem_cons_of_mem _ hm)
      obtain ⟨t, bt, h1, h2⟩ := ih y x fuel s s4 hrest hnot2 hnewh h
      exact ⟨t, bt, by rw [List.getLast?_cons_cons]; exact h1, h2⟩

theorem sbrk_brk_congr {s s1 : State} (d : Int) (h1 : s1.brk = s.brk)
    (h2 : s1.brkMax = s.brkMax) : (sbrk s1 d).2.brk = (sbrk s d).2.brk := by
  unfold sbrk
  simp only [h1, h2]
  split <;> simp [h1]

theorem freeBlocks_only_eq {s : State} {cur : Nat} {b : Block} (f : Nat)
    (h0 : cur ≠ 0) (hb : s.hdr cur = some b) (hm : b.magic_ = MAGIC_NUMBER)
    (hu : b.used_ = 0) (hnx : b.next_ = 0) (hpv : b.prev_ = 0) :
    freeBlocks (f + 1) s cur = .ok { (sbrk s (freeSize b.size_)).2 with blocks_start := 0 } := by
  rw [freeBlocks]
  simp only [h0, if_false, load_ok h0 hb, hm, ne_eq, not_true_eq_false, hu, hnx, hpv,
    and_self, if_true, zero_ne_one]

theorem freeBlocks_only_post (s X : State) (e1 : X.hdr = s.hdr) (e2 : X.bytes = s.bytes)
    (e3 : X.brkMax = s.brkMax) :
    ∃ s2, (Except.ok { X with blocks_start := 0 } : Except Err State) = .ok s2 ∧
      s2.hdr = s.hdr ∧ s2.bytes = s.bytes ∧ s2.blocks_start = 0 ∧ s2.brk = X.brk ∧
      s2.brkMax = s.brkMax :=
  ⟨_, rfl, e1, e2, rfl, rfl, e3⟩

/-- `freeBlocks` on the only block of the list, which is free: the footprint goes back to
the kernel and `blocks_start` is cleared. -/
theorem freeBlocks_only {s : State} {cur sz : Nat} {b : Block} (f : Nat)
    (h0 : cur ≠ 0) (hb : s.hdr cur = some b) (hm : b.magic_ = MAGIC_NUMBER)
    (hu : b.used_ = 0) (hnx : b.next_ = 0) (hpv : b.prev_ = 0) (hsz : b.size_ = sz) :
    ∃ s2, freeBlocks (f + 1) s cur = .ok s2 ∧ s2.hdr = s.hdr ∧ s2.bytes = s.bytes ∧
      s2.blocks_start = 0 ∧ s2.brk = (sbrk s (freeSize sz)).2.brk ∧
      s2.brkMax = s.brkMax := by
  subst hsz
  rw [freeBlocks_only_eq f h0 hb hm hu hnx hpv]
  exact freeBlocks_only_post s _ (sbrk_hdr s _) (sbrk_bytes s _) (sbrk_brkMax s _)

theorem freeBlocks_tail_eq {s : State} {cur p : Nat} {b bp : Block} (f : Nat)
    (h0 : cur ≠ 0) (hb : s.hdr cur = some b) (hm : b.magic_ = MAGIC_NUMBER)
    (hu : b.used_ = 0) (hnx : b.next_ = 0) (hpv : b.prev_ = p) (hp0 : p ≠ 0)
    (hbp : s.hdr p = some bp) :
    freeBlocks (f + 1) s cur
      = freeBlocks f (sbrk (put s p { bp with next_ := 0 }) (freeSize b.size_)).2 p := by
  rw [freeBlocks]
  simp only [h0, if_false, load_ok h0 hb, hm, ne_eq, not_true_eq_false, hu, hnx, hpv, hp0,
    and_false, false_and, and_self, if_true, zero_ne_one, not_false_eq_true]
  rw [modify_ok _ hp0 hbp]

/-- `freeBlocks` on a free last block with a predecessor: the block is unlinked, its
footprint goes back to the kernel and the walk continues at the predecessor. -/
theorem freeBlocks_tail_step {s : State} {cur p sz : Nat} {b bp : Block} (f : Nat)
    (h0 : cur ≠ 0) (hb : s.hdr cur = some b) (hm : b.magic_ = MAGIC_NUMBER)
    (hu : b.used_ = 0) (hnx : b.next_ = 0) (hpv : b.prev_ = p) (hp0 : p ≠ 0)
    (hbp : s.hdr p = some bp) (hsz : b.size_ = sz) :
    ∃ s2, freeBlocks (f + 1) s cur = freeBlocks f s2 p ∧
      s2.hdr = (put s p { bp with next_ := 0 }).hdr ∧ s2.bytes = s.bytes ∧
      s2.blocks_start = s.blocks_start ∧ s2.brk = (sbrk s (freeSize sz)).2.brk ∧
      s2.brkMax = s.brkMax := by
  rw [freeBlocks_tail_eq f h0 hb hm hu hnx hpv hp0 hbp, hsz]
  have e1 := sbrk_hdr (put s p { bp with next_ := 0 }) (freeSize sz)
  have e2 := sbrk_bytes (put s p { bp with next_ := 0 }) (freeSize sz)
  have e3 := sbrk_brkMax (put s p { bp with next_ := 0 }) (freeSize sz)
  have e4 := sbrk_blocks_start (put s p { bp with next_ := 0 }) (freeSize sz)
  have e5 := @sbrk_brk_congr s (put s p { bp with next_ := 0 }) (freeSize sz) rfl rfl
  generalize (sbrk (put s p { bp with next_ := 0 }) (freeSize sz)).2 = X at e1 e2 e3 e4 e5 ⊢
  exact ⟨_, rfl, e1, e2, e4, e5, e3⟩

/-- In a chain only the last block has no successor. -/
theorem chain_next_ne_zero {m : Nat → Option Block} {brk : Nat} :
    ∀ (l : List Nat) (pv x : Nat) (b : Block), chain m brk pv l → x ∈ l → m x = some b →
      l.getLast? ≠ some x → b.next_ ≠ 0
  | [], _, _, _, _, hx, _, _ => by cases hx
  | [y], pv, x, b, h, hx, hb, hl => by
    simp at hx
    subst hx
    simp at hl
  | y :: z :: zs, pv, x, b, h, hx, hb, hl => by
    obtain ⟨by1, hby, _, _, _, hnext, _, hrest⟩ := h
    rcases List.mem_cons.1 hx with rfl | hx
    · rw [hb] at hby
      injection hby with hby
      subst hby
      simp at hnext
      rw [hnext]
      obtain ⟨_, _, hz0, _⟩ := hrest
      exact hz0
    · rw [List.getLast?_cons_cons] at hl
      exact chain_next_ne_zero (z :: zs) y x b hrest hx hb hl


/-- `free` of the payload of the only block of the list. -/
theorem free_only {s : State} {a p sz : Nat} {nb : Block} (f : Nat) (hp0 : p ≠ 0)
    (hh : header p = a) (ha0 : a ≠ 0) (hs : s.hdr a = some nb)
    (hm : nb.magic_ = MAGIC_NUMBER) (hu : nb.used_ = 1) (hnx : nb.next_ = 0)
    (hpv : nb.prev_ = 0) (hsz : nb.size_ = sz) :
    ∃ s2, free (f + 1) s p = .ok s2 ∧ s2.blocks_start = 0 ∧ s2.bytes = s.bytes ∧
      (∀ x, x ≠ a → s2.hdr x = s.hdr x) ∧
      s2.brk = (sbrk s (freeSize sz)).2.brk := by
  obtain ⟨mg, sz1, u, nx, pv⟩ := nb
  simp only at hm hu hnx hpv hsz
  subst hm hu hnx hpv hsz
  unfold free
  rw [if_neg hp0, hh, load_ok ha0 hs]
  simp only [ne_eq, not_true_eq_false, if_false, one_ne_zero, if_true]
  rw [modify_ok _ ha0 hs]
  simp only
  obtain ⟨s2, h1, h2, h3, h4, h5, _⟩ := @freeBlocks_only
    (put s a (Block.mk MAGIC_NUMBER sz1 0 0 0)) a sz1 (Block.mk MAGIC_NUMBER sz1 0 0 0) f ha0
    (by simp) rfl rfl rfl rfl rfl
  refine ⟨s2, h1, h4, h3, ?_, ?_⟩
  · intro x hx
    rw [h2]
    simp only [put_hdr, hx, if_false]
  · rw [h5]
    exact sbrk_brk_congr _ rfl rfl

/-- `free` of the payload of the last block of the list when the block in front of it is
in use. -/
theorem free_last {s : State} {a t p sz : Nat} {nb bt : Block} (f : Nat) (hp0 : p ≠ 0)
    (hh : header p = a) (ha0 : a ≠ 0) (hs : s.hdr a = some nb)
    (hm : nb.magic_ = MAGIC_NUMBER) (hu : nb.used_ = 1) (hnx : nb.next_ = 0)
    (hpv : nb.prev_ = t) (hsz : nb.size_ = sz) (ht0 : t ≠ 0) (hta : t ≠ a)
    (hbt : s.hdr t = some bt) (hbm : bt.magic_ = MAGIC_NUMBER) (hbu : bt.used_ = 1) :
    ∃ s2, free (f + 2) s p = .ok s2 ∧ s2.blocks_start = s.blocks_start ∧
      s2.bytes = s.bytes ∧ (∀ x, x ≠ a → x ≠ t → s2.hdr x = s.hdr x) ∧
      s2.hdr t = some { bt with next_ := 0 } ∧
      s2.brk = (sbrk s (freeSize sz)).2.brk := by
  obtain ⟨mg, sz0, u, nx, pv⟩ := nb
  simp only at hm hu hnx hpv hsz
  subst hm hu hnx hpv hsz
  obtain ⟨mg1, sz1, u1, nx1, pv1⟩ := bt
  simp only at hbm hbu
  subst hbm hbu
  unfold free
  rw [if_neg hp0, hh, load_ok ha0 hs]
  simp only [ne_eq, not_true_eq_false, if_false, one_ne_zero, if_true]
  rw [modify_ok _ ha0 hs]
  simp only
  obtain ⟨s2, h1, h2, h3, h4, h5, _⟩ := @freeBlocks_tail_step
    (put s a (Block.mk MAGIC_NUMBER sz0 0 0 pv)) a pv sz0 (Block.mk MAGIC_NUMBER sz0 0 0 pv)
    (Block.mk MAGIC_NUMBER sz1 1 nx1 pv1) (f + 1) ha0 (by simp) rfl rfl rfl rfl ht0
    (by simp [hta, hbt]) rfl
  have ht : s2.hdr pv = some (Block.mk MAGIC_NUMBER sz1 1 0 pv1) := by
    rw [h2]
    simp
  rw [h1, freeBlocks_used f ht0 ht rfl rfl]
  refine ⟨s2, rfl, h4, h3, ?_, ht, ?_⟩
  · intro x hx hxt
    rw [h2]
    simp only [put_hdr, hx, hxt, if_false]
  · rw [h5]
    exact sbrk_brk_congr _ rfl rfl

/-- Growing the break by `40 + n` and shrinking it by the `int` amount `freeBlocks`
computes brings it back when `40 + n` fits an `int`. -/
theorem sbrk_back {s S : State} {n k : Nat}
    (hnew : (k : Int) = (s.brk : Int) + toInt64 ((getMetaSize + n) % WORD))
    (hle : k ≤ s.brkMax) (hS : S.brk = k) (hSm : S.brkMax = s.brkMax)
    (hsmall : getMetaSize + n < 2 ^ 31) :
    (sbrk S (freeSize n)).2.brk = s.brk := by
  have hmod : (getMetaSize + n) % WORD = getMetaSize + n := by
    apply Nat.mod_eq_of_lt
    simp only [WORD, getMetaSize] at *
    omega
  have h64 : toInt64 (getMetaSize + n) = ((getMetaSize + n : Nat) : Int) := by
    unfold toInt64
    simp only [hmod]
    rw [if_pos (by simp only [getMetaSize] at *; omega)]
  rw [hmod, h64] at hnew
  have hSb : S.brk = s.brk + (getMetaSize + n) := by omega
  rw [freeSize_small hsmall, sbrk_release (by omega) (by rw [hS, hSm]; exact hle)]
  simp only [withBrk_brk]
  omega

/-! ## Lock calls -/

theorem mallocL_result (fuel : Nat) (s : State) (size : Nat) :
    (mallocL fuel s size).2 = malloc fuel s size := by
  unfold mallocL malloc
  by_cases h0 : size = 0
  · simp only [h0, if_true]
  · simp only [h0, if_false]
    rcases hf : findFreeBlock fuel s s.blocks_start size with e | ⟨r, s1⟩
    · rfl
    · simp only
      by_cases hr : r = 0
      · simp only [hr, ne_eq, not_true_eq_false, if_false]
        split
        · rfl
        · split
          · rfl
          · split
            · rfl
            · split <;> rfl
      · simp only [hr, ne_eq, not_false_eq_true, if_true]
        split <;> rfl

/-- The lock calls of `malloc`: none for a zero size, otherwise one acquire, followed by
one release exactly when the call returns. -/
theorem mallocL_trace (fuel : Nat) (s : State) (size : Nat) :
    (size = 0 ∧ mallocL fuel s size = ([], .ok (0, s))) ∨
    (size ≠ 0 ∧ ((∃ e, mallocL fuel s size = ([.lock], .error e)) ∨
      (∃ r, mallocL fuel s size = ([.lock, .unlock], .ok r)))) := by
  unfold mallocL
  by_cases h0 : size = 0
  · left
    simp only [h0, if_true, and_self]
  · right
    refine ⟨h0, ?_⟩
    simp only [h0, if_false]
    rcases hf : findFreeBlock fuel s s.blocks_start size with e | ⟨r, s1⟩
    · exact Or.inl ⟨e, rfl⟩
    · simp only
      by_cases hr : r = 0
      · simp only [hr, ne_eq, not_true_eq_false, if_false]
        split
        · exact Or.inr ⟨_, rfl⟩
        · split
          · exact Or.inl ⟨_, rfl⟩
          · split
            · exact Or.inr ⟨_, rfl⟩
            · split
              · exact Or.inl ⟨_, rfl⟩
              · exact Or.inr ⟨_, rfl⟩
      · simp only [hr, ne_eq, not_false_eq_true, if_true]
        split
        · exact Or.inl ⟨_, rfl⟩
        · exact Or.inr ⟨_, rfl⟩

theorem freeL_result (fuel : Nat) (s : State) (ptr : Nat) :
    (freeL fuel s ptr).2 = free fuel s ptr := by
  unfold freeL free
  split
  · rfl
  · split
    · rfl
    · split
      · rfl
      · split
        · rfl
        · split
          · rfl
          · split
            · split <;> simp [*]
            · rfl

theorem copyIntoL_result (s : State) (p q : Nat) : (copyIntoL s p q).2 = copyInto s p q := by
  unfold copyIntoL copyInto
  split
  · rfl
  · split
    · rfl
    · split <;> rfl

theorem reallocL_result (fuel : Nat) (s : State) (ptr size : Nat) :
    (reallocL fuel s ptr size).2 = realloc fuel s ptr size := by
  unfold reallocL realloc
  split
  · exact mallocL_result fuel s size
  · split
    · rfl
    · split
      · rfl
      · split
        · rfl
        · split
          · rfl
          · split
            · split <;> rfl
            · split
              · rfl
              · split
                · split
                  · rfl
                  · split <;> rfl
                · split
                  · rename_i heq
                    have hm := congrArg Prod.snd heq
                    rw [mallocL_result] at hm
                    simp only at hm
                    rw [hm]
                  · rename_i heq
                    have hm := congrArg Prod.snd heq
                    rw [mallocL_result] at hm
                    simp only at hm
                    rw [hm]
                    exact copyIntoL_result _ _ ptr

/-- `calloc` with a nonzero product: `malloc` is entered with the lock held and blocks in
its `pthread_spin_lock`; with a product that is zero modulo `2^64` it returns `NULL`
before it reaches the lock. -/
theorem calloc_nonzero (fuel : Nat) (s : State) (nmemb size : Nat) (h1 : nmemb ≠ 0)
    (h2 : size ≠ 0) :
    calloc fuel s nmemb size
      = if (nmemb * size) % WORD = 0 then .ok (0, s) else .error Err.hang := by
  unfold calloc mallocWithLock
  rw [if_neg (by simp [h1, h2])]
  by_cases h3 : (nmemb * size) % WORD = 0
  · simp [h3, lockStep]
  · simp [h3, lockStep]

theorem mallocL_lockOk (fuel : Nat) (s : State) (size : Nat) : LockOk (mallocL fuel s size) := by
  rcases mallocL_trace fuel s size with ⟨_, h⟩ | ⟨_, ⟨e, h⟩ | ⟨r, h⟩⟩ <;> rw [h] <;>
    simp [LockOk, runLocks, lockStep]

theorem freeL_lockOk (fuel : Nat) (s : State) (ptr : Nat) : LockOk (freeL fuel s ptr) := by
  unfold freeL
  split
  · simp [LockOk, runLocks, lockStep]
  · split
    · simp [LockOk, runLocks, lockStep]
    · split
      · simp [LockOk, runLocks, lockStep]
      · split
        · simp [LockOk, runLocks, lockStep]
        · split
          · simp [LockOk, runLocks, lockStep]
          · split
            · split <;> simp [LockOk, runLocks, lockStep]
            · simp [LockOk, runLocks, lockStep]

theorem copyIntoL_trace (s : State) (p q : Nat) :
    (∃ e, copyIntoL s p q = ([], .error e)) ∨ (∃ r, copyIntoL s p q = ([.unlock], r)) := by
  unfold copyIntoL
  split
  · exact Or.inl ⟨_, rfl⟩
  · split
    · exact Or.inr ⟨_, rfl⟩
    · split
      · exact Or.inl ⟨_, rfl⟩
      · exact Or.inr ⟨_, rfl⟩

theorem reallocL_lockOk (fuel : Nat) (s : State) (ptr size : Nat) :
    LockOk (reallocL fuel s ptr size) := by
  unfold reallocL
  split
  · exact mallocL_lockOk fuel s size
  · split
    · simp [LockOk, runLocks, lockStep]
    · split
      · simp [LockOk, runLocks, lockStep]
      · split
        · simp [LockOk, runLocks, lockStep]
        · split
          · simp [LockOk, runLocks, lockStep]
          · split
            · split <;> simp [LockOk, runLocks, lockStep]
            · split
              · simp [LockOk, runLocks, lockStep]
              · split
                · split
                  · simp [LockOk, runLocks, lockStep]
                  · split <;> simp [LockOk, runLocks, lockStep]
                · split
                  · rename_i t e heq
                    rcases mallocL_trace fuel _ size with ⟨_, h⟩ | ⟨_, ⟨e1, h⟩ | ⟨r, h⟩⟩
                    · rw [h] at heq
                      cases heq
                    · rw [h] at heq
                      injection heq with h1 h2
                      subst h1
                      simp [LockOk, runLocks, lockStep]
                    · rw [h] at heq
                      injection heq with h1 h2
                      cases h2
                  · rename_i t q s2 heq
                    rcases mallocL_trace fuel _ size with ⟨_, h⟩ | ⟨_, ⟨e1, h⟩ | ⟨r, h⟩⟩
                    · rw [h] at heq
                      injection heq with h1 h2
                      subst h1
                      rcases copyIntoL_trace s2 q ptr with ⟨e, hc⟩ | ⟨r, hc⟩
                      · rw [hc]
                        simp [LockOk, runLocks, lockStep]
                      · rw [hc]
                        cases r <;> simp [LockOk, runLocks, lockStep]
                    · rw [h] at heq
                      injection heq with h1 h2
                      cases h2
                    · rw [h] at heq
                      injection heq with h1 h2
                      subst h1
                      rcases copyIntoL_trace s2 q ptr with ⟨e, hc⟩ | ⟨r, hc⟩
                      · rw [hc]
                        simp [LockOk, runLocks, lockStep]
                      · rw [hc]
                        cases r <;> simp [LockOk, runLocks, lockStep]

/-- `calloc` with a nonzero product: its second lock call is an acquire made while the
lock is held. -/
theorem callocL_blocks (fuel : Nat) (s : State) (nmemb size : Nat) (h1 : nmemb ≠ 0)
    (h2 : size ≠ 0) (h3 : (nmemb * size) % WORD ≠ 0) :
    (callocL fuel s nmemb size).1.take 2 = [.lock, .lock] ∧
      runLocks false (callocL fuel s nmemb size).1 = none := by
  unfold callocL
  rw [if_neg (by simp [h1, h2])]
  rcases mallocL_trace fuel s ((nmemb * size) % WORD) with
    ⟨h0, _⟩ | ⟨_, ⟨e, h⟩ | ⟨⟨q, s2⟩, h⟩⟩
  · exact absurd h0 h3
  · rw [h]
    simp [runLocks, lockStep]
  · rw [h]
    simp only
    split <;> simp [runLocks, lockStep]

/-- `calloc` and its lock calls: the call does not return when one of its acquire steps
is not enabled, and otherwise returns what the calls between the lock calls compute. -/
theorem calloc_callocL (fuel : Nat) (s : State) (nmemb size : Nat) :
    calloc fuel s nmemb size =
      if runLocks false (callocL fuel s nmemb size).1 = none then .error Err.hang
      else (callocL fuel s nmemb size).2 := by
  by_cases h0 : nmemb = 0 ∨ size = 0
  · unfold calloc callocL
    rw [if_pos h0, if_pos h0]
    simp [runLocks]
  · have h1 : nmemb ≠ 0 := fun h => h0 (Or.inl h)
    have h2 : size ≠ 0 := fun h => h0 (Or.inr h)
    rw [calloc_nonzero fuel s nmemb size h1 h2]
    by_cases h3 : (nmemb * size) % WORD = 0
    · rw [if_pos h3]
      unfold callocL
      rw [if_neg h0, h3]
      simp [mallocL, runLocks, lockStep]
    · rw [if_neg h3, if_pos (callocL_blocks fuel s nmemb size h1 h2 h3).2]

/-! ## The forward merge: the run that is absorbed -/

theorem absorbed_cons {m : Nat → Option Block} {x : Nat} {b : Block} (xs : List Nat)
    (hb : m x = some b) : absorbed m (x :: xs) = getMetaSize + b.size_ + absorbed m xs := by
  simp [absorbed, hb]

theorem absorbed_append (m : Nat → Option Block) :
    ∀ (xs ys : List Nat), absorbed m (xs ++ ys) = absorbed m xs + absorbed m ys
  | [], ys => by simp [absorbed]
  | x :: xs, ys => by
    have ih := absorbed_append m xs ys
    show getMetaSize + ((m x).map Block.size_).getD 0 + absorbed m (xs ++ ys)
      = getMetaSize + ((m x).map Block.size_).getD 0 + absorbed m xs + absorbed m ys
    omega

/-- From a successor of `first` on: the planner has accepted with `A + 40` bytes counted,
the executor has `A` bytes; the executor walks over free blocks and merges at the first
block `c` where the capacity suffices. -/
theorem forward_run {s : State} {brk n first : Nat} (hbrk : brk < WORD) :
    ∀ (rest : List Nat) (pv cur A fp : Nat),
      chain s.hdr brk pv (cur :: rest) → cur ≠ first → A + getMetaSize + first = cur → A < n →
      checkForwardMerge fp s cur n (A + getMetaSize) = .ok 1 →
      ∃ run c tl, cur :: rest = run ++ c :: tl ∧
        n ≤ A + absorbed s.hdr (run ++ [c]) ∧
        (∀ j, j ≤ run.length → A + absorbed s.hdr ((run ++ [c]).take j) < n) ∧
        (∀ fe, run.length + 1 ≤ fe →
          forwardBlockMerge fe s first cur n A
            = forwardLink s first c (A + absorbed s.hdr (run ++ [c]))) := by
  intro rest
  induction rest with
  | nil =>
    intro pv cur A fp hch hne hA hlt hp
    obtain ⟨b, hb, h0, hmag, _, hnext, hend, _⟩ := hch
    simp at hnext hend
    cases fp with
    | zero => simp [checkForwardMerge] at hp
    | succ fp =>
      rw [checkForwardMerge_step fp n _ h0 hb hmag] at hp
      have hca : (A + b.size_ + getMetaSize) % WORD = A + b.size_ + getMetaSize := by
        apply Nat.mod_eq_of_lt
        simp [getMetaSize] at *
        omega
      have habs : A + absorbed s.hdr ([] ++ [cur]) = A + b.size_ + getMetaSize := by
        simp [absorbed, hb]
        omega
      by_cases h2 : n ≤ A + b.size_ + getMetaSize
      · refine ⟨[], cur, [], rfl, by omega, ?_, ?_⟩
        · intro j hj
          have : j = 0 := by simpa using hj
          subst this
          simp [absorbed]
          exact hlt
        · intro fe hfe
          obtain ⟨fe, rfl⟩ : ∃ k, fe = k + 1 := ⟨fe - 1, by simp at hfe; omega⟩
          rw [forwardBlockMerge_step fe first n A h0 hb hmag]
          simp only [hne, if_false, hca]
          rw [if_pos h2, habs]
      · have h1 : ¬ n ≤ A + getMetaSize := by omega
        rw [if_neg h1] at hp
        by_cases h3 : b.used_ = 0
        · simp only [h3, ne_eq, not_true_eq_false, if_false, hnext] at hp
          exact absurd hp (checkForwardMerge_null _ _ _ _)
        · simp [h3] at hp
  | cons y ys ih =>
    intro pv cur A fp hch hne hA hlt hp
    obtain ⟨b, hb, h0, hmag, _, hnext, hend, hrest⟩ := hch
    simp at hnext hend
    obtain ⟨by1, hby, hyle⟩ := chain_le_brk _ _ hrest y (List.mem_cons_self _ _)
    cases fp with
    | zero => simp [checkForwardMerge] at hp
    | succ fp =>
      rw [checkForwardMerge_step fp n _ h0 hb hmag] at hp
      have hca : (A + b.size_ + getMetaSize) % WORD = A + b.size_ + getMetaSize := by
        apply Nat.mod_eq_of_lt
        simp [getMetaSize] at *
        omega
      by_cases h2 : n ≤ A + b.size_ + getMetaSize
      · have habs : A + absorbed s.hdr ([] ++ [cur]) = A + b.size_ + getMetaSize := by
          simp [absorbed, hb]
          omega
        refine ⟨[], cur, y :: ys, rfl, by omega, ?_, ?_⟩
        · intro j hj
          have : j = 0 := by simpa using hj
          subst this
          simp [absorbed]
          exact hlt
        · intro fe hfe
          obtain ⟨fe, rfl⟩ : ∃ k, fe = k + 1 := ⟨fe - 1, by simp at hfe; omega⟩
          rw [forwardBlockMerge_step fe first n A h0 hb hmag]
          simp only [hne, if_false, hca]
          rw [if_pos h2, habs]
      · have h1 : ¬ n ≤ A + getMetaSize := by omega
        rw [if_neg h1] at hp
        by_cases h3 : b.used_ = 0
        · simp only [h3, ne_eq, not_true_eq_false, if_false, hnext] at hp
          have hpa : (A + getMetaSize + getMetaSize + b.size_) % WORD
              = (A + b.size_ + getMetaSize) + getMetaSize := by
            rw [Nat.mod_eq_of_lt]
            · omega
            · simp [getMetaSize] at *
              omega
          rw [hpa] at hp
          obtain ⟨run, c, tl, heq, hsuf, hshort, hexec⟩ :=
            ih cur y (A + b.size_ + getMetaSize) fp hrest
              (by simp [getMetaSize] at *; omega) (by simp [getMetaSize] at *; omega)
              (by omega) hp
          have habs : ∀ zs : List Nat, A + absorbed s.hdr (cur :: zs)
              = A + b.size_ + getMetaSize + absorbed s.hdr zs := by
            intro zs
            rw [absorbed_cons zs hb]
            omega
          refine ⟨cur :: run, c, tl, by rw [heq]; rfl, ?_, ?_, ?_⟩
          · rw [List.cons_append, habs]
            exact hsuf
          · intro j hj
            cases j with
            | zero =>
              simp [absorbed]
              exact hlt
            | succ j =>
              rw [List.cons_append, List.take_succ_cons, habs]
              exact hshort j (by simp at hj; omega)
          · intro fe hfe
            obtain ⟨fe, rfl⟩ : ∃ k, fe = k + 1 := ⟨fe - 1, by simp at hfe; omega⟩
            rw [forwardBlockMerge_step fe first n A h0 hb hmag]
            simp only [hne, if_false, hca]
            rw [if_neg h2, if_pos ⟨hlt, h3⟩, hnext, List.cons_append, habs]
            exact hexec fe (by simp at hfe; omega)
        · simp [h3] at hp

/-- In a chain the block in front of `z` has `z` as its successor. -/
theorem chain_last_next {m : Nat → Option Block} {brk z : Nat} {zs : List Nat} :
    ∀ (l : List Nat) (pv x : Nat), chain m brk pv (l ++ z :: zs) → l.getLast? = some x →
      ∃ b, m x = some b ∧ x ≠ 0 ∧ b.next_ = z
  | [], _, _, _, hx => by simp at hx
  | [y], pv, x, h, hx => by
    simp at hx
    subst hx
    obtain ⟨b, hb, h0, _, _, hnext, _, _⟩ := h
    exact ⟨b, hb, h0, by simpa using hnext⟩
  | y :: w :: ws, pv, x, h, hx => by
    obtain ⟨_, _, _, _, _, _, _, hrest⟩ := h
    rw [List.getLast?_cons_cons] at hx
    exact chain_last_next (w :: ws) y x hrest hx

/-- The footprints of consecutive blocks add up to the distance to the block behind them. -/
theorem chain_absorbed {m : Nat → Option Block} {brk z : Nat} {zs : List Nat} :
    ∀ (run : List Nat) (pv x : Nat) (b : Block), chain m brk pv (x :: run ++ z :: zs) →
      m x = some b → x + getMetaSize + b.size_ + absorbed m run = z
  | [], pv, x, b, h, hb => by
    obtain ⟨b1, hb1, _, _, _, _, hend, _⟩ := h
    rw [hb] at hb1
    injection hb1 with hb1
    subst hb1
    simp [absorbed] at hend ⊢
    exact hend
  | y :: ys, pv, x, b, h, hb => by
    obtain ⟨b1, hb1, _, _, _, _, hend, hrest⟩ := h
    rw [hb] at hb1
    injection hb1 with hb1
    subst hb1
    simp at hend
    have hrest0 := hrest
    obtain ⟨b2, hb2, _⟩ := hrest
    have ih := chain_absorbed ys x y b2 hrest0 hb2
    rw [absorbed_cons ys hb2]
    omega

/-- The merging branch of the forward executor when the last block visited has a
successor. -/
theorem forwardLink_ok {s : State} {first c z ca : Nat} {f cb zb : Block}
    (hf0 : first ≠ 0) (hf : s.hdr first = some f) (hc0 : c ≠ 0) (hc : s.hdr c = some cb)
    (hnx : cb.next_ = z) (hz0 : z ≠ 0) (hzf : z ≠ first) (hz : s.hdr z = some zb) :
    ∃ s1, forwardLink s first c ca = .ok s1 ∧
      s1.hdr first = some { f with next_ := z, size_ := ca, used_ := 1 } ∧
      s1.hdr z = some { zb with prev_ := first } ∧
      (∀ x, x ≠ first → x ≠ z → s1.hdr x = s.hdr x) ∧
      s1.bytes = s.bytes ∧ s1.brk = s.brk ∧ s1.brkMax = s.brkMax ∧
      s1.blocks_start = s.blocks_start := by
  unfold forwardLink
  rw [load_ok hc0 hc]
  simp only [hnx]
  rw [modify_ok _ hf0 hf]
  simp only
  rw [modify_ok _ hf0 (by simp : (put s first { f with next_ := z }).hdr first
    = some { f with next_ := z })]
  simp only
  rw [modify_ok _ hz0 (by simp [hzf, hz] :
    (put (put s first { f with next_ := z }) first { f with next_ := z, size_ := ca }).hdr z
      = some zb)]
  simp only
  rw [modify_ok _ hf0 (by simp [Ne.symm hzf] :
    (put (put (put s first { f with next_ := z }) first { f with next_ := z, size_ := ca }) z
      { zb with prev_ := first }).hdr first = some { f with next_ := z, size_ := ca })]
  refine ⟨_, rfl, by simp, by simp [hzf], ?_, rfl, rfl, rfl, rfl⟩
  intro x hx hxz
  simp [hx, hxz]

/-- The merging branch of the forward executor faults when the last block visited is the
last block of the list. -/
theorem forwardLink_null {s : State} {first c ca : Nat} {f cb : Block}
    (hf0 : first ≠ 0) (hf : s.hdr first = some f) (hc0 : c ≠ 0) (hc : s.hdr c = some cb)
    (hnx : cb.next_ = 0) : forwardLink s first c ca = .error .segv := by
  unfold forwardLink
  rw [load_ok hc0 hc]
  simp only [hnx]
  rw [modify_ok _ hf0 hf]
  simp only
  rw [modify_ok _ hf0 (by simp : (put s first { f with next_ := 0 }).hdr first
    = some { f with next_ := 0 })]
  simp only
  simp [modify, load]

theorem getLast?_cons_concat (x : Nat) (l : List Nat) (c : Nat) :
    (x :: (l ++ [c])).getLast? = some c := by
  induction l generalizing x with
  | nil => rfl
  | cons y ys ih =>
    rw [List.cons_append, List.getLast?_cons_cons]
    exact ih y

/-- From the start block: the planner has accepted, the executor merges at the end of
the shortest run of successors whose capacity suffices. -/
theorem forward_top_run {s : State} {brk n first : Nat} (hbrk : brk < WORD)
    {rest : List Nat} {pv fp : Nat} {f : Block}
    (hch : chain s.hdr brk pv (first :: rest)) (hf : s.hdr first = some f)
    (hfree : f.used_ = 0) (hp : checkForwardMerge fp s first n 0 = .ok 1) :
    ∃ run tl c, rest = run ++ tl ∧ (first :: run).getLast? = some c ∧
      n ≤ f.size_ + absorbed s.hdr run ∧
      (∀ j, j < run.length → f.size_ + absorbed s.hdr (run.take j) < n) ∧
      (∀ fe, run.length + 1 ≤ fe → forwardBlockMerge fe s first first n 0
          = forwardLink s first c (f.size_ + absorbed s.hdr run)) := by
  obtain ⟨b, hb, h0, hmag, _, hnext, hend, hrest⟩ := hch
  rw [hf] at hb
  injection hb with hb
  subst hb
  cases fp with
  | zero => simp [checkForwardMerge] at hp
  | succ fp =>
    rw [checkForwardMerge_step fp n _ h0 hf hmag] at hp
    by_cases h2 : n ≤ f.size_
    · refine ⟨[], rest, first, rfl, rfl, by simp [absorbed]; exact h2, ?_, ?_⟩
      · intro j hj
        simp at hj
      · intro fe hfe
        obtain ⟨fe, rfl⟩ : ∃ k, fe = k + 1 := ⟨fe - 1, by simp at hfe; omega⟩
        rw [forwardBlockMerge_step fe first n 0 h0 hf hmag]
        simp only [if_true]
        rw [if_pos h2]
        simp [absorbed]
    · have h1 : ¬ n ≤ 0 := by omega
      rw [if_neg h1] at hp
      simp only [hfree, ne_eq, not_true_eq_false, if_false] at hp
      cases rest with
      | nil =>
        simp at hnext
        rw [hnext] at hp
        exact absurd hp (checkForwardMerge_null _ _ _ _)
      | cons y ys =>
        simp at hnext hend
        rw [hnext] at hp
        obtain ⟨by1, hby, hyle⟩ := chain_le_brk _ _ hrest y (List.mem_cons_self _ _)
        have hpa : (0 + getMetaSize + f.size_) % WORD = f.size_ + getMetaSize := by
          rw [Nat.mod_eq_of_lt]
          · omega
          · simp [getMetaSize] at *
            omega
        rw [hpa] at hp
        have hy1 : y ≠ first := by simp [getMetaSize] at hend; omega
        have hy2 : f.size_ + getMetaSize + first = y := by omega
        obtain ⟨run, c, tl, heq, hsuf, hshort, hexec⟩ :=
          @forward_run s brk n first hbrk ys first y f.size_ fp hrest hy1 hy2 (by omega) hp
        refine ⟨run ++ [c], tl, c, by rw [heq]; simp, getLast?_cons_concat _ _ _, hsuf, ?_, ?_⟩
        · intro j hj
          exact hshort j (by simp at hj; omega)
        · intro fe hfe
          obtain ⟨fe, rfl⟩ : ∃ k, fe = k + 1 := ⟨fe - 1, by simp at hfe; omega⟩
          rw [forwardBlockMerge_step fe first n 0 h0 hf hmag]
          simp only [if_true]
          rw [if_neg h2, if_pos ⟨by omega, hfree⟩, hnext]
          exact hexec fe (by simp at hfe; omega)

/-- The list after a forward merge: the run between `first` and `z` has left the chain. -/
theorem chain_splice {m m1 : Nat → Option Block} {brk first z cap : Nat} {f zb : Block}
    {zs run : List Nat} (hf : m first = some f) (hz : m z = some zb)
    (hf1 : m1 first = some { f with next_ := z, size_ := cap, used_ := 1 })
    (hz1 : m1 z = some { zb with prev_ := first })
    (hframe : ∀ x, x ≠ first → x ≠ z → m1 x = m x)
    (hcap : first + getMetaSize + cap = z) :
    ∀ (l1 : List Nat) (pv : Nat), chain m brk pv (l1 ++ first :: (run ++ z :: zs)) →
      chain m1 brk pv (l1 ++ first :: z :: zs)
  | [], pv, h => by
    have hzch := chain_append_right (first :: run) (z :: zs) pv h
    have hfz : first < z := chain_append_lt (first :: run) zs pv z h first
      (List.mem_cons_self _ _)
    obtain ⟨b, hb, h0, hmag, hprev, _, _, _⟩ := h
    rw [hf] at hb
    injection hb with hb
    subst hb
    have hzch0 := hzch
    obtain ⟨zb1, hzb, hz0, hzmag, _, hznext, hzend, hzrest⟩ := hzch
    rw [hz] at hzb
    injection hzb with hzb
    subst hzb
    refine ⟨_, hf1, h0, hmag, hprev, rfl, hcap, ⟨_, hz1, hz0, hzmag, rfl, hznext, hzend, ?_⟩⟩
    refine chain_frame zs z ?_ hzrest
    intro y hy
    obtain ⟨_, _, hle⟩ := chain_head_lt zs _ z hzch0 y hy
    apply hframe <;> simp [getMetaSize] at hle <;> omega
  | y :: ys, pv, h => by
    have hyf : y < first := chain_append_lt (y :: ys) (run ++ z :: zs) pv first h y
      (List.mem_cons_self _ _)
    have hfz : first < z := by
      have h2 : chain m brk pv ((y :: ys ++ first :: run) ++ z :: zs) := by simpa using h
      exact chain_append_lt (y :: ys ++ first :: run) zs pv z h2 first (by simp)
    obtain ⟨b, hb, h0, hmag, hprev, hnext, hend, hrest⟩ := h
    have ih := chain_splice hf hz hf1 hz1 hframe hcap ys y hrest
    have hb1 : m1 y = some b := by
      rw [hframe y (by omega) (by omega)]
      exact hb
    refine ⟨b, hb1, h0, hmag, hprev, ?_, ?_, ih⟩
    · cases ys <;> simpa using hnext
    · cases ys <;> simpa using hend

/-- The last block of a chain has no successor. -/
theorem chain_last_null {m : Nat → Option Block} {brk : Nat} :
    ∀ (l : List Nat) (pv x : Nat), chain m brk pv l → l.getLast? = some x →
      ∃ b, m x = some b ∧ x ≠ 0 ∧ b.next_ = 0
  | [], _, _, _, hx => by simp at hx
  | [y], pv, x, h, hx => by
    simp at hx
    subst hx
    obtain ⟨b, hb, h0, _, _, hnext, _, _⟩ := h
    exact ⟨b, hb, h0, by simpa using hnext⟩
  | y :: w :: ws, pv, x, h, hx => by
    obtain ⟨_, _, _, _, _, _, _, hrest⟩ := h
    rw [List.getLast?_cons_cons] at hx
    exact chain_last_null (w :: ws) y x hrest hx

/-! ## The backward merge: the run that is absorbed -/

/-- From a predecessor of `first` on: the planner has accepted with `A + 40` bytes
counted, the executor has `A` bytes; the blocks `R :: run` up to `cur` are free, and the
executor merges at `R`, the first block on the way back where the capacity suffices. -/
theorem backward_run {s : State} {brk n first E : Nat} (hE : E < WORD) :
    ∀ (l0 : List Nat) (cur : Nat) (post : List Nat) (A fp : Nat),
      chain s.hdr brk 0 (l0 ++ cur :: post) → first ∈ post →
      (∀ b, s.hdr cur = some b → A + getMetaSize + cur + getMetaSize + b.size_ = E) →
      A < n → checkBackwardMerge fp s cur n (A + getMetaSize) = .ok 1 →
      ∃ pre run R, l0 ++ [cur] = pre ++ R :: run ∧
        (∀ x ∈ R :: run, ∃ b, s.hdr x = some b ∧ b.used_ = 0) ∧
        n ≤ A + absorbed s.hdr (R :: run) ∧
        (∀ j, 0 < j → j ≤ run.length + 1 → A + absorbed s.hdr ((R :: run).drop j) < n) ∧
        (∀ fe, run.length + 1 ≤ fe → backwardBlockMerge fe s first cur n A =
          match backwardLink s first R (A + absorbed s.hdr (R :: run)) with
          | .error e => .error e
          | .ok s1 => .ok (R, s1)) := by
  intro l0
  induction l0 using List.reverseRecOn with
  | nil =>
    intro cur post A fp hch hfirst hinv hlt hp
    have hne : cur ≠ first := by
      have := chain_not_mem hch
      intro hc; subst hc; exact this hfirst
    obtain ⟨b, hb, h0, hmag, hprev, _, _, _⟩ := hch
    have hEq := hinv b hb
    cases fp with
    | zero => simp [checkBackwardMerge] at hp
    | succ fp =>
      rw [checkBackwardMerge_step fp n _ h0 hb hmag] at hp
      have hca : (A + b.size_ + getMetaSize) % WORD = A + b.size_ + getMetaSize := by
        apply Nat.mod_eq_of_lt; omega
      have hpa : (A + getMetaSize + b.size_) % WORD = A + b.size_ + getMetaSize := by
        rw [Nat.mod_eq_of_lt] <;> omega
      rw [hpa] at hp
      have habs : A + absorbed s.hdr [cur] = A + b.size_ + getMetaSize := by
        rw [absorbed_cons [] hb]
        simp [absorbed]
        omega
      by_cases h2 : n ≤ A + b.size_ + getMetaSize ∧ b.used_ = 0
      · refine ⟨[], [], cur, rfl, ?_, by omega, ?_, ?_⟩
        · intro x hx
          simp at hx
          subst hx
          exact ⟨b, hb, h2.2⟩
        · intro j hj1 hj2
          have : j = 1 := by simp at hj2; omega
          subst this
          simp [absorbed]
          exact hlt
        · intro fe hfe
          obtain ⟨fe, rfl⟩ : ∃ k, fe = k + 1 := ⟨fe - 1, by simp at hfe; omega⟩
          rw [backwardBlockMerge_step fe first n A h0 hb hmag]
          simp only [hne, if_false, hca]
          rw [if_pos h2.1, habs]
      · rw [if_neg h2] at hp
        simp [hprev] at hp
  | append_singleton l0 p ih =>
    intro cur post A fp hch hfirst hinv hlt hp
    have hsuf := chain_append_right (l0 ++ [p]) (cur :: post) 0 hch
    have hne : cur ≠ first := by
      have := chain_not_mem hsuf
      intro hc; subst hc; exact this hfirst
    obtain ⟨b, hb, h0, hmag, hprev, _, _, _⟩ := hsuf
    simp at hprev
    have hEq := hinv b hb
    have hch2 : chain s.hdr brk 0 (l0 ++ p :: cur :: post) := by simpa using hch
    have hpsuf := chain_append_right l0 (p :: cur :: post) 0 hch2
    obtain ⟨bp, hbp, hp0, _, _, _, hpend, _⟩ := hpsuf
    simp at hpend
    cases fp with
    | zero => simp [checkBackwardMerge] at hp
    | succ fp =>
      rw [checkBackwardMerge_step fp n _ h0 hb hmag] at hp
      have hca : (A + b.size_ + getMetaSize) % WORD = A + b.size_ + getMetaSize := by
        apply Nat.mod_eq_of_lt; omega
      have hpa : (A + getMetaSize + b.size_) % WORD = A + b.size_ + getMetaSize := by
        rw [Nat.mod_eq_of_lt] <;> omega
      have hpb : (A + getMetaSize + getMetaSize + b.size_) % WORD
          = A + b.size_ + getMetaSize + getMetaSize := by
        rw [Nat.mod_eq_of_lt] <;> omega
      rw [hpa, hpb] at hp
      have habs : A + absorbed s.hdr [cur] = A + b.size_ + getMetaSize := by
        rw [absorbed_cons [] hb]
        simp [absorbed]
        omega
      by_cases h2 : n ≤ A + b.size_ + getMetaSize ∧ b.used_ = 0
      · refine ⟨l0 ++ [p], [], cur, rfl, ?_, by omega, ?_, ?_⟩
        · intro x hx
          simp at hx
          subst hx
          exact ⟨b, hb, h2.2⟩
        · intro j hj1 hj2
          have : j = 1 := by simp at hj2; omega
          subst this
          simp [absorbed]
          exact hlt
        · intro fe hfe
          obtain ⟨fe, rfl⟩ : ∃ k, fe = k + 1 := ⟨fe - 1, by simp at hfe; omega⟩
          rw [backwardBlockMerge_step fe first n A h0 hb hmag]
          simp only [hne, if_false, hca]
          rw [if_pos h2.1, habs]
      · rw [if_neg h2] at hp
        by_cases h3 : b.used_ = 0 ∧ b.prev_ ≠ 0
        · rw [if_pos h3, hprev] at hp
          have hn2 : ¬ n ≤ A + b.size_ + getMetaSize := fun hc => h2 ⟨hc, h3.1⟩
          obtain ⟨pre, run, R, heq, hfree, hsuf2, hshort, hexec⟩ :=
            ih p (cur :: post) (A + b.size_ + getMetaSize) fp hch2
              (List.mem_cons_of_mem _ hfirst)
              (by
                intro b2 hb2
                rw [hbp] at hb2
                injection hb2 with hb2
                subst hb2
                omega)
              (by omega) hp
          have habs2 : ∀ zs : List Nat, A + absorbed s.hdr (zs ++ [cur])
              = A + b.size_ + getMetaSize + absorbed s.hdr zs := by
            intro zs
            rw [absorbed_append, absorbed_cons [] hb]
            simp [absorbed]
            omega
          refine ⟨pre, run ++ [cur], R, by rw [heq]; simp, ?_, ?_, ?_, ?_⟩
          · intro x hx
            rw [← List.cons_append] at hx
            rcases List.mem_append.1 hx with hx | hx
            · exact hfree x hx
            · simp at hx
              subst hx
              exact ⟨b, hb, h3.1⟩
          · rw [← List.cons_append, habs2]
            exact hsuf2
          · intro j hj1 hj2
            rw [← List.cons_append]
            by_cases hj : j ≤ (R :: run).length
            · rw [List.drop_append_of_le_length hj, habs2]
              exact hshort j hj1 (by simpa using hj)
            · have : ((R :: run) ++ [cur]).drop j = [] := by
                apply List.drop_eq_nil_of_le
                simp at hj hj2 ⊢
                omega
              rw [this]
              simp [absorbed]
              exact hlt
          · intro fe hfe
            obtain ⟨fe, rfl⟩ : ∃ k, fe = k + 1 := ⟨fe - 1, by simp at hfe; omega⟩
            rw [backwardBlockMerge_step fe first n A h0 hb hmag]
            simp only [hne, if_false, hca]
            rw [if_neg hn2, hprev, ← List.cons_append, habs2]
            exact hexec fe (by simp at hfe; omega)
        · rw [if_neg h3] at hp
          simp at hp

/-- A run of free blocks ending at `cur` whose capacity suffices makes the backward
planner accept. -/
theorem backward_plan_of_run {s : State} {brk n E : Nat} (hE : E < WORD) :
    ∀ (l0 : List Nat) (cur : Nat) (post : List Nat) (A fp : Nat) (pre run : List Nat),
      chain s.hdr brk 0 (l0 ++ cur :: post) →
      (∀ b, s.hdr cur = some b → A + getMetaSize + cur + getMetaSize + b.size_ = E) →
      l0 ++ [cur] = pre ++ run → run ≠ [] →
      (∀ x ∈ run, ∃ b, s.hdr x = some b ∧ b.used_ = 0) →
      n ≤ A + absorbed s.hdr run → run.length ≤ fp →
      checkBackwardMerge fp s cur n (A + getMetaSize) = .ok 1 := by
  intro l0
  induction l0 using List.reverseRecOn with
  | nil =>
    intro cur post A fp pre run hch hinv heq hrun hfree hcap hfuel
    obtain ⟨b, hb, h0, hmag, hprev, _, _, _⟩ := hch
    have hEq := hinv b hb
    rcases List.eq_nil_or_concat run with hnil | ⟨run1, x, hr⟩
    · exact absurd hnil hrun
    · rw [List.concat_eq_append] at hr
      subst hr
      have h1 : [] ++ [cur] = (pre ++ run1) ++ [x] := by simpa using heq
      obtain ⟨h2, h3⟩ := List.append_inj' h1 rfl
      simp at h3
      subst h3
      have h4 : pre = [] ∧ run1 = [] := by
        simpa using h2.symm
      obtain ⟨_, h5⟩ := h4
      subst h5
      obtain ⟨fp, rfl⟩ : ∃ k, fp = k + 1 := ⟨fp - 1, by simp at hfuel; omega⟩
      rw [checkBackwardMerge_step fp n _ h0 hb hmag]
      have hpa : (A + getMetaSize + b.size_) % WORD = A + b.size_ + getMetaSize := by
        rw [Nat.mod_eq_of_lt] <;> omega
      obtain ⟨b1, hb1, hu⟩ := hfree cur (by simp)
      rw [hb] at hb1
      injection hb1 with hb1
      subst hb1
      have habs : A + absorbed s.hdr ([] ++ [cur]) = A + b.size_ + getMetaSize := by
        simp [absorbed, hb]
        omega
      rw [hpa, if_pos ⟨by omega, hu⟩]
  | append_singleton l0 p ih =>
    intro cur post A fp pre run hch hinv heq hrun hfree hcap hfuel
    have hsuf := chain_append_right (l0 ++ [p]) (cur :: post) 0 hch
    obtain ⟨b, hb, h0, hmag, hprev, _, _, _⟩ := hsuf
    simp at hprev
    have hEq := hinv b hb
    have hch2 : chain s.hdr brk 0 (l0 ++ p :: cur :: post) := by simpa using hch
    have hpsuf := chain_append_right l0 (p :: cur :: post) 0 hch2
    obtain ⟨bp, hbp, hp0, _, _, _, hpend, _⟩ := hpsuf
    simp at hpend
    rcases List.eq_nil_or_concat run with hnil | ⟨run1, x, hr⟩
    · exact absurd hnil hrun
    · rw [List.concat_eq_append] at hr
      subst hr
      have h1 : (l0 ++ [p]) ++ [cur] = (pre ++ run1) ++ [x] := by simpa using heq
      obtain ⟨h2, h3⟩ := List.append_inj' h1 rfl
      simp at h3
      subst h3
      obtain ⟨fp, rfl⟩ : ∃ k, fp = k + 1 := ⟨fp - 1, by simp at hfuel; omega⟩
      rw [checkBackwardMerge_step fp n _ h0 hb hmag]
      have hpa : (A + getMetaSize + b.size_) % WORD = A + b.size_ + getMetaSize := by
        rw [Nat.mod_eq_of_lt] <;> omega
      have hpb : (A + getMetaSize + getMetaSize + b.size_) % WORD
          = A + b.size_ + getMetaSize + getMetaSize := by
        rw [Nat.mod_eq_of_lt] <;> omega
      obtain ⟨b1, hb1, hu⟩ := hfree cur (by simp)
      rw [hb] at hb1
      injection hb1 with hb1
      subst hb1
      have habs : A + absorbed s.hdr (run1 ++ [cur])
          = A + b.size_ + getMetaSize + absorbed s.hdr run1 := by
        rw [absorbed_append, absorbed_cons [] hb]
        simp [absorbed]
        omega
      rw [hpa, hpb]
      by_cases hdone : n ≤ A + b.size_ + getMetaSize
      · rw [if_pos ⟨hdone, hu⟩]
      · rw [if_neg (fun hc => hdone hc.1), if_pos ⟨hu, by rw [hprev]; exact hp0⟩, hprev]
        have hrun1 : run1 ≠ [] := by
          intro hc
          subst hc
          have hz : absorbed s.hdr [] = 0 := rfl
          omega
        refine ih p (cur :: post) (A + b.size_ + getMetaSize) fp pre run1 hch2 ?_ h2 hrun1
          (fun y hy => hfree y (by simp [hy])) (by omega) (by simp at hfuel; omega)
        intro b2 hb2
        rw [hbp] at hb2
        injection hb2 with hb2
        subst hb2
        omega

/-- From the start block: the backward planner has accepted, the blocks `run` in front of
`first` that the executor absorbs are free, they form the shortest run whose capacity
suffices, and the executor merges at the first block of `run ++ [first]`. -/
theorem backward_top_run {s : State} {brk n first : Nat} (hbrk : brk < WORD)
    {l1 rest : List Nat} {fp : Nat} {f : Block}
    (hch : chain s.hdr brk 0 (l1 ++ first :: rest)) (hf : s.hdr first = some f)
    (hp : checkBackwardMerge fp s first n 0 = .ok 1) :
    f.used_ = 0 ∧ ∃ pre run R, l1 = pre ++ run ∧ (run ++ [first]).head? = some R ∧
      (∀ x ∈ run, ∃ b, s.hdr x = some b ∧ b.used_ = 0) ∧
      n ≤ f.size_ + absorbed s.hdr run ∧
      (∀ j, 0 < j → j ≤ run.length → f.size_ + absorbed s.hdr (run.drop j) < n) ∧
      (∀ fe, run.length + 1 ≤ fe → backwardBlockMerge fe s first first n 0 =
        match backwardLink s first R (f.size_ + absorbed s.hdr run) with
        | .error e => .error e
        | .ok s1 => .ok (R, s1)) := by
  have hsuf := chain_append_right l1 (first :: rest) 0 hch
  obtain ⟨b, hb, h0, hmag, hprev, _, _, _⟩ := hsuf
  have hle : first + getMetaSize + b.size_ ≤ brk := by
    obtain ⟨b2, hb2, hle⟩ := chain_le_brk _ _ hch first (by simp)
    rw [hb] at hb2
    injection hb2 with hb2
    subst hb2
    exact hle
  rw [hf] at hb
  injection hb with hb
  subst hb
  cases fp with
  | zero => simp [checkBackwardMerge] at hp
  | succ fp =>
    rw [checkBackwardMerge_step fp n _ h0 hf hmag] at hp
    have hpa : (0 + f.size_) % WORD = f.size_ := by
      rw [Nat.mod_eq_of_lt] <;> omega
    have hpb : (0 + getMetaSize + f.size_) % WORD = f.size_ + getMetaSize := by
      rw [Nat.mod_eq_of_lt] <;> omega
    rw [hpa, hpb] at hp
    by_cases h2 : n ≤ f.size_ ∧ f.used_ = 0
    · refine ⟨h2.2, l1, [], first, by simp, rfl, by simp, by simp [absorbed]; exact h2.1,
        ?_, ?_⟩
      · intro j hj1 hj2
        simp at hj2
        omega
      · intro fe hfe
        obtain ⟨fe, rfl⟩ : ∃ k, fe = k + 1 := ⟨fe - 1, by simp at hfe; omega⟩
        rw [backwardBlockMerge_step fe first n 0 h0 hf hmag]
        simp only [if_true]
        rw [if_pos h2.1]
        simp [absorbed]
    · rw [if_neg h2] at hp
      by_cases h3 : f.used_ = 0 ∧ f.prev_ ≠ 0
      · rw [if_pos h3] at hp
        have hn2 : ¬ n ≤ f.size_ := fun hc => h2 ⟨hc, h3.1⟩
        rcases List.eq_nil_or_concat l1 with hnil | ⟨l0, p, hl1⟩
        · subst hnil
          simp at hprev
          exact absurd hprev h3.2
        · rw [List.concat_eq_append] at hl1
          subst hl1
          simp at hprev
          rw [hprev] at hp
          have hch2 : chain s.hdr brk 0 (l0 ++ p :: first :: rest) := by simpa using hch
          have hpsuf := chain_append_right l0 (p :: first :: rest) 0 hch2
          obtain ⟨bp, hbp, hp0, _, _, _, hpend, _⟩ := hpsuf
          simp at hpend
          have hE : first + getMetaSize + f.size_ < WORD := by omega
          obtain ⟨pre, run, R, heq, hfree, hsuf2, hshort, hexec⟩ :=
            backward_run hE l0 p (first :: rest) f.size_ fp hch2 (List.mem_cons_self _ _)
              (by
                intro b2 hb2
                rw [hbp] at hb2
                injection hb2 with hb2
                subst hb2
                omega)
              (by omega) hp
          refine ⟨h3.1, pre, R :: run, R, heq, rfl, hfree, hsuf2, ?_, ?_⟩
          · intro j hj1 hj2
            exact hshort j hj1 (by simpa using hj2)
          · intro fe hfe
            obtain ⟨fe, rfl⟩ : ∃ k, fe = k + 1 := ⟨fe - 1, by simp at hfe; omega⟩
            rw [backwardBlockMerge_step fe first n 0 h0 hf hmag]
            simp only [if_true]
            rw [if_neg hn2, hprev]
            exact hexec fe (by simp at hfe; omega)
      · rw [if_neg h3] at hp
        simp at hp

/-- A run of free blocks ending at the free block `first` whose capacity suffices makes
the backward planner accept. -/
theorem backward_top_plan {s : State} {brk n first : Nat} (hbrk : brk < WORD)
    {l1 rest pre run : List Nat} {fp : Nat} {f : Block}
    (hch : chain s.hdr brk 0 (l1 ++ first :: rest)) (hf : s.hdr first = some f)
    (hfree : f.used_ = 0) (hl1 : l1 = pre ++ run)
    (hrun : ∀ x ∈ run, ∃ b, s.hdr x = some b ∧ b.used_ = 0)
    (hcap : n ≤ f.size_ + absorbed s.hdr run) (hfuel : run.length + 1 ≤ fp) :
    checkBackwardMerge fp s first n 0 = .ok 1 := by
  have hsuf := chain_append_right l1 (first :: rest) 0 hch
  obtain ⟨b, hb, h0, hmag, hprev, _, _, _⟩ := hsuf
  have hle : first + getMetaSize + b.size_ ≤ brk := by
    obtain ⟨b2, hb2, hle⟩ := chain_le_brk _ _ hch first (by simp)
    rw [hb] at hb2
    injection hb2 with hb2
    subst hb2
    exact hle
  rw [hf] at hb
  injection hb with hb
  subst hb
  obtain ⟨fp, rfl⟩ : ∃ k, fp = k + 1 := ⟨fp - 1, by omega⟩
  rw [checkBackwardMerge_step fp n _ h0 hf hmag]
  have hpa : (0 + f.size_) % WORD = f.size_ := by
    rw [Nat.mod_eq_of_lt] <;> omega
  have hpb : (0 + getMetaSize + f.size_) % WORD = f.size_ + getMetaSize := by
    rw [Nat.mod_eq_of_lt] <;> omega
  rw [hpa, hpb]
  by_cases hdone : n ≤ f.size_
  · rw [if_pos ⟨hdone, hfree⟩]
  · rw [if_neg (fun hc => hdone hc.1)]
    rcases List.eq_nil_or_concat run with hnil | ⟨run1, p, hr⟩
    · subst hnil
      simp [absorbed] at hcap
      omega
    · rw [List.concat_eq_append] at hr
      subst hr
      have hl2 : l1 = (pre ++ run1) ++ [p] := by simpa using hl1
      subst hl2
      simp at hprev
      have hch2 : chain s.hdr brk 0 ((pre ++ run1) ++ p :: first :: rest) := by
        simpa using hch
      have hpsuf := chain_append_right (pre ++ run1) (p :: first :: rest) 0 hch2
      obtain ⟨bp, hbp, hp0, _, _, _, hpend, _⟩ := hpsuf
      simp at hpend
      rw [if_pos ⟨hfree, by rw [hprev]; exact hp0⟩, hprev]
      have hE : first + getMetaSize + f.size_ < WORD := by omega
      refine backward_plan_of_run hE (pre ++ run1) p (first :: rest) f.size_ fp pre
        (run1 ++ [p]) hch2 ?_ (by simp) (by simp) hrun hcap (by simp at hfuel ⊢; omega)
      intro b2 hb2
      rw [hbp] at hb2
      injection hb2 with hb2
      subst hb2
      omega

theorem put_hdr_self (s : State) (a : Nat) (b : Block) : (put s a b).hdr a = some b := by
  simp

/-- The merging branch of the backward executor returns when the headers it stores into
exist. -/
theorem backwardLink_ok {s : State} {first R ca : Nat} {f rb : Block}
    (hf0 : first ≠ 0) (hf : s.hdr first = some f) (hR0 : R ≠ 0) (hR : s.hdr R = some rb)
    (hz : f.next_ = 0 ∨ ∃ zb, s.hdr f.next_ = some zb) :
    ∃ s1, backwardLink s first R ca = .ok s1 := by
  unfold backwardLink
  rw [load_ok hf0 hf]
  simp only
  by_cases hn : f.next_ = 0
  · simp only [hn, ne_eq, not_true_eq_false, if_false]
    rw [modify_ok _ hR0 hR]
    simp only
    rw [modify_ok _ hR0 (put_hdr_self _ _ _)]
    simp only
    rw [modify_ok _ hR0 (put_hdr_self _ _ _)]
    exact ⟨_, rfl⟩
  · rcases hz with hz | ⟨zb, hzb⟩
    · exact absurd hz hn
    · simp only [ne_eq, hn, not_false_eq_true, if_true]
      rw [modify_ok _ hn hzb]
      simp only
      have hex : ∃ rb1, (put s f.next_ { zb with prev_ := R }).hdr R = some rb1 := by
        by_cases h : R = f.next_
        · exact ⟨_, by rw [h]; exact put_hdr_self _ _ _⟩
        · exact ⟨rb, by simp [h, hR]⟩
      obtain ⟨rb1, hrb1⟩ := hex
      rw [modify_ok _ hR0 hrb1]
      simp only
      rw [modify_ok _ hR0 (put_hdr_self _ _ _)]
      simp only
      rw [modify_ok _ hR0 (put_hdr_self _ _ _)]
      exact ⟨_, rfl⟩

/-- The list after a merge: the blocks `mid` between `R` and `rest` have left the chain,
`R` has taken over their footprints. -/
theorem chain_splice_gen {m m1 : Nat → Option Block} {brk R cap : Nat} {rb : Block}
    {mid rest : List Nat} (hR : m R = some rb)
    (hR1 : m1 R = some { rb with next_ := rest.headD 0, size_ := cap, used_ := 1 })
    (hz1 : ∀ z zb, rest.head? = some z → m z = some zb → m1 z = some { zb with prev_ := R })
    (hframe : ∀ x, x ≠ R → rest.head? ≠ some x → m1 x = m x)
    (hcap : R + getMetaSize + cap = rest.headD brk) :
    ∀ (pre : List Nat) (pv : Nat), chain m brk pv (pre ++ R :: (mid ++ rest)) →
      chain m1 brk pv (pre ++ R :: rest)
  | [], pv, h => by
    have h2 : chain m brk pv ((R :: mid) ++ rest) := by simpa using h
    have hzch := chain_append_right (R :: mid) rest pv h2
    obtain ⟨b, hb, h0, hmag, hprev, _, _, _⟩ := h
    rw [hR] at hb
    injection hb with hb
    subst hb
    cases rest with
    | nil => exact ⟨_, hR1, h0, hmag, hprev, rfl, hcap, trivial⟩
    | cons z zs =>
      have hRz : R < z := chain_append_lt (R :: mid) zs pv z h2 R (List.mem_cons_self _ _)
      have hzch0 := hzch
      obtain ⟨zb, hzb, hz0, hzmag, _, hznext, hzend, hzrest⟩ := hzch
      refine ⟨_, hR1, h0, hmag, hprev, rfl, hcap,
        ⟨_, hz1 z zb rfl hzb, hz0, hzmag, rfl, hznext, hzend, ?_⟩⟩
      refine chain_frame zs z ?_ hzrest
      intro y hy
      obtain ⟨_, _, hle⟩ := chain_head_lt zs _ z hzch0 y hy
      simp [getMetaSize] at hle
      apply hframe
      · omega
      · simp
        omega
  | y :: ys, pv, h => by
    have hyR : y < R := chain_append_lt (y :: ys) (mid ++ rest) pv R h y
      (List.mem_cons_self _ _)
    have hyz : rest.head? ≠ some y := by
      cases rest with
      | nil => simp
      | cons z zs =>
        have h2 : chain m brk pv ((y :: ys ++ R :: mid) ++ z :: zs) := by simpa using h
        have := chain_append_lt (y :: ys ++ R :: mid) zs pv z h2 y (by simp)
        simp
        omega
    obtain ⟨b, hb, h0, hmag, hprev, hnext, hend, hrest⟩ := h
    have ih := chain_splice_gen hR hR1 hz1 hframe hcap ys y hrest
    have hb1 : m1 y = some b := by
      rw [hframe y (by omega) hyz]
      exact hb
    refine ⟨b, hb1, h0, hmag, hprev, ?_, ?_, ih⟩
    · cases ys <;> simpa using hnext
    · cases ys <;> simpa using hend

/-! ## The `used_` flags of the blocks a call does not return -/

theorem modify_used_same {s s1 : State} {x : Nat} {g : Block → Block}
    (h : modify s x g = .ok s1) (hg : ∀ b, (g b).used_ = b.used_) :
    ∀ a, (s1.hdr a).map Block.used_ = (s.hdr a).map Block.used_ := by
  obtain ⟨b, _, hb, rfl⟩ := modify_ok_iff.1 h
  intro a
  by_cases ha : a = x
  · subst ha
    simp [hb, hg]
  · simp [ha]

theorem modify_other {s s1 : State} {x : Nat} {g : Block → Block}
    (h : modify s x g = .ok s1) : ∀ a, a ≠ x → s1.hdr a = s.hdr a := by
  obtain ⟨b, _, hb, rfl⟩ := modify_ok_iff.1 h
  intro a ha
  simp [ha]

/-- The merging branch of the forward executor changes the `used_` flag of `first` only. -/
theorem forwardLink_used {s s1 : State} {first c ca : Nat}
    (h : forwardLink s first c ca = .ok s1) :
    ∀ a, a ≠ first → (s1.hdr a).map Block.used_ = (s.hdr a).map Block.used_ := by
  unfold forwardLink at h
  cases hl : load s c with
  | error e => rw [hl] at h; cases h
  | ok cb =>
    rw [hl] at h
    simp only at h
    cases h1 : modify s first (fun b => { b with next_ := cb.next_ }) with
    | error e => rw [h1] at h; cases h
    | ok s2 =>
      rw [h1] at h
      simp only at h
      cases h2 : modify s2 first (fun b => { b with size_ := ca }) with
      | error e => rw [h2] at h; cases h
      | ok s3 =>
        rw [h2] at h
        simp only at h
        cases h3 : modify s3 cb.next_ (fun b => { b with prev_ := first }) with
        | error e => rw [h3] at h; cases h
        | ok s4 =>
          rw [h3] at h
          simp only at h
          intro a ha
          rw [modify_other h a ha, modify_used_same h3 (fun _ => rfl) a,
            modify_used_same h2 (fun _ => rfl) a, modify_used_same h1 (fun _ => rfl) a]

theorem forwardBlockMerge_used :
    ∀ (fuel : Nat) (s : State) (first cur n A : Nat) (s1 : State),
      forwardBlockMerge fuel s first cur n A = .ok s1 →
      ∀ a, a ≠ first → (s1.hdr a).map Block.used_ = (s.hdr a).map Block.used_
  | 0, _, _, _, _, _, _, h => by simp [forwardBlockMerge] at h
  | fuel + 1, s, first, cur, n, A, s1, h => by
    cases hl : load s cur with
    | error e =>
      rw [forwardBlockMerge, hl] at h
      cases h
    | ok cb =>
      obtain ⟨h0, hb⟩ := load_ok_iff.1 hl
      by_cases hmag : cb.magic_ = MAGIC_NUMBER
      · rw [forwardBlockMerge_step fuel first n A h0 hb hmag] at h
        generalize (if cur = first then cb.size_ else (A + cb.size_ + getMetaSize) % WORD)
          = ca at h
        split at h
        · exact forwardLink_used h
        · split at h
          · exact forwardBlockMerge_used fuel s first _ n _ s1 h
          · injection h with h
            subst h
            intro a _
            rfl
      · rw [forwardBlockMerge, hl] at h
        simp [hmag] at h

/-- `findFreeBlock` changes no `used_` flag except that of the block it hands back. -/
theorem findFreeBlock_used :
    ∀ (fuel : Nat) (s : State) (cur n r : Nat) (s1 : State),
      findFreeBlock fuel s cur n = .ok (r, s1) →
      (r = 0 → s1 = s) ∧
        ∀ a, a ≠ r → (s1.hdr a).map Block.used_ = (s.hdr a).map Block.used_
  | 0, _, _, _, _, _, h => by simp [findFreeBlock] at h
  | fuel + 1, s, cur, n, r, s1, h => by
    rw [findFreeBlock] at h
    by_cases hc : cur = 0
    · rw [if_pos hc] at h
      injection h with h
      injection h with h1 h2
      subst h2
      exact ⟨fun _ => rfl, fun a _ => rfl⟩
    · rw [if_neg hc] at h
      cases hl : load s cur with
      | error e => rw [hl] at h; cases h
      | ok b =>
        rw [hl] at h
        simp only at h
        by_cases hmag : b.magic_ = MAGIC_NUMBER
        · simp only [hmag, ne_eq, not_true_eq_false, if_false] at h
          have hrec : (if ¬ b.next_ = 0 then findFreeBlock fuel s b.next_ n else .ok (0, s))
                = .ok (r, s1) →
              (r = 0 → s1 = s) ∧
                ∀ a, a ≠ r → (s1.hdr a).map Block.used_ = (s.hdr a).map Block.used_ := by
            intro h1
            by_cases hnz : b.next_ = 0
            · simp [hnz] at h1
              obtain ⟨_, h2⟩ := h1
              subst h2
              exact ⟨fun _ => rfl, fun a _ => rfl⟩
            · simp only [hnz, not_false_eq_true, if_true] at h1
              exact findFreeBlock_used fuel s _ n r s1 h1
          by_cases hdirect : b.used_ = 0 ∧ n ≤ b.size_
          · rw [if_pos hdirect] at h
            injection h with h
            injection h with h1 h2
            subst h2
            exact ⟨fun _ => rfl, fun a _ => rfl⟩
          · rw [if_neg hdirect] at h
            by_cases hu : b.used_ = 0
            · rw [if_pos hu] at h
              cases hp : checkForwardMerge (fuel + 1) s cur n 0 with
              | error e => rw [hp] at h; cases h
              | ok v =>
                rw [hp] at h
                simp only at h
                by_cases hv : v = 1
                · rw [if_pos hv] at h
                  cases he : forwardBlockMerge (fuel + 1) s cur cur n 0 with
                  | error e => rw [he] at h; cases h
                  | ok s2 =>
                    rw [he] at h
                    injection h with h
                    injection h with h1 h2
                    subst h1 h2
                    exact ⟨fun h0 => absurd h0 hc, forwardBlockMerge_used _ _ _ _ _ _ _ he⟩
                · rw [if_neg hv] at h
                  exact hrec h
            · rw [if_neg hu] at h
              exact hrec h
        · simp only [hmag, ne_eq, not_false_eq_true, if_true] at h
          cases h

theorem insertBlock_used :
    ∀ (fuel : Nat) (s : State) (new cur : Nat) (s1 : State),
      insertBlock fuel s new cur = .ok s1 →
      ∀ a, (s1.hdr a).map Block.used_ = (s.hdr a).map Block.used_
  | 0, _, _, _, _, h => by simp [insertBlock] at h
  | fuel + 1, s, new, cur, s1, h => by
    rw [insertBlock] at h
    cases hl : load s cur with
    | error e => rw [hl] at h; cases h
    | ok b =>
      rw [hl] at h
      simp only at h
      split at h
      · cases h
      · split at h
        · cases h1 : modify s cur (fun b => { b with next_ := new }) with
          | error e => rw [h1] at h; cases h
          | ok s2 =>
            rw [h1] at h
            simp only at h
            intro a
            rw [modify_used_same h (fun _ => rfl) a, modify_used_same h1 (fun _ => rfl) a]
        · exact insertBlock_used fuel s new _ s1 h

/-- `malloc` changes no `used_` flag except that of the block whose payload it returns. -/
theorem malloc_used {s s1 : State} {fuel n q : Nat} (h : malloc fuel s n = .ok (q, s1)) :
    ∀ a, payload a ≠ q → (s1.hdr a).map Block.used_ = (s.hdr a).map Block.used_ := by
  unfold malloc at h
  by_cases hn : n = 0
  · rw [if_pos hn] at h
    injection h with h
    injection h with h1 h2
    subst h2
    intro a _
    rfl
  · rw [if_neg hn] at h
    cases hf : findFreeBlock fuel s s.blocks_start n with
    | error e => rw [hf] at h; cases h
    | ok v =>
      obtain ⟨r, s2⟩ := v
      rw [hf] at h
      simp only at h
      obtain ⟨hsame, hfind⟩ := findFreeBlock_used _ _ _ _ _ _ hf
      by_cases hr : r = 0
      · simp only [hr, ne_eq, not_true_eq_false, if_false] at h
        have hhdr := sbrk_hdr s2 (toInt64 ((getMetaSize + n) % WORD))
        generalize sbrk s2 (toInt64 ((getMetaSize + n) % WORD)) = R at h hhdr
        have hs2 : ∀ a, (s2.hdr a).map Block.used_ = (s.hdr a).map Block.used_ := by
          intro a
          rw [hsame hr]
        split at h
        · injection h with h
          injection h with h1 h2
          subst h2
          intro a _
          rw [hhdr]
          exact hs2 a
        · split at h
          · cases h
          · split at h
            · injection h with h
              injection h with h1 h2
              subst h1 h2
              intro a ha
              have hne : a ≠ R.1 := fun hc => ha (by rw [hc])
              simp only [put_hdr, hne, if_false, hhdr]
              exact hs2 a
            · cases hi : insertBlock fuel (put R.2 R.1 (Block.mk MAGIC_NUMBER n 1 0 0)) R.1
                  (put R.2 R.1 (Block.mk MAGIC_NUMBER n 1 0 0)).blocks_start with
              | error e => rw [hi] at h; cases h
              | ok s4 =>
                rw [hi] at h
                injection h with h
                injection h with h1 h2
                subst h1 h2
                intro a ha
                have hne : a ≠ R.1 := fun hc => ha (by rw [hc])
                rw [insertBlock_used _ _ _ _ _ hi a]
                simp only [put_hdr, hne, if_false, hhdr]
                exact hs2 a
      · simp only [ne_eq, hr, not_false_eq_true, if_true] at h
        cases hm : modify s2 r (fun b => { b with used_ := 1 }) with
        | error e => rw [hm] at h; cases h
        | ok s3 =>
          rw [hm] at h
          injection h with h
          injection h with h1 h2
          subst h1 h2
          intro a ha
          have hne : a ≠ r := fun hc => ha (by rw [hc])
          rw [modify_other hm a hne]
          exact hfind a hne

/-! ## Resizing within the size of the block -/

theorem memcpy_self (m : Nat → Nat) (d : Nat) : ∀ k, memcpy m d d k = m
  | 0 => rfl
  | k + 1 => by
    funext x
    show (if x = d + k then memcpy m d d k (d + k) else memcpy m d d k x) = m x
    rw [memcpy_self m d k]
    split
    · rename_i h; rw [h]
    · rfl

theorem state_ext {s t : State} (h1 : s.hdr = t.hdr) (h2 : s.bytes = t.bytes)
    (h3 : s.blocks_start = t.blocks_start) (h4 : s.brk = t.brk) (h5 : s.brkMax = t.brkMax) :
    s = t := by
  cases s; cases t
  simp only at h1 h2 h3 h4 h5
  subst h1 h2 h3 h4 h5
  rfl

/-- A call that leaves every field as it was returns the state it started from. -/
theorem state_same {s s1 : State} (h1 : ∀ x, s1.hdr x = s.hdr x) (h2 : s1.bytes = s.bytes)
    (h3 : s1.blocks_start = s.blocks_start) (h4 : s1.brk = s.brk)
    (h5 : s1.brkMax = s.brkMax) : s1 = s :=
  state_ext (funext h1) h2 h3 h4 h5

/-- `realloc` with a size the block already has room for, stated on the header of the
block: whichever neighbour exists, the planner started at the block accepts at once and
the executor stores back the fields the block had. -/
theorem realloc_within_size {s : State} {a n fuel : Nat} {b : Block}
    (ha0 : a ≠ 0) (haW : a + getMetaSize + b.size_ < WORD) (hb : s.hdr a = some b)
    (hmag : b.magic_ = MAGIC_NUMBER) (hused : b.used_ = 1) (hn : 0 < n) (hle : n ≤ b.size_)
    (hnext : b.next_ ≠ 0 → b.next_ ≠ a ∧
      ∃ yb, s.hdr b.next_ = some yb ∧ yb.magic_ = MAGIC_NUMBER ∧ yb.prev_ = a)
    (hstart : b.prev_ = 0 → b.next_ = 0 → s.blocks_start = a) (hfuel : 2 ≤ fuel) :
    realloc fuel s (a + getMetaSize) n = .ok (a + getMetaSize, s) := by
  obtain ⟨f, rfl⟩ : ∃ f, fuel = f + 2 := ⟨fuel - 2, by omega⟩
  have hq0 : a + getMetaSize ≠ 0 := by simp [getMetaSize]
  have hpay : payload a = a + getMetaSize := payload_eq (by omega)
  have hs : (put s a { b with used_ := 0 }).hdr a = some { b with used_ := 0 } :=
    put_hdr_self _ _ _
  unfold realloc
  rw [if_neg hq0, header_add, load_ok ha0 hb]
  simp only [hmag, ne_eq, not_true_eq_false, if_false]
  rw [modify_ok _ ha0 hb]
  simp only
  by_cases hnx : b.next_ = 0
  · rw [if_neg (not_not.2 hnx)]
    simp only [ne_eq, not_true_eq_false, if_false]
    by_cases hpv : b.prev_ = 0
    · -- no neighbour: the fallback finds the block itself
      rw [if_neg (not_not.2 hpv)]
      simp only [ne_eq, not_true_eq_false, if_false]
      have hfind : findFreeBlock (f + 2) (put s a { b with used_ := 0 }) a n
          = .ok (a, put s a { b with used_ := 0 }) := by
        rw [findFreeBlock, if_neg ha0, load_ok ha0 hs]
        simp only [hmag, ne_eq, not_true_eq_false, if_false, true_and]
        rw [if_pos hle]
      have hback : put (put s a { b with used_ := 0 }) a
          { ({ b with used_ := 0 } : Block) with used_ := 1 } = s := by
        refine state_same ?_ rfl rfl rfl rfl
        intro x
        by_cases hx : x = a
        · subst hx
          rw [put_hdr_self, hb]
          cases b
          simp only at hused
          simp only [hused]
        · simp [hx]
      have hmal : malloc (f + 2) (put s a { b with used_ := 0 }) n = .ok (payload a, s) := by
        unfold malloc
        rw [if_neg (by omega), put_blocks_start, hstart hpv hnx, hfind]
        simp only [ne_eq, ha0, not_false_eq_true, if_true]
        rw [modify_ok _ ha0 hs, hback]
      rw [hmal]
      simp only
      have hl : load s (header (payload a)) = .ok b := by
        rw [hpay, header_add]; exact load_ok ha0 hb
      have hl2 : load s (header (a + getMetaSize)) = .ok b := by
        rw [header_add]; exact load_ok ha0 hb
      rw [copyInto_ok hl hmag hl2, hpay, memcpy_self]
    · -- a predecessor and no successor: the backward merge stops at the block itself
      rw [if_pos hpv, checkBackwardMerge_step (f + 1) n 0 ha0 hs hmag]
      have h1 : n ≤ (0 + b.size_) % WORD := by
        rw [Nat.zero_add, Nat.mod_eq_of_lt (by omega)]; exact hle
      rw [if_pos ⟨h1, rfl⟩]
      simp only [ne_eq, one_ne_zero, not_false_eq_true, if_true]
      rw [backwardBlockMerge_step (f + 1) a n 0 ha0 hs hmag]
      simp only [if_true]
      rw [if_pos hle]
      have hlink : backwardLink (put s a { b with used_ := 0 }) a a b.size_ = .ok s := by
        unfold backwardLink
        rw [load_ok ha0 hs]
        simp only
        rw [if_neg (not_not.2 hnx)]
        simp only
        rw [modify_ok _ ha0 hs]
        simp only
        rw [modify_ok _ ha0 (put_hdr_self _ _ _)]
        simp only
        rw [modify_ok _ ha0 (put_hdr_self _ _ _)]
        congr 1
        refine state_same ?_ rfl rfl rfl rfl
        intro x
        by_cases hx : x = a
        · subst hx
          rw [put_hdr_self, hb]
          cases b
          simp only at hused hnx
          simp only [hused, hnx]
        · simp [hx]
      rw [hlink]
      simp only
      rw [load_ok ha0 hb]
      simp only
      rw [hpay, memcpy_self]
  · -- a successor: the forward merge stops at the block itself
    obtain ⟨hne, yb, hy, hymag, hyprev⟩ := hnext hnx
    have hy1 : (put s a { b with used_ := 0 }).hdr b.next_ = some yb := by
      rw [put_hdr, if_neg hne]; exact hy
    rw [if_pos hnx, checkForwardMerge_step (f + 1) n 0 ha0 hs hmag, if_neg (by omega)]
    simp only [ne_eq, not_true_eq_false, if_false]
    rw [checkForwardMerge_step f n _ hnx hy1 hymag]
    have h1 : n ≤ (0 + getMetaSize + b.size_) % WORD := by
      rw [Nat.zero_add, Nat.mod_eq_of_lt (by omega)]; omega
    rw [if_pos h1]
    simp only [ne_eq, one_ne_zero, not_false_eq_true, if_true]
    rw [forwardBlockMerge_step (f + 1) a n 0 ha0 hs hmag]
    simp only [if_true]
    rw [if_pos hle]
    obtain ⟨s1, hlink, e1, e2, e3, e4, e5, e6, e7⟩ :=
      @forwardLink_ok _ a a b.next_ b.size_ _ _ yb ha0 hs ha0 hs rfl hnx hne hy1
    rw [hlink]
    simp only
    have hs1 : s1 = s := by
      refine state_same ?_ e4 e7 e5 e6
      intro x
      by_cases hx : x = a
      · subst hx
        rw [e1, hb]
        cases b
        simp only at hused
        simp only [hused]
      · by_cases hz : x = b.next_
        · subst hz
          rw [e2, hy]
          cases yb
          simp only at hyprev
          simp only [hyprev]
        · rw [e3 x hx hz, put_hdr, if_neg hx]
    rw [hs1, hpay]

/-- The block in front of a block of the list is a block of the list, so its address is
not `NULL`; a block whose `prev_` is `NULL` is the head. -/
theorem chain_prev_null {m : Nat → Option Block} {brk a : Nat} {b : Block} {l0 l3 : List Nat}
    (hch : chain m brk 0 (l0 ++ a :: l3)) (hb : m a = some b) (hpv : b.prev_ = 0) :
    l0 = [] := by
  have hsuf := chain_append_right l0 (a :: l3) 0 hch
  obtain ⟨b1, hb1, _, _, hprev, _⟩ := hsuf
  rw [hb] at hb1; injection hb1 with hb1; subst hb1
  rcases List.eq_nil_or_concat l0 with h | ⟨l1, z, h⟩
  · exact h
  · exfalso
    rw [List.concat_eq_append] at h
    subst h
    obtain ⟨_, _, hz0, _⟩ := chain_mem _ _ hch z (by simp)
    rw [hpv] at hprev
    rw [List.getLastD_eq_getLast?, List.getLast?_concat] at hprev
    exact hz0 hprev.symm

/-! ## Allocation without a merge -/

theorem findFreeBlock_used_step {s : State} {cur k : Nat} {b : Block} (f : Nat)
    (h0 : cur ≠ 0) (hb : s.hdr cur = some b) (hm : b.magic_ = MAGIC_NUMBER)
    (hu : b.used_ ≠ 0) :
    findFreeBlock (f + 1) s cur k
      = if b.next_ ≠ 0 then findFreeBlock f s b.next_ k else .ok (0, s) := by
  rw [findFreeBlock, if_neg h0, load_ok h0 hb]
  simp only [hm, hu, ne_eq, not_true_eq_false, if_false, false_and]

theorem findFreeBlock_hit {s : State} {cur k : Nat} {b : Block} (f : Nat)
    (h0 : cur ≠ 0) (hb : s.hdr cur = some b) (hm : b.magic_ = MAGIC_NUMBER)
    (hu : b.used_ = 0) (hk : k ≤ b.size_) :
    findFreeBlock (f + 1) s cur k = .ok (cur, s) := by
  rw [findFreeBlock, if_neg h0, load_ok h0 hb]
  simp only [hm, hu, hk, ne_eq, not_true_eq_false, if_false, and_self, if_true]

/-- First fit: the search walks over the blocks in use in front of a free block that is
large enough and hands that block back, without a write. -/
theorem findFreeBlock_first_free {s : State} {brk k a : Nat} {ba : Block} {rest : List Nat}
    (hba : s.hdr a = some ba) (hu : ba.used_ = 0) (hk : k ≤ ba.size_) :
    ∀ (l1 : List Nat) (pv fuel : Nat), chain s.hdr brk pv (l1 ++ a :: rest) →
      (∀ x ∈ l1, ∃ bx, s.hdr x = some bx ∧ bx.used_ ≠ 0) → l1.length + 1 ≤ fuel →
      findFreeBlock fuel s ((l1 ++ a :: rest).headD 0) k = .ok (a, s)
  | [], pv, fuel, h, _, hfuel => by
    obtain ⟨f, rfl⟩ : ∃ f, fuel = f + 1 := ⟨fuel - 1, by simp at hfuel; omega⟩
    obtain ⟨b1, hb1, h0, hmag, _⟩ := h
    rw [hba] at hb1; injection hb1 with hb1; subst hb1
    exact findFreeBlock_hit f h0 hba hmag hu hk
  | x :: xs, pv, fuel, h, hused, hfuel => by
    obtain ⟨f, rfl⟩ : ∃ f, fuel = f + 1 := ⟨fuel - 1, by simp at hfuel; omega⟩
    obtain ⟨bx, hbx, hx0, hmag, _, hnext, _, hrest⟩ := h
    obtain ⟨bx1, hbx1, hux⟩ := hused x (List.mem_cons_self _ _)
    rw [hbx] at hbx1; injection hbx1 with hbx1; subst hbx1
    have hne : bx.next_ ≠ 0 := by
      rw [hnext]
      cases xs with
      | nil => obtain ⟨_, _, h0, _⟩ := hrest; exact h0
      | cons y ys => obtain ⟨_, _, h0, _⟩ := hrest; exact h0
    show findFreeBlock (f + 1) s x k = .ok (a, s)
    rw [findFreeBlock_used_step f hx0 hbx hmag hux, if_pos hne, hnext]
    exact findFreeBlock_first_free hba hu hk xs x f hrest
      (fun y hy => hused y (List.mem_cons_of_mem _ hy)) (by simp at hfuel ⊢; omega)

/-- `malloc` hands out the first free block that is large enough when every block in
front of it is in use. -/
theorem malloc_first_free {s : State} {k a fuel : Nat} {ba : Block} {l1 rest : List Nat}
    (hwf : WellFormed s (l1 ++ a :: rest)) (hba : s.hdr a = some ba) (hu : ba.used_ = 0)
    (hk0 : 0 < k) (hk : k ≤ ba.size_)
    (hused : ∀ x ∈ l1, ∃ bx, s.hdr x = some bx ∧ bx.used_ ≠ 0)
    (hfuel : l1.length + 1 ≤ fuel) :
    malloc fuel s k = .ok (payload a, put s a { ba with used_ := 1 }) := by
  obtain ⟨hhead, hch⟩ := hwf
  obtain ⟨_, _, ha0, _⟩ := chain_mem _ _ hch a (by simp)
  unfold malloc
  rw [if_neg (by omega), hhead, findFreeBlock_first_free hba hu hk l1 0 fuel hch hused hfuel]
  simp only [ne_eq, ha0, not_false_eq_true, if_true]
  rw [modify_ok _ ha0 hba]

/-- Appending a block at the break keeps the chain: the last block gets the new block as
its successor, the new block ends at the new break. -/
theorem chain_snoc {m m1 : Nat → Option Block} {brk brk1 t : Nat} {bt nb : Block}
    (hbt : m t = some bt) (hbt1 : m1 t = some { bt with next_ := brk })
    (hnb : m1 brk = some nb) (hn0 : brk ≠ 0) (hmag : nb.magic_ = MAGIC_NUMBER)
    (hpv : nb.prev_ = t) (hnx : nb.next_ = 0) (hend : brk + getMetaSize + nb.size_ = brk1)
    (hframe : ∀ x, x ≠ t → x ≠ brk → m1 x = m x) :
    ∀ (l : List Nat) (pv : Nat), chain m brk pv l → l.getLast? = some t →
      chain m1 brk1 pv (l ++ [brk])
  | [], _, _, hl => by simp at hl
  | [y], pv, h, hl => by
    simp at hl
    subst hl
    obtain ⟨b, hb, h0, hm, hp, hnext, hend1, _⟩ := h
    rw [hbt] at hb; injection hb with hb; subst hb
    simp at hend1
    exact ⟨_, hbt1, h0, hm, hp, rfl, hend1, ⟨nb, hnb, hn0, hmag, hpv, hnx, hend, trivial⟩⟩
  | y :: z :: zs, pv, h, hl => by
    have hyz := chain_head_lt (z :: zs) pv y h
    obtain ⟨b, hb, h0, hm, hp, hnext, hend1, hrest⟩ := h
    rw [List.getLast?_cons_cons] at hl
    have htm : t ∈ z :: zs := List.mem_of_getLast?_eq_some hl
    obtain ⟨_, _, hyt⟩ := hyz t htm
    obtain ⟨_, _, hle⟩ := chain_le_brk _ _ hrest t htm
    have hy1 : m1 y = some b := by
      rw [hframe y (by simp [getMetaSize] at hyt; omega) (by simp [getMetaSize] at hyt hle; omega)]
      exact hb
    exact ⟨b, hy1, h0, hm, hp, hnext, hend1, chain_snoc hbt hbt1 hnb hn0 hmag hpv hnx hend hframe
      (z :: zs) y hrest hl⟩

theorem toInt64_small {n : Nat} (h : getMetaSize + n < 2 ^ 63) :
    toInt64 ((getMetaSize + n) % WORD) = ((getMetaSize + n : Nat) : Int) := by
  have hmod : (getMetaSize + n) % WORD = getMetaSize + n := by
    apply Nat.mod_eq_of_lt
    simp only [WORD]
    omega
  rw [hmod]
  unfold toInt64
  simp only [hmod]
  rw [if_pos h]

/-- `malloc` when its search performs no merge (`findFreeBlock` hands back the state it
was given) and the request is not refused: either a free block of the list that is large
enough is marked used, or a block of `n` bytes is appended at the break and the list
stays well formed. -/
theorem malloc_no_merge {s s2 : State} {l : List Nat} {n fuel f q : Nat}
    (hwf : WellFormed s l) (hl : l ≠ []) (hbrk : s.brk < WORD) (hn : 0 < n)
    (hsmall : getMetaSize + n < 2 ^ 63)
    (hfind : findFreeBlock fuel s s.blocks_start n = .ok (f, s))
    (h : malloc fuel s n = .ok (q, s2)) (hqF : q ≠ FAIL) :
    (∃ bf, f ∈ l ∧ f ≠ 0 ∧ s.hdr f = some bf ∧ bf.used_ = 0 ∧ n ≤ bf.size_ ∧
        q = payload f ∧ s2 = put s f { bf with used_ := 1 }) ∨
    (f = 0 ∧ q = payload s.brk ∧ WellFormed s2 (l ++ [s.brk]) ∧
      (∃ bn, s2.hdr s.brk = some bn ∧ bn.used_ = 1 ∧ bn.size_ = n) ∧
      (∀ x ∈ l, (s2.hdr x).map Block.used_ = (s.hdr x).map Block.used_ ∧
        (s2.hdr x).map Block.size_ = (s.hdr x).map Block.size_) ∧
      s2.bytes = s.bytes ∧ s.brk ≤ s2.brk) := by
  obtain ⟨hhead, hch⟩ := hwf
  unfold malloc at h
  rw [if_neg (by omega), hfind] at h
  simp only at h
  by_cases hr : f = 0
  · right
    simp only [hr, ne_eq, not_true_eq_false, if_false] at h
    have hhdr := sbrk_hdr s (toInt64 ((getMetaSize + n) % WORD))
    have hbytes := sbrk_bytes s (toInt64 ((getMetaSize + n) % WORD))
    have hstart := sbrk_blocks_start s (toInt64 ((getMetaSize + n) % WORD))
    have hcases := sbrk_cases s (toInt64 ((getMetaSize + n) % WORD))
    generalize sbrk s (toInt64 ((getMetaSize + n) % WORD)) = R at h hhdr hbytes hstart hcases
    rcases hcases with ⟨hf, _⟩ | ⟨hg, hnew, hle⟩
    · rw [if_pos hf] at h
      injection h with h
      injection h with h1 h2
      exact absurd h1.symm hqF
    · rw [hg] at h
      rw [toInt64_small hsmall] at hnew
      by_cases hbF : s.brk = FAIL
      · rw [if_pos hbF] at h
        injection h with h
        injection h with h1 h2
        exact absurd h1.symm hqF
      · rw [if_neg hbF] at h
        by_cases hb0 : s.brk = 0
        · rw [if_pos hb0] at h; cases h
        · rw [if_neg hb0] at h
          simp only [put_blocks_start, hstart] at h
          cases l with
          | nil => exact absurd rfl hl
          | cons x xs =>
            have hx0 : x ≠ 0 := by
              obtain ⟨_, _, hx0, _⟩ := hch
              exact hx0
            have hempty : s.blocks_start ≠ 0 := by
              simp at hhead
              rw [hhead]
              exact hx0
            rw [if_neg hempty] at h
            cases hi : insertBlock fuel (put R.2 s.brk (Block.mk MAGIC_NUMBER n 1 0 0))
                s.brk s.blocks_start with
            | error e => rw [hi] at h; cases h
            | ok s4 =>
              rw [hi] at h
              injection h with h
              injection h with h1 h2
              subst h1 h2
              simp at hhead
              rw [hhead] at hi
              have hnot : s.brk ∉ x :: xs := by
                intro hm
                obtain ⟨b, _, hle⟩ := chain_le_brk _ _ hch _ hm
                simp [getMetaSize] at hle
                omega
              have hch3 : chain (put R.2 s.brk (Block.mk MAGIC_NUMBER n 1 0 0)).hdr s.brk 0
                  (x :: xs) := by
                refine chain_frame _ _ ?_ hch
                intro y hy
                have : y ≠ s.brk := fun hye => hnot (hye ▸ hy)
                simp [this, hhdr]
              obtain ⟨t, bt, hlast, hbt, hbtn, ht0, htn, hbtm, hs4⟩ :=
                @insertBlock_chain s.brk s.brk (Block.mk MAGIC_NUMBER n 1 0 0) hb0 xs x 0
                  fuel _ s4 hch3 hnot (by simp) hi
              have hbt0 : s.hdr t = some bt := by
                simpa [htn, hhdr] using hbt
              have e1 : s4.hdr s.brk = some (Block.mk MAGIC_NUMBER n 1 0 t) := by
                rw [hs4]; simp
              have e2 : s4.hdr t = some { bt with next_ := s.brk } := by
                rw [hs4]; simp [htn]
              have e3 : ∀ y, y ≠ t → y ≠ s.brk → s4.hdr y = s.hdr y := by
                intro y hy2 hy1
                rw [hs4]; simp [hy1, hy2, hhdr]
              have e4 : s4.blocks_start = s.blocks_start := by
                rw [hs4]; simp [hstart]
              have e5 : s4.bytes = s.bytes := by
                rw [hs4]; simp [hbytes]
              have e6 : s4.brk = R.2.brk := by
                rw [hs4]; simp
              have hend : s.brk + getMetaSize + n = s4.brk := by
                rw [e6]; omega
              refine ⟨hr, rfl, ⟨?_, ?_⟩, ⟨_, e1, rfl, rfl⟩, ?_, e5, by omega⟩
              · rw [e4, hhead]; rfl
              · exact chain_snoc hbt0 e2 e1 hb0 rfl rfl rfl hend e3 (x :: xs) 0 hch hlast
              · intro y hy
                have hyb : y ≠ s.brk := fun hye => hnot (hye ▸ hy)
                by_cases hyt : y = t
                · subst hyt
                  rw [e2, hbt0]
                  exact ⟨rfl, rfl⟩
                · rw [e3 y hyt hyb]
                  exact ⟨rfl, rfl⟩
  · left
    simp only [ne_eq, hr, not_false_eq_true, if_true] at h
    obtain ⟨b, hb, hu, hmag⟩ := findFreeBlock_free _ _ _ _ _ _ hfind hr
    rw [modify_ok _ hr hb] at h
    injection h with h
    injection h with h1 h2
    rw [hhead] at hfind
    rcases findFreeBlock_spec hbrk hn l [] fuel f s hch hhead hfind with
      ⟨hr0, _⟩ | ⟨hrl, _, _, ⟨b1, hb1, hsz, _⟩, _⟩
    · exact absurd hr0 hr
    · rw [hb] at hb1; injection hb1 with hb1; subst hb1
      exact ⟨b, hrl, hr, hb, hu, hsz, h1.symm, h2.symm⟩

/-! ## The claims -/

open Call

theorem heapA_wf : WellFormed heapA [4096, 4200] := by
  refine ⟨rfl, ⟨_, rfl, by decide, by decide, by decide, by decide, by decide,
    ⟨_, rfl, by decide, by decide, by decide, by decide, by decide, trivial⟩⟩⟩

theorem heapB_wf : WellFormed heapB [4096, 4152] := by
  refine ⟨rfl, ⟨_, rfl, by decide, by decide, by decide, by decide, by decide,
    ⟨_, rfl, by decide, by decide, by decide, by decide, by decide, trivial⟩⟩⟩

theorem heapD_wf : WellFormed heapD [4096, 4144] := by
  refine ⟨rfl, ⟨_, rfl, by decide, by decide, by decide, by decide, by decide,
    ⟨_, rfl, by decide, by decide, by decide, by decide, by decide, trivial⟩⟩⟩

theorem heapF_wf : WellFormed heapF [4096, 4168] := by
  refine ⟨rfl, ⟨_, rfl, by decide, by decide, by decide, by decide, by decide,
    ⟨_, rfl, by decide, by decide, by decide, by decide, by decide, trivial⟩⟩⟩

/-- Claim C1 fails on the code.  Starting from the empty heap (break 4096) the calls
`a = malloc(32)`, `c = malloc(64)`, `d = malloc(8)`, `free(a)`, `x = malloc(50)`,
`free(x)`, `y = malloc(100)` all return, every `free` is applied to a live pointer, and
the allocations live at the end are `c = 4208` (64 bytes), `d = 4312` (8 bytes) and
`y = 4136` (100 bytes): the ranges `[4136, 4236)` and `[4208, 4272)` overlap.
`malloc(50)` merged the free block of `a` with the block of `c`, which is in use. -/
theorem live_payloads_overlap :
    outcome (run 10 heap0 [allocate 32, allocate 64, allocate 8, release 4136, allocate 50,
        release 4136, allocate 100])
      = some ([4136, 4208, 4312, 0, 4136, 0, 4136], 4096, 4320) ∧
    releasesLive [allocate 32, allocate 64, allocate 8, release 4136, allocate 50,
        release 4136, allocate 100] [4136, 4208, 4312, 0, 4136, 0, 4136] [] = true ∧
    liveTable [allocate 32, allocate 64, allocate 8, release 4136, allocate 50,
        release 4136, allocate 100] [4136, 4208, 4312, 0, 4136, 0, 4136] []
      = [(4208, 64), (4312, 8), (4136, 100)] ∧
    ¬ PayloadsDisjoint [(4208, 64), (4312, 8), (4136, 100)] := by
  refine ⟨by decide, by decide, by decide, by decide⟩

/-- Claim C2: on a well-formed heap whose break is a machine word, a pointer returned by
`malloc(n)` with `n > 0` that is not the failure sentinel lies one header past a block of
the list with `used_ = 1` and `size_ ≥ n`, and `getMallocSize` reports that size; the
same holds for the pointer `realloc(q, n)` returns for a live pointer `q`. -/
theorem allocate_and_resize_return_used_block (s : State) (l : List Nat) (n fuel : Nat)
    (hwf : WellFormed s l) (hbrk : s.brk < WORD) (hn : 0 < n) :
    (∀ p s1, malloc fuel s n = .ok (p, s1) → p ≠ FAIL → GoodPtr s1 n p) ∧
    (∀ q sz r s1, Live s l q sz → realloc fuel s q n = .ok (r, s1) → r ≠ FAIL →
      GoodPtr s1 n r) := by
  constructor
  · intro p s1 h hp
    rcases malloc_spec hwf hbrk hn h with
      ⟨hf, _⟩ | ⟨a, b, hpa, ha0, hwhere, hin, hb, hu, hsz, hmag, _, _⟩
    · exact absurd hf hp
    · rw [hpa]
      refine goodPtr_intro ?_ ha0 hin hb hu hsz hmag
      rcases hwhere with h1 | h1
      · obtain ⟨_, _, hle⟩ := chain_le_brk _ _ hwf.2 a h1
        omega
      · rw [h1]; exact hbrk
  · intro q sz r s1 hlive h hr
    exact (realloc_spec hwf hbrk hn hlive h).1 hr

theorem allocate_and_resize_return_used_block_witness :
    (∃ s1, malloc 10 heapA 32 = .ok (4136, s1) ∧ GoodPtr s1 32 4136) ∧
    (∃ s1, realloc 10 heapA 4240 100 = .ok (4136, s1) ∧ GoodPtr s1 100 4136) :=
  ⟨⟨_, rfl, (allocate_and_resize_return_used_block heapA [4096, 4200] 32 10 heapA_wf
      (by decide) (by decide)).1 4136 _ rfl (by decide)⟩,
   ⟨_, rfl, (allocate_and_resize_return_used_block heapA [4096, 4200] 100 10 heapA_wf
      (by decide) (by decide)).2 4240 64 4136 _
      ⟨4200, Block.mk MAGIC_NUMBER 64 1 0 4096, by decide, rfl, rfl, rfl, rfl⟩ rfl
      (by decide)⟩⟩

/-- Claim C3: on a well-formed heap whose break is a machine word, if `realloc(q, n)`
returns `r` for a live pointer `q` whose block has `sz` payload bytes, then the first
`min(sz, n)` bytes at `r` are the bytes that were stored at `q` before the call, on the
forward-merge path, the backward-merge path (low-to-high copy into the overlapping lower
block) and the allocate-and-copy path alike. -/
theorem resize_preserves_contents (s : State) (l : List Nat) (fuel q sz n r : Nat)
    (s1 : State) (hwf : WellFormed s l) (hbrk : s.brk < WORD) (hlive : Live s l q sz)
    (h : realloc fuel s q n = .ok (r, s1)) :
    ∀ i, i < min sz n → s1.bytes (r + i) = s.bytes (q + i) := by
  rcases Nat.eq_zero_or_pos n with hn | hn
  · intro i hi
    rw [hn] at hi
    simp at hi
  · exact (realloc_spec hwf hbrk hn hlive h).2

theorem resize_preserves_contents_witness :
    (∃ s1, realloc 10 heapB 4136 4096 = .ok (4248, s1) ∧
      s1.bytes (4248 + 5) = heapB.bytes (4136 + 5)) ∧
    (∃ s1, realloc 10 heapA 4240 100 = .ok (4136, s1) ∧
      s1.bytes (4136 + 63) = heapA.bytes (4240 + 63)) :=
  ⟨⟨_, rfl, resize_preserves_contents heapB [4096, 4152] 10 4136 16 4096 4248 _ heapB_wf
      (by decide) ⟨4096, Block.mk MAGIC_NUMBER 16 1 4152 0, by decide, rfl, rfl, rfl, rfl⟩ rfl
      5 (by decide)⟩,
   ⟨_, rfl, resize_preserves_contents heapA [4096, 4200] 10 4240 64 100 4136 _ heapA_wf
      (by decide) ⟨4200, Block.mk MAGIC_NUMBER 64 1 0 4096, by decide, rfl, rfl, rfl, rfl⟩ rfl
      63 (by decide)⟩⟩

/-- Claim C4 fails on the code.  From the empty heap with break 4096 the calls
`p = malloc(24)`, `q = malloc(4294967296)`, `free(q)`, `free(p)` release every
allocation that was made; afterwards `blocks_start` is `NULL` but the break is
`4096 + 2^32`, not 4096: `freeBlocks` casts the size to `int` and hands `sbrk` only
`-(40 + 0)` for the large block. -/
theorem break_not_restored_after_releasing_all :
    outcome (run 10 heap0 [allocate 24, allocate 4294967296, release 4200, release 4136])
      = some ([4136, 4200, 0, 0], 0, 4294971392) ∧
    releasesLive [allocate 24, allocate 4294967296, release 4200, release 4136]
      [4136, 4200, 0, 0] [] = true ∧
    liveTable [allocate 24, allocate 4294967296, release 4200, release 4136]
      [4136, 4200, 0, 0] [] = [] ∧
    heap0.brk = 4096 := by
  refine ⟨by decide, by decide, by decide, by decide⟩

/-- Claim C5 fails on the code.  The heap with a live block of 8 bytes at 4096 followed
by a live block of `2^32` bytes at 4144 satisfies (i)-(iii); `free` of the second
pointer returns, and the heap it leaves is well formed for no list of addresses: the only
block left ends at 4144 while the break stays at `4144 + 2^32`. -/
theorem release_breaks_well_formedness :
    outcome (run 10 heap0 [allocate 8, allocate 4294967296])
      = some ([4136, 4184], 4096, 4294971480) ∧
    WellFormed heapD [4096, 4144] ∧ Live heapD [4096, 4144] 4184 4294967296 ∧
    failure (free 10 heapD 4184) = none ∧
    ∀ l, ¬ WellFormed (stateAfter 10 heapD [release 4184]) l := by
  refine ⟨by decide, heapD_wf, ?_, by decide, ?_⟩
  · exact ⟨4144, Block.mk MAGIC_NUMBER 4294967296 1 0 4096, by decide, rfl, rfl, rfl, rfl⟩
  · intro l hl
    obtain ⟨hhead, hch⟩ := hl
    have hstart : (stateAfter 10 heapD [release 4184]).blocks_start = 4096 := by decide
    have hbrk : (stateAfter 10 heapD [release 4184]).brk = 4294971440 := by decide
    have hb : (stateAfter 10 heapD [release 4184]).hdr 4096
        = some (Block.mk MAGIC_NUMBER 8 1 0 0) := by decide
    rw [hstart] at hhead
    rw [hbrk] at hch
    cases l with
    | nil => simp at hhead
    | cons x xs =>
      simp at hhead
      subst hhead
      obtain ⟨b, hb1, _, _, _, hnext, hend, _⟩ := hch
      rw [hb] at hb1
      injection hb1 with hb1
      subst hb1
      cases xs with
      | nil => simp [getMetaSize] at hend
      | cons y ys =>
        simp [getMetaSize] at hend hnext
        omega

/-- Claim C7 fails on the code.  When the kernel refuses, `malloc` does return the
all-ones pointer and leaves the state as it was, but its callers do not propagate it:
`calloc(1, 8)` does not return at all, because it calls `malloc` while it holds the lock,
and `realloc` of a live pointer dereferences the header in front of the sentinel and
faults. -/
theorem exhaustion_not_propagated :
    malloc 10 heapX 8 = .ok (FAIL, heapX) ∧
    failure (calloc 10 heapX 1 8) = some Err.hang ∧
    outcome (run 10 (emptyHeap 4096 4150 (fun x => x % 251)) [allocate 8])
      = some ([4136], 4096, 4144) ∧
    Live heapY [4096] 4136 8 ∧
    malloc 10 heapY 16 = .ok (FAIL, heapY) ∧
    failure (realloc 10 heapY 4136 16) = some Err.segv := by
  refine ⟨rfl, by decide, by decide, ?_, rfl, by decide⟩
  exact ⟨4096, Block.mk MAGIC_NUMBER 8 1 0 0, by decide, rfl, rfl, rfl, rfl⟩

/-- Claim C8 fails on the code.  `malloc(2^32)` on the empty heap with break 4096 moves
the break to `4096 + 40 + 2^32`; the following `free` removes the block but lowers the
break by 40 only, to `4096 + 2^32`: the `int free_size` of `freeBlocks` is `-40` for a
block of `2^32` bytes.  For the 100 bytes of scenario S2 the break does return to 4096. -/
theorem tail_shrink_truncates_size :
    outcome (run 10 heap0 [allocate 4294967296]) = some ([4136], 4096, 4294971432) ∧
    outcome (run 10 heap0 [allocate 4294967296, release 4136])
      = some ([4136, 0], 0, 4294971392) ∧
    freeSize 4294967296 = -40 ∧ heap0.brk = 4096 ∧
    outcome (run 10 heap0 [allocate 100]) = some ([4136], 4096, 4236) ∧
    outcome (run 10 heap0 [allocate 100, release 4136]) = some ([4136, 0], 0, 4096) := by
  refine ⟨by decide, by decide, by decide, by decide, by decide, by decide⟩

/-- Claim C9 fails on the code at the input of scenario S4: after `p = malloc(32)`,
`q = malloc(64)`, `free(q)` on the empty heap, `realloc(p, 80)` returns 4208, the pointer
`q` had, and not `p = 4136`. -/
theorem resize_after_tail_release_moves :
    outcome (run 10 heap0 [allocate 32, allocate 64, release 4208, resize 4136 80])
      = some ([4136, 4208, 0, 4208], 4096, 4288) ∧ (4208 : Nat) ≠ 4136 := by
  refine ⟨by decide, by decide⟩

/-- Claim C9 as amended: for `p = malloc(a)`, `q = malloc(b)` made consecutively on the
empty heap with break `B` (sizes the kernel grants, `b + 40 < 2^31`), `free(q)` gives the
block of `q` back to the kernel, so `realloc(p, n)` with `a < n` has no neighbour to grow
into: it returns the payload of a new block placed where the block of `q` was, that is
the pointer `q = p + a + 40`, different from `p`, with the first `a` bytes of `p` copied
there and `getMallocSize` equal to `n`. -/
theorem resize_after_tail_release_general (B M a b n fuel : Nat) (mem : Nat → Nat)
    (hB : 0 < B) (ha : 0 < a) (hb : 0 < b) (han : a < n)
    (hfit1 : B + a + b + 80 ≤ M) (hfit2 : B + a + n + 80 ≤ M) (hM : M < 2 ^ 63)
    (hb31 : b + 40 < 2 ^ 31) (hfuel : 2 ≤ fuel) :
    ∃ s, run fuel (emptyHeap B M mem)
        [allocate a, allocate b, release (B + a + 80), resize (B + 40) n]
        = .ok ([B + 40, B + a + 80, 0, B + a + 80], s) ∧
      B + a + 80 ≠ B + 40 ∧ getMallocSize s (B + a + 80) = .ok n ∧
      (∀ i, i < a → s.bytes (B + a + 80 + i) = mem (B + 40 + i)) := by
  have hW : WORD = 2 ^ 64 := rfl
  have hF : FAIL = 2 ^ 64 - 1 := rfl
  have hG : getMetaSize = 40 := rfl
  -- first allocation
  obtain ⟨S1, hstep1, hS1B, hS1brk, hS1start, hS1max, hS1bytes⟩ :
      ∃ S1, malloc fuel (emptyHeap B M mem) a = .ok (B + 40, S1) ∧
        S1.hdr B = some (Block.mk MAGIC_NUMBER a 1 0 0) ∧ S1.brk = B + 40 + a ∧
        S1.blocks_start = B ∧ S1.brkMax = M ∧ S1.bytes = mem := by
    have e1 := @malloc_first (emptyHeap B M mem) a fuel rfl ha
      (by simp [emptyHeap]; omega) (by simp [emptyHeap, FAIL]; omega)
      (by simp [getMetaSize]; omega) (by simp [emptyHeap, getMetaSize]; omega) (by omega)
    have hp : payload (emptyHeap B M mem).brk = B + 40 :=
      payload_eq (by simp [emptyHeap, hW, hG]; omega)
    rw [hp] at e1
    exact ⟨_, e1, by simp [emptyHeap], rfl, rfl, rfl, rfl⟩
  -- second allocation
  obtain ⟨S2, hstep2, hS2B, hS2Q, hS2brk, hS2start, hS2max, hS2bytes⟩ :
      ∃ S2, malloc fuel S1 b = .ok (B + a + 80, S2) ∧
        S2.hdr B = some (Block.mk MAGIC_NUMBER a 1 (B + 40 + a) 0) ∧
        S2.hdr (B + 40 + a) = some (Block.mk MAGIC_NUMBER b 1 0 B) ∧
        S2.brk = B + 40 + a + 40 + b ∧
        S2.blocks_start = B ∧ S2.brkMax = M ∧ S2.bytes = mem := by
    have e2 := @malloc_second S1 b fuel B _ hS1start (by omega) hS1B rfl rfl
      (Or.inl (by simp)) hb (by rw [hS1brk]; omega) (by rw [hS1brk, hF]; omega)
      (by rw [hS1brk]; omega) (by rw [hG]; omega) (by rw [hS1brk, hS1max, hG]; omega) hfuel
    have hp : payload S1.brk = B + a + 80 := by
      rw [payload_eq (by rw [hS1brk, hW, hG]; omega), hS1brk, hG]; omega
    rw [hp] at e2
    refine ⟨_, e2, ?_, ?_, ?_, ?_, ?_, ?_⟩
    · have : B ≠ B + 40 + a := by omega
      simp [hS1brk, this]
    · simp [hS1brk]
    · simp [hS1brk, hG]
    · simpa using hS1start
    · simpa using hS1max
    · simpa using hS1bytes
  -- release of the second pointer: its block is the tail and goes back to the kernel
  obtain ⟨S3, hstep3, hS3B, hS3brk, hS3start, hS3max, hS3bytes⟩ :
      ∃ S3, free fuel S2 (B + a + 80) = .ok S3 ∧
        S3.hdr B = some (Block.mk MAGIC_NUMBER a 1 0 0) ∧ S3.brk = B + 40 + a ∧
        S3.blocks_start = B ∧ S3.brkMax = M ∧ S3.bytes = mem := by
    have e3 := @free_tail_second S2 B (B + 40 + a) fuel _ _ hS2B hS2Q (by omega) (by omega)
      (by omega) rfl rfl (by simp) rfl rfl rfl (by rw [hG]; simp only; omega)
      (by rw [hS2brk, hG]; simp only; omega) (by rw [hS2brk, hS2max]; omega) hfuel
    have hq : B + 40 + a + getMetaSize = B + a + 80 := by rw [hG]; omega
    rw [hq] at e3
    refine ⟨_, e3, ?_, ?_, ?_, ?_, ?_⟩
    · simp
    · simp [hS2brk, hG]; omega
    · simpa using hS2start
    · simpa using hS2max
    · simpa using hS2bytes
  -- resize of the first pointer: nothing to merge with, a new block is appended
  obtain ⟨S4, hstep4, hS4bytes, hS4size, _, _, _⟩ :=
    @realloc_single_fallback S3 B n fuel _ hS3start (by omega) hS3B rfl rfl rfl han
      (by rw [hS3brk]; omega) (by rw [hS3brk, hF]; omega) (by rw [hS3brk]; omega)
      (by rw [hG]; omega) (by rw [hS3brk, hS3max, hG]; omega)
      (by rw [hS3brk, hW, hG]; omega) hfuel
  have hr : S3.brk + getMetaSize = B + a + 80 := by rw [hS3brk, hG]; omega
  have hp : B + getMetaSize = B + 40 := by rw [hG]
  rw [hr, hp] at hstep4 hS4bytes
  rw [hr] at hS4size
  refine ⟨S4, ?_, by omega, hS4size, ?_⟩
  · exact run_cons_ok hstep1 (run_cons_ok hstep2 (run_cons_ok (step_release_ok hstep3)
      (run_cons_ok hstep4 rfl)))
  · intro i hi
    rw [hS4bytes, hS3bytes]
    exact memcpy_copy mem _ _ a i (Or.inr (by omega)) hi

theorem resize_after_tail_release_general_witness :
    ∃ s, run 10 heap0 [allocate 32, allocate 64, release 4208, resize 4136 80]
        = .ok ([4136, 4208, 0, 4208], s) ∧
      (4208 : Nat) ≠ 4136 ∧ getMallocSize s 4208 = .ok 80 ∧
      (∀ i, i < 32 → s.bytes (4208 + i) = (fun x => x % 251) (4136 + i)) :=
  resize_after_tail_release_general 4096 (2 ^ 40) 32 64 80 10 (fun x => x % 251)
    (by decide) (by decide) (by decide) (by decide) (by decide) (by decide) (by decide)
    (by decide) (by decide)

/-- Claim C10 fails on the code.  In the well-formed heap with a free block of 32 bytes
at 4096 followed by a used block of 64 bytes, the last of the list, the first block is
free and accepted by `checkForwardMerge(block, 50, 0)`, yet `malloc(50)` does not return
its payload: `forwardBlockMerge` stores through `current->next_`, which is `NULL`. -/
theorem allocate_faults_on_qualifying_block :
    outcome (run 10 heap0 [allocate 32, allocate 64, release 4136])
      = some ([4136, 4208, 0], 4096, 4272) ∧
    WellFormed heapF [4096, 4168] ∧
    heapF.hdr 4096 = some (Block.mk MAGIC_NUMBER 32 0 4168 0) ∧
    checkForwardMerge 10 heapF 4096 50 0 = .ok 1 ∧
    failure (malloc 10 heapF 50) = some Err.segv := by
  exact ⟨by decide, heapF_wf, rfl, rfl, by decide⟩

theorem heapS3_wf : WellFormed heapS3 [4096, 4168, 4240] := by
  refine ⟨rfl, ⟨_, rfl, by decide, by decide, by decide, by decide, by decide,
    ⟨_, rfl, by decide, by decide, by decide, by decide, by decide,
    ⟨_, rfl, by decide, by decide, by decide, by decide, by decide, trivial⟩⟩⟩⟩

theorem heapA_tail_used :
    ∀ t b, [4096, 4200].getLast? = some t → heapA.hdr t = some b → b.used_ = 1 := by
  intro t b h1 h2
  simp at h1
  subst h1
  have h3 : heapA.hdr 4200 = some (Block.mk MAGIC_NUMBER 64 1 0 4096) := rfl
  rw [h3] at h2
  injection h2 with h2
  subst h2
  rfl

theorem heapB_tail_used :
    ∀ t b, [4096, 4152].getLast? = some t → heapB.hdr t = some b → b.used_ = 1 := by
  intro t b h1 h2
  simp at h1
  subst h1
  have h3 : heapB.hdr 4152 = some (Block.mk MAGIC_NUMBER 16 1 0 4096) := rfl
  rw [h3] at h2
  injection h2 with h2
  subst h2
  rfl

/-- Claim C11 fails on the code at the input of scenario S3.  The heap with two released
blocks of 32 bytes at 4096 and 4168 followed by a live block at 4240 is well formed and
reached by five calls from the empty heap; `malloc(70)` merges the first two blocks and
returns 4136, and the following `free(4136)` leaves a list of two blocks, the first one
free with 104 bytes: the list before the allocation had three blocks. -/
theorem release_after_merging_allocate_shortens_list :
    outcome (run 10 heap0 [allocate 32, allocate 32, allocate 32, release 4136, release 4208])
      = some ([4136, 4208, 4280, 0, 0], 4096, 4312) ∧
    WellFormed heapS3 [4096, 4168, 4240] ∧
    heapS3.hdr 4096 = some (Block.mk MAGIC_NUMBER 32 0 4168 0) ∧
    outcome (run 10 heapS3 [allocate 70, release 4136]) = some ([4136, 0], 4096, 4312) ∧
    WellFormed (stateAfter 10 heapS3 [allocate 70, release 4136]) [4096, 4240] ∧
    (stateAfter 10 heapS3 [allocate 70, release 4136]).hdr 4096
      = some (Block.mk MAGIC_NUMBER 104 0 4240 0) := by
  refine ⟨by decide, heapS3_wf, by decide, by decide, ?_, by decide⟩
  exact ⟨rfl, ⟨_, rfl, by decide, by decide, by decide, by decide, by decide,
    ⟨_, rfl, by decide, by decide, by decide, by decide, by decide, trivial⟩⟩⟩

/-- Claim C11 as amended: on a well-formed heap whose break is a machine word and whose
last block is in use, let `malloc(n)` with `n > 0` return a pointer `p` that is neither
`NULL` nor the failure sentinel, and let its search of the list perform no forward merge
(`findFreeBlock` hands back the state it was given).  Then `free(p)` returns and the
block list is the one before the allocation: `blocks_start` and every header of the list
are as they were, the payload bytes are untouched, and when `40 + n` fits an `int` the
break is back at its old value. -/
theorem release_after_allocate_restores (s : State) (l : List Nat) (n fuel p r : Nat)
    (s1 : State) (hwf : WellFormed s l) (hbrk : s.brk < WORD)
    (htail : ∀ t b, l.getLast? = some t → s.hdr t = some b → b.used_ = 1)
    (hn : 0 < n) (hfuel : 2 ≤ fuel)
    (hfind : findFreeBlock fuel s s.blocks_start n = .ok (r, s))
    (h : malloc fuel s n = .ok (p, s1)) (hp0 : p ≠ 0) (hpF : p ≠ FAIL) :
    ∃ s2, free fuel s1 p = .ok s2 ∧ s2.blocks_start = s.blocks_start ∧
      (∀ x ∈ l, s2.hdr x = s.hdr x) ∧ s2.bytes = s.bytes ∧
      (getMetaSize + n < 2 ^ 31 → s2.brk = s.brk) := by
  obtain ⟨hhead, hch⟩ := hwf
  obtain ⟨f, rfl⟩ : ∃ f, fuel = f + 2 := ⟨fuel - 2, by omega⟩
  unfold malloc at h
  rw [if_neg (by omega), hfind] at h
  simp only at h
  by_cases hr : r = 0
  · simp only [hr, ne_eq, not_true_eq_false, if_false] at h
    have hhdr := sbrk_hdr s (toInt64 ((getMetaSize + n) % WORD))
    have hbytes := sbrk_bytes s (toInt64 ((getMetaSize + n) % WORD))
    have hstart := sbrk_blocks_start s (toInt64 ((getMetaSize + n) % WORD))
    have hmax := sbrk_brkMax s (toInt64 ((getMetaSize + n) % WORD))
    have hcases := sbrk_cases s (toInt64 ((getMetaSize + n) % WORD))
    generalize sbrk s (toInt64 ((getMetaSize + n) % WORD)) = R at h hhdr hbytes hstart hmax hcases
    rcases hcases with ⟨hf, _⟩ | ⟨hg, hnew, hle⟩
    · rw [if_pos hf] at h
      injection h with h
      injection h with h1 h2
      exact absurd h1.symm hpF
    · rw [hg] at h
      by_cases hbF : s.brk = FAIL
      · rw [if_pos hbF] at h
        injection h with h
        injection h with h1 h2
        exact absurd h1.symm hpF
      · rw [if_neg hbF] at h
        by_cases hb0 : s.brk = 0
        · rw [if_pos hb0] at h; cases h
        · rw [if_neg hb0] at h
          simp only [put_blocks_start, hstart] at h
          have hhp : header (payload s.brk) = s.brk := header_payload hbrk
          by_cases hempty : s.blocks_start = 0
          · rw [if_pos hempty] at h
            injection h with h
            injection h with h1 h2
            subst h1
            have e1 : s1.hdr s.brk = some (Block.mk MAGIC_NUMBER n 1 0 0) := by
              rw [← h2]; simp
            have e5 : s1.bytes = s.bytes := by
              rw [← h2]; simp [hbytes]
            have e6 : s1.brk = R.2.brk := by
              rw [← h2]; simp
            have e7 : s1.brkMax = s.brkMax := by
              rw [← h2]; simp [hmax]
            have hl : l = [] := by
              cases l with
              | nil => rfl
              | cons x xs =>
                obtain ⟨_, _, hx0, _⟩ := hch
                simp at hhead
                omega
            subst hl
            obtain ⟨s2, hfree, h1, h3, _, h4⟩ := free_only (f + 1) hp0 hhp hb0 e1 rfl rfl rfl rfl
              rfl
            refine ⟨s2, hfree, by rw [h1, hempty], (fun x hx => by cases hx), ?_, ?_⟩
            · rw [h3, e5]
            · intro hsmall
              rw [h4]
              exact sbrk_back hnew hle e6 e7 hsmall
          · rw [if_neg hempty] at h
            cases hi : insertBlock (f + 2)
                (put R.2 s.brk
                  { magic_ := MAGIC_NUMBER, used_ := 1, next_ := 0, prev_ := 0, size_ := n })
                s.brk s.blocks_start with
            | error e => rw [hi] at h; cases h
            | ok s4 =>
              rw [hi] at h
              injection h with h
              injection h with h1 h2
              subst h1 h2
              cases l with
              | nil => simp at hhead; exact absurd hhead hempty
              | cons x xs =>
                simp at hhead
                rw [hhead] at hi
                have hnot : s.brk ∉ x :: xs := by
                  intro hm
                  obtain ⟨b, _, hle⟩ := chain_le_brk _ _ hch _ hm
                  simp [getMetaSize] at hle
                  omega
                have hch3 : chain (put R.2 s.brk
                    { magic_ := MAGIC_NUMBER, used_ := 1, next_ := 0, prev_ := 0,
                      size_ := n }).hdr s.brk 0 (x :: xs) := by
                  refine chain_frame _ _ ?_ hch
                  intro y hy
                  have : y ≠ s.brk := fun hye => hnot (hye ▸ hy)
                  simp [this, hhdr]
                obtain ⟨t, bt, hlast, hbt, hbtn, ht0, htn, hbtm, hs4⟩ :=
                  @insertBlock_chain s.brk s.brk (Block.mk MAGIC_NUMBER n 1 0 0) hb0 xs x 0
                    (f + 2) _ s4 hch3 hnot (by simp) hi
                have hbt0 : s.hdr t = some bt := by
                  simpa [htn, hhdr] using hbt
                have hused := htail t bt hlast hbt0
                have e1 : s4.hdr s.brk = some (Block.mk MAGIC_NUMBER n 1 0 t) := by
                  rw [hs4]; simp
                have e2 : s4.hdr t = some { bt with next_ := s.brk } := by
                  rw [hs4]; simp [htn]
                have e3 : ∀ y, y ≠ s.brk → y ≠ t → s4.hdr y = s.hdr y := by
                  intro y hy1 hy2
                  rw [hs4]; simp [hy1, hy2, hhdr]
                have e4 : s4.blocks_start = s.blocks_start := by
                  rw [hs4]; simp [hstart]
                have e5 : s4.bytes = s.bytes := by
                  rw [hs4]; simp [hbytes]
                have e6 : s4.brk = R.2.brk := by
                  rw [hs4]; simp
                have e7 : s4.brkMax = s.brkMax := by
                  rw [hs4]; simp [hmax]
                obtain ⟨s2, hfree, h1, h2, h3, h4, h5⟩ := free_last f hp0 hhp hb0 e1 rfl rfl rfl rfl
                  rfl ht0 htn e2 hbtm hused
                refine ⟨s2, hfree, by rw [h1, e4], ?_, by rw [h2, e5], ?_⟩
                · intro y hy
                  have hyb : y ≠ s.brk := fun hye => hnot (hye ▸ hy)
                  by_cases hyt : y = t
                  · subst hyt
                    rw [h4, hbt0]
                    obtain ⟨mg, sz, u, nx, pv⟩ := bt
                    simp only at hbtn
                    subst hbtn
                    rfl
                  · rw [h3 y hyb hyt, e3 y hyb hyt]
                · intro hsmall
                  rw [h5]
                  exact sbrk_back hnew hle e6 e7 hsmall
  · simp only [ne_eq, hr, not_false_eq_true, if_true] at h
    obtain ⟨b, hb, hu, hmag⟩ := findFreeBlock_free _ _ _ _ _ _ hfind hr
    rw [modify_ok _ hr hb] at h
    injection h with h
    injection h with h1 h2
    subst h1 h2
    rw [hhead] at hfind
    rcases findFreeBlock_spec hbrk hn l [] (f + 2) r s hch hhead hfind with
      ⟨hr0, _⟩ | ⟨hrl, _⟩
    · exact absurd hr0 hr
    · obtain ⟨b1, hb1, hle⟩ := chain_le_brk _ _ hch r hrl
      have hrW : r < WORD := by omega
      have hnx : b.next_ ≠ 0 := by
        refine chain_next_ne_zero l 0 r b hch hrl hb ?_
        intro hlast
        have := htail r b hlast hb
        omega
      obtain ⟨mg, sz, u, nx, pv⟩ := b
      simp only at hu hmag hnx
      subst hu hmag
      unfold free
      rw [if_neg hp0, header_payload hrW]
      rw [load_ok hr (by simp : _ = some (Block.mk MAGIC_NUMBER sz 1 nx pv))]
      simp only [ne_eq, not_true_eq_false, if_false, one_ne_zero, hnx]
      rw [modify_ok _ hr (by simp : _ = some (Block.mk MAGIC_NUMBER sz 1 nx pv))]
      refine ⟨_, rfl, rfl, ?_, rfl, fun _ => rfl⟩
      intro y _
      by_cases hyr : y = r
      · subst hyr
        simp [hb]
      · simp [hyr]

theorem release_after_allocate_restores_witness :
    (∃ s1, malloc 10 heapA 32 = .ok (4136, s1) ∧
      ∃ s2, free 10 s1 4136 = .ok s2 ∧ s2.blocks_start = heapA.blocks_start ∧
        (∀ x ∈ [4096, 4200], s2.hdr x = heapA.hdr x) ∧ s2.bytes = heapA.bytes ∧
        (getMetaSize + 32 < 2 ^ 31 → s2.brk = heapA.brk)) ∧
    (∃ s1, malloc 10 heapB 24 = .ok (4248, s1) ∧
      ∃ s2, free 10 s1 4248 = .ok s2 ∧ s2.blocks_start = heapB.blocks_start ∧
        (∀ x ∈ [4096, 4152], s2.hdr x = heapB.hdr x) ∧ s2.bytes = heapB.bytes ∧
        (getMetaSize + 24 < 2 ^ 31 → s2.brk = heapB.brk)) :=
  ⟨⟨_, rfl, release_after_allocate_restores heapA [4096, 4200] 32 10 4136 4096 _ heapA_wf
      (by decide) heapA_tail_used (by decide) (by decide) rfl rfl (by decide) (by decide)⟩,
   ⟨_, rfl, release_after_allocate_restores heapB [4096, 4152] 24 10 4248 0 _ heapB_wf
      (by decide) heapB_tail_used (by decide) (by decide) rfl rfl (by decide) (by decide)⟩⟩

/-- Claim C12 fails on the code.  With the lock calls made explicit, `malloc`, `free` and
`realloc` keep the discipline on every state and for all arguments: started with the
lock free they never acquire it while holding it, and the lock is free again when they
return (`realloc` releases it before the fallback call of `malloc`).  `calloc` does not:
it acquires the lock at line 439 and calls `malloc` with the lock held, which acquires it
again at line 469.  For `calloc(1, 8)` on every state the first two lock calls are two
acquires, the second of which is not enabled, so the call does not return.  The result
components of `malloc`, `free` and `realloc` with their lock calls are the functions of
the sequential embedding; `calloc` does not return when an acquire step of its lock calls
is not enabled and otherwise returns the result component. -/
theorem zero_allocate_reacquires_lock :
    (∀ fuel s n, (mallocL fuel s n).2 = malloc fuel s n ∧ LockOk (mallocL fuel s n)) ∧
    (∀ fuel s p, (freeL fuel s p).2 = free fuel s p ∧ LockOk (freeL fuel s p)) ∧
    (∀ fuel s p n, (reallocL fuel s p n).2 = realloc fuel s p n ∧
      LockOk (reallocL fuel s p n)) ∧
    (∀ fuel s k n, calloc fuel s k n =
      if runLocks false (callocL fuel s k n).1 = none then .error Err.hang
      else (callocL fuel s k n).2) ∧
    (∀ fuel s, (callocL fuel s 1 8).1.take 2 = [LockEv.lock, LockEv.lock] ∧
      runLocks false (callocL fuel s 1 8).1 = none ∧ ¬ LockOk (callocL fuel s 1 8)) ∧
    (callocL 10 heap0 1 8).1 = [LockEv.lock, LockEv.lock, LockEv.unlock, LockEv.unlock] := by
  refine ⟨fun fuel s n => ⟨mallocL_result fuel s n, mallocL_lockOk fuel s n⟩,
    fun fuel s p => ⟨freeL_result fuel s p, freeL_lockOk fuel s p⟩,
    fun fuel s p n => ⟨reallocL_result fuel s p n, reallocL_lockOk fuel s p n⟩,
    fun fuel s k n => calloc_callocL fuel s k n, ?_, by decide⟩
  intro fuel s
  obtain ⟨h1, h2⟩ := callocL_blocks fuel s 1 8 (by decide) (by decide) (by decide)
  refine ⟨h1, h2, ?_⟩
  unfold LockOk
  split <;> simp [h2]

/-- Claim C13: `malloc(0)`, `calloc(0, k)` and `calloc(k, 0)` return `NULL`, `free(NULL)`
returns, and `free(p)` returns for a pointer `p` whose header carries the magic number
and has `used_ = 0`; each of these calls hands back the state it was given, so
`blocks_start`, every header and the break are unchanged.  `realloc(NULL, n)` is
`malloc(n)`: same pointer, same state. -/
theorem degenerate_calls_are_noops (fuel : Nat) (s : State) (k n p : Nat) (b : Block)
    (hh : header p ≠ 0) (hb : s.hdr (header p) = some b) (hm : b.magic_ = MAGIC_NUMBER)
    (hu : b.used_ = 0) :
    malloc fuel s 0 = .ok (0, s) ∧ calloc fuel s 0 k = .ok (0, s) ∧
    calloc fuel s k 0 = .ok (0, s) ∧ free fuel s 0 = .ok s ∧ free fuel s p = .ok s ∧
    realloc fuel s 0 n = malloc fuel s n := by
  refine ⟨?_, ?_, ?_, ?_, ?_, ?_⟩
  · simp [malloc]
  · simp [calloc]
  · simp [calloc]
  · simp [free]
  · unfold free
    by_cases hp : p = 0
    · rw [if_pos hp]
    · rw [if_neg hp, load_ok hh hb]
      simp only [hm, hu, ne_eq, not_true_eq_false, if_false, if_true]
  · simp [realloc]

theorem degenerate_calls_are_noops_witness :
    malloc 10 heapA 0 = .ok (0, heapA) ∧ calloc 10 heapA 0 7 = .ok (0, heapA) ∧
    calloc 10 heapA 7 0 = .ok (0, heapA) ∧ free 10 heapA 0 = .ok heapA ∧
    free 10 heapA 4136 = .ok heapA ∧ realloc 10 heapA 0 24 = malloc 10 heapA 24 :=
  degenerate_calls_are_noops 10 heapA 7 24 4136 (Block.mk MAGIC_NUMBER 64 0 4200 0)
    (by decide) rfl rfl rfl

theorem heapG_wf : WellFormed heapG [4096, 4168, 4272] := by
  refine ⟨rfl, ⟨_, rfl, by decide, by decide, by decide, by decide, by decide,
    ⟨_, rfl, by decide, by decide, by decide, by decide, by decide,
    ⟨_, rfl, by decide, by decide, by decide, by decide, by decide, trivial⟩⟩⟩⟩

theorem heapH_wf : WellFormed heapH [4096, 4152, 4208] := by
  refine ⟨rfl, ⟨_, rfl, by decide, by decide, by decide, by decide, by decide,
    ⟨_, rfl, by decide, by decide, by decide, by decide, by decide,
    ⟨_, rfl, by decide, by decide, by decide, by decide, by decide, trivial⟩⟩⟩⟩

/-- Claim C14 fails on the code.  In the well-formed heap with a free block of 32 bytes at
4096 followed by the live blocks at 4168 (64 bytes, pointer 4208) and 4272, `malloc(50)`
returns 4136 and leaves the list `[4096, 4272]`: the forward merge started at the free
block has removed the block at 4168, which was in use, and the merged block of 136 bytes
covers its payload.  In the heap of three live blocks of 16 bytes, `realloc(4136, 50)`
returns 4136 and leaves the list `[4096, 4208]`: the forward merge has removed the live
block at 4152, which is not the block being resized. -/
theorem forward_merge_absorbs_used_block :
    outcome (run 10 heap0 [allocate 32, allocate 64, allocate 8, release 4136])
      = some ([4136, 4208, 4312, 0], 4096, 4320) ∧
    WellFormed heapG [4096, 4168, 4272] ∧ Live heapG [4096, 4168, 4272] 4208 64 ∧
    outcome (run 10 heapG [allocate 50]) = some ([4136], 4096, 4320) ∧
    WellFormed (stateAfter 10 heapG [allocate 50]) [4096, 4272] ∧
    (stateAfter 10 heapG [allocate 50]).hdr 4096 = some (Block.mk MAGIC_NUMBER 136 1 4272 0) ∧
    outcome (run 10 heap0 [allocate 16, allocate 16, allocate 16])
      = some ([4136, 4192, 4248], 4096, 4264) ∧
    WellFormed heapH [4096, 4152, 4208] ∧ Live heapH [4096, 4152, 4208] 4136 16 ∧
    Live heapH [4096, 4152, 4208] 4192 16 ∧
    outcome (run 10 heapH [resize 4136 50]) = some ([4136], 4096, 4264) ∧
    WellFormed (stateAfter 10 heapH [resize 4136 50]) [4096, 4208] ∧
    (stateAfter 10 heapH [resize 4136 50]).hdr 4096
      = some (Block.mk MAGIC_NUMBER 72 1 4208 0) := by
  refine ⟨by decide, heapG_wf, ?_, by decide, ?_, by decide, by decide, heapH_wf, ?_, ?_,
    by decide, ?_, by decide⟩
  · exact ⟨4168, Block.mk MAGIC_NUMBER 64 1 4272 4096, by decide, rfl, rfl, rfl, rfl⟩
  · exact ⟨rfl, ⟨_, rfl, by decide, by decide, by decide, by decide, by decide,
      ⟨_, rfl, by decide, by decide, by decide, by decide, by decide, trivial⟩⟩⟩
  · exact ⟨4096, Block.mk MAGIC_NUMBER 16 1 4152 0, by decide, rfl, rfl, rfl, rfl⟩
  · exact ⟨4152, Block.mk MAGIC_NUMBER 16 1 4208 4096, by decide, rfl, rfl, rfl, rfl⟩
  · exact ⟨rfl, ⟨_, rfl, by decide, by decide, by decide, by decide, by decide,
      ⟨_, rfl, by decide, by decide, by decide, by decide, by decide, trivial⟩⟩⟩

/-- Claim C15 fails on the code.  In the well-formed heap with a free block of 32 bytes at
4096 followed by a used block of 64 bytes there is no run of free blocks starting at 4096
with 50 bytes of capacity (the planner of the specification rejects), yet
`checkForwardMerge(4096, 50, 0)` returns 1: the recursive call is made with
`available = 0 + sizeof(struct Block) + 32 = 72`, which counts the header of the start
block, and `available ≥ needed` is tested before `used_` on the next block.  The code
accepts every need up to 72 and rejects 73; the specification accepts up to 32. -/
theorem forward_planner_counts_start_header :
    WellFormed heapF [4096, 4168] ∧
    heapF.hdr 4096 = some (Block.mk MAGIC_NUMBER 32 0 4168 0) ∧
    heapF.hdr 4168 = some (Block.mk MAGIC_NUMBER 64 1 0 4096) ∧
    checkForwardMerge 10 heapF 4096 50 0 = .ok 1 ∧
    specCanForwardSatisfy heapF.hdr 50 4096 [4168] = false ∧
    checkForwardMerge 10 heapF 4096 72 0 = .ok 1 ∧
    checkForwardMerge 10 heapF 4096 73 0 = .ok 0 ∧
    specCanForwardSatisfy heapF.hdr 32 4096 [4168] = true ∧
    specCanForwardSatisfy heapF.hdr 33 4096 [4168] = false := by
  exact ⟨heapF_wf, rfl, rfl, rfl, by decide, rfl, rfl, by decide, by decide⟩

/-- Claim C16: on a well-formed heap whose break is a machine word let `first` be a free
block of the list with successors `rest`, and let `checkForwardMerge(first, size, 0)`
return 1.  Then `rest` splits into the blocks `run` the merge absorbs and the blocks `tl`
behind them, where `run` is the shortest run of successors with
`first.size_ + Σ (sizeof(struct Block) + size_) ≥ size`; and when `tl` begins with a
block `z` (the last block visited has a successor), `forwardBlockMerge(first, first, size,
0)` returns, given fuel for the walk: afterwards the header at `first` has `used_ = 1`,
`size_` equal to that sum and `next_ = z`, the header at `z` has `prev_ = first`, every
other header, the payload bytes, the break and `blocks_start` are unchanged, and the heap
is well formed with the list shortened by `run`.  When `tl` is empty the executor stores
through the `NULL` successor and faults; it never returns without merging. -/
theorem forward_merge_absorbs_shortest_run (s : State) (l1 rest : List Nat)
    (first n fp : Nat) (f : Block) (hwf : WellFormed s (l1 ++ first :: rest))
    (hbrk : s.brk < WORD) (hf : s.hdr first = some f) (hfree : f.used_ = 0)
    (hplan : checkForwardMerge fp s first n 0 = .ok 1) :
    ∃ run tl, rest = run ++ tl ∧ n ≤ f.size_ + absorbed s.hdr run ∧
      (∀ j, j < run.length → f.size_ + absorbed s.hdr (run.take j) < n) ∧
      (∀ z zs, tl = z :: zs → ∀ fe, run.length + 1 ≤ fe →
        ∃ s1 zb, forwardBlockMerge fe s first first n 0 = .ok s1 ∧ s.hdr z = some zb ∧
          s1.hdr first
            = some { f with next_ := z, size_ := f.size_ + absorbed s.hdr run, used_ := 1 } ∧
          s1.hdr z = some { zb with prev_ := first } ∧
          (∀ x, x ≠ first → x ≠ z → s1.hdr x = s.hdr x) ∧
          s1.bytes = s.bytes ∧ s1.brk = s.brk ∧ s1.blocks_start = s.blocks_start ∧
          WellFormed s1 (l1 ++ first :: tl)) ∧
      (tl = [] → ∀ fe, run.length + 1 ≤ fe →
        forwardBlockMerge fe s first first n 0 = .error .segv) := by
  obtain ⟨hhead, hch⟩ := hwf
  have hsuf := chain_append_right l1 (first :: rest) 0 hch
  obtain ⟨run, tl, c, hsplit, hlast, hcap, hshort, hexec⟩ :=
    forward_top_run hbrk hsuf hf hfree hplan
  have hf0 : first ≠ 0 := by
    obtain ⟨_, _, h0, _⟩ := hsuf
    exact h0
  refine ⟨run, tl, hsplit, hcap, hshort, ?_, ?_⟩
  rotate_left
  · intro htl fe hfe
    subst htl
    subst hsplit
    have hsuf2 : chain s.hdr s.brk (l1.getLastD 0) (first :: run) := by
      simpa using hsuf
    obtain ⟨cb, hcb, hc0, hcnext⟩ := chain_last_null (first :: run) _ c hsuf2 hlast
    rw [hexec fe hfe]
    exact forwardLink_null hf0 hf hc0 hcb hcnext
  intro z zs htl fe hfe
  subst htl
  subst hsplit
  have hsuf2 : chain s.hdr s.brk (l1.getLastD 0) ((first :: run) ++ z :: zs) := by
    simpa using hsuf
  obtain ⟨cb, hcb, hc0, hcnext⟩ := chain_last_next (first :: run) _ c hsuf2 hlast
  have hzch := chain_append_right (first :: run) (z :: zs) _ hsuf2
  obtain ⟨zb, hzb, hz0, _⟩ := hzch
  have hfz : first < z :=
    chain_append_lt (first :: run) zs _ z hsuf2 first (List.mem_cons_self _ _)
  obtain ⟨s1, hlink, h1, h2, h3, h4, h5, _, h7⟩ :=
    @forwardLink_ok s first c z (f.size_ + absorbed s.hdr run) f cb zb hf0 hf hc0 hcb hcnext
      hz0 (by omega) hzb
  refine ⟨s1, zb, by rw [hexec fe hfe]; exact hlink, hzb, h1, h2, h3, h4, h5, h7, ?_, ?_⟩
  · rw [h7, hhead]
    cases l1 <;> rfl
  · rw [h5]
    have hsum := chain_absorbed run _ first f hsuf hf
    exact chain_splice hf hzb h1 h2 h3 (by omega) l1 0 hch

theorem forward_merge_absorbs_shortest_run_witness :
    (∃ run tl, [4168, 4240] = run ++ tl ∧
      70 ≤ (Block.mk MAGIC_NUMBER 32 0 4168 0).size_ + absorbed heapS3.hdr run ∧
      (∀ j, j < run.length →
        (Block.mk MAGIC_NUMBER 32 0 4168 0).size_ + absorbed heapS3.hdr (run.take j) < 70) ∧
      (∀ z zs, tl = z :: zs → ∀ fe, run.length + 1 ≤ fe →
        ∃ s1 zb, forwardBlockMerge fe heapS3 4096 4096 70 0 = .ok s1 ∧
          heapS3.hdr z = some zb ∧
          s1.hdr 4096
            = some { Block.mk MAGIC_NUMBER 32 0 4168 0 with
                next_ := z,
                size_ := (Block.mk MAGIC_NUMBER 32 0 4168 0).size_ + absorbed heapS3.hdr run,
                used_ := 1 } ∧
          s1.hdr z = some { zb with prev_ := 4096 } ∧
          (∀ x, x ≠ 4096 → x ≠ z → s1.hdr x = heapS3.hdr x) ∧
          s1.bytes = heapS3.bytes ∧ s1.brk = heapS3.brk ∧
          s1.blocks_start = heapS3.blocks_start ∧ WellFormed s1 ([] ++ 4096 :: tl)) ∧
      (tl = [] → ∀ fe, run.length + 1 ≤ fe →
        forwardBlockMerge fe heapS3 4096 4096 70 0 = .error .segv)) ∧
    70 ≤ 32 + absorbed heapS3.hdr [4168] ∧ 32 + absorbed heapS3.hdr [] < 70 ∧
    32 + absorbed heapS3.hdr [4168] = 104 ∧
    outcome (run 10 heapS3 [allocate 70]) = some ([4136], 4096, 4312) ∧
    (stateAfter 10 heapS3 [allocate 70]).hdr 4096
      = some (Block.mk MAGIC_NUMBER 104 1 4240 0) ∧
    heapS3.hdr 4240 = some (Block.mk MAGIC_NUMBER 32 1 0 4168) ∧
    (stateAfter 10 heapS3 [allocate 70]).hdr 4240 = some (Block.mk MAGIC_NUMBER 32 1 0 4096) ∧
    WellFormed (stateAfter 10 heapS3 [allocate 70]) [4096, 4240] :=
  ⟨forward_merge_absorbs_shortest_run heapS3 [] [4168, 4240] 4096 70 10
      (Block.mk MAGIC_NUMBER 32 0 4168 0) heapS3_wf (by decide) rfl rfl rfl,
    by decide, by decide, by decide, by decide, by decide, by decide, by decide,
    ⟨rfl, ⟨_, rfl, by decide, by decide, by decide, by decide, by decide,
      ⟨_, rfl, by decide, by decide, by decide, by decide, by decide, trivial⟩⟩⟩⟩

/-- Claim C17: on a well-formed heap whose break is a machine word let `first` be a free
block of the list with predecessors `l1` and successors `rest`.  Given fuel for the walk,
`checkBackwardMerge(first, n, 0)` returns 1 exactly when some run of free blocks `run`
directly in front of `first` has `first.size_ + Σ (sizeof(struct Block) + size_) ≥ n`.
When it returns 1, the blocks `run` the executor absorbs are free, they are the shortest
such run, and `backwardBlockMerge(first, first, n, 0)` returns the first block `R` of
`run ++ [first]`, the lowest address of the run: afterwards `R` has `used_ = 1`, `size_`
equal to that sum and `next_` equal to the old successor of `first`, whose `prev_` is now
`R`; every other header, the payload bytes, the break and `blocks_start` are unchanged and
the heap is well formed with the list `pre ++ R :: rest`. -/
theorem backward_planner_and_executor_agree (s : State) (l1 rest : List Nat)
    (first n : Nat) (f : Block) (hwf : WellFormed s (l1 ++ first :: rest))
    (hbrk : s.brk < WORD) (hf : s.hdr first = some f) (hfree : f.used_ = 0) :
    (∀ fp, l1.length + 1 ≤ fp →
      (checkBackwardMerge fp s first n 0 = .ok 1 ↔
        ∃ pre run, l1 = pre ++ run ∧ (∀ x ∈ run, ∃ b, s.hdr x = some b ∧ b.used_ = 0) ∧
          n ≤ f.size_ + absorbed s.hdr run)) ∧
    (∀ fp, checkBackwardMerge fp s first n 0 = .ok 1 →
      ∃ pre run R rb, l1 = pre ++ run ∧ (run ++ [first]).head? = some R ∧
        s.hdr R = some rb ∧ (∀ x ∈ run, ∃ b, s.hdr x = some b ∧ b.used_ = 0) ∧
        (∀ x ∈ run ++ [first], R ≤ x) ∧ n ≤ f.size_ + absorbed s.hdr run ∧
        (∀ j, 0 < j → j ≤ run.length → f.size_ + absorbed s.hdr (run.drop j) < n) ∧
        f.next_ = rest.headD 0 ∧
        ∀ fe, run.length + 1 ≤ fe →
          ∃ s1, backwardBlockMerge fe s first first n 0 = .ok (R, s1) ∧
            s1.hdr R = some { rb with
              next_ := rest.headD 0, size_ := f.size_ + absorbed s.hdr run, used_ := 1 } ∧
            (∀ z zb, rest.head? = some z → s.hdr z = some zb →
              s1.hdr z = some { zb with prev_ := R }) ∧
            (∀ x, x ≠ R → rest.head? ≠ some x → s1.hdr x = s.hdr x) ∧
            s1.bytes = s.bytes ∧ s1.brk = s.brk ∧ s1.blocks_start = s.blocks_start ∧
            WellFormed s1 (pre ++ R :: rest)) := by
  obtain ⟨hhead, hch⟩ := hwf
  constructor
  · intro fp hfp
    constructor
    · intro hp
      obtain ⟨_, pre, run, R, hl1, _, hfree2, hcap, _, _⟩ := backward_top_run hbrk hch hf hp
      exact ⟨pre, run, hl1, hfree2, hcap⟩
    · rintro ⟨pre, run, hl1, hfree2, hcap⟩
      refine backward_top_plan hbrk hch hf hfree hl1 hfree2 hcap ?_
      rw [hl1] at hfp
      simp at hfp
      omega
  · intro fp hp
    obtain ⟨_, pre, run, R, hl1, hRhead, hfree2, hcap, hshort, hexec⟩ :=
      backward_top_run hbrk hch hf hp
    subst hl1
    have hsuf := chain_append_right (pre ++ run) (first :: rest) 0 hch
    obtain ⟨f1, hf1, hf0, _, _, hfnext, hfend, hrestch⟩ := hsuf
    rw [hf] at hf1
    injection hf1 with hf1
    subst hf1
    -- the block `R`, the capacity and the blocks between `R` and `rest`
    have hkey : ∃ rb mid, s.hdr R = some rb ∧ R ≠ 0 ∧ R ≤ first ∧
        (∀ x ∈ run ++ [first], R ≤ x) ∧
        R + getMetaSize + (f.size_ + absorbed s.hdr run) = rest.headD s.brk ∧
        chain s.hdr s.brk 0 (pre ++ R :: (mid ++ rest)) := by
      cases run with
      | nil =>
        simp at hRhead
        subst hRhead
        refine ⟨f, [], hf, hf0, le_refl _, by simp, ?_, by simpa using hch⟩
        have hz : absorbed s.hdr [] = 0 := rfl
        omega
      | cons R1 run1 =>
        simp at hRhead
        subst hRhead
        have hch2 : chain s.hdr s.brk 0 (pre ++ R1 :: (run1 ++ first :: rest)) := by
          simpa using hch
        have hRch := chain_append_right pre (R1 :: (run1 ++ first :: rest)) 0 hch2
        have hlt := chain_head_lt _ _ R1 hRch
        have hRch0 := hRch
        obtain ⟨rb, hrb, hR0, _⟩ := hRch
        have hsum := chain_absorbed run1 _ R1 rb hRch0 hrb
        have hRf : R1 ≤ first := by
          obtain ⟨_, _, hle⟩ := hlt first (by simp)
          omega
        refine ⟨rb, run1 ++ [first], hrb, hR0, hRf, ?_, ?_, by simpa using hch⟩
        · intro x hx
          simp at hx
          rcases hx with hx | hx | hx
          · omega
          · obtain ⟨_, _, hle⟩ := hlt x (by simp [hx])
            omega
          · omega
        · rw [absorbed_cons run1 hrb]
          omega
    obtain ⟨rb, mid, hR, hR0, hRf, hlow, hcapeq, hchmid⟩ := hkey
    have hz : f.next_ = 0 ∨ ∃ zb, s.hdr f.next_ = some zb := by
      cases rest with
      | nil => left; simpa using hfnext
      | cons z zs =>
        right
        obtain ⟨zb, hzb, _⟩ := hrestch
        exact ⟨zb, by rw [hfnext]; exact hzb⟩
    have hzR : f.next_ ≠ R := by
      cases rest with
      | nil =>
        simp at hfnext
        rw [hfnext]
        exact fun h => hR0 h.symm
      | cons z zs =>
        simp at hfnext hfend
        rw [hfnext]
        simp [getMetaSize] at hfend
        omega
    refine ⟨pre, run, R, rb, rfl, hRhead, hR, hfree2, hlow, hcap, hshort, hfnext, ?_⟩
    intro fe hfe
    obtain ⟨s1, hlink⟩ := @backwardLink_ok s first R (f.size_ + absorbed s.hdr run) f rb
      hf0 hf hR0 hR hz
    obtain ⟨_, hhdr, hby, hbk, _, hst⟩ := backwardLink_spec hf hR hzR hlink
    have h1 : s1.hdr R = some { rb with
        next_ := rest.headD 0, size_ := f.size_ + absorbed s.hdr run, used_ := 1 } := by
      rw [hhdr, ← hfnext]
      simp
    have h2 : ∀ z zb, rest.head? = some z → s.hdr z = some zb →
        s1.hdr z = some { zb with prev_ := R } := by
      intro z zb hzh hzb
      cases rest with
      | nil => simp at hzh
      | cons z1 zs =>
        simp at hzh hfnext
        subst hzh
        have hz0 : z1 ≠ 0 := by
          obtain ⟨_, _, h0, _⟩ := hrestch
          exact h0
        rw [hhdr]
        rw [hfnext] at hzR
        simp [hzR, hfnext, hz0, hzb]
    have h3 : ∀ x, x ≠ R → rest.head? ≠ some x → s1.hdr x = s.hdr x := by
      intro x hx hxz
      rw [hhdr]
      cases rest with
      | nil =>
        simp at hfnext
        simp [hx, hfnext]
      | cons z1 zs =>
        simp at hxz hfnext
        have : x ≠ f.next_ := by
          rw [hfnext]
          exact fun h => hxz h.symm
        simp [hx, this]
    refine ⟨s1, by rw [hexec fe hfe, hlink], h1, h2, h3, hby, hbk, hst, ?_, ?_⟩
    · rw [hst, hhead]
      cases pre with
      | nil =>
        cases run with
        | nil => simpa using hRhead
        | cons R1 run1 => simpa using hRhead
      | cons a as => rfl
    · rw [hbk]
      exact chain_splice_gen hR h1 h2 h3 hcapeq pre 0 hchmid

theorem backward_planner_and_executor_agree_witness :
    ((∀ fp, [4096].length + 1 ≤ fp →
      (checkBackwardMerge fp heapS3 4168 100 0 = .ok 1 ↔
        ∃ pre run, [4096] = pre ++ run ∧
          (∀ x ∈ run, ∃ b, heapS3.hdr x = some b ∧ b.used_ = 0) ∧
          100 ≤ (Block.mk MAGIC_NUMBER 32 0 4240 4096).size_ + absorbed heapS3.hdr run)) ∧
    (∀ fp, checkBackwardMerge fp heapS3 4168 100 0 = .ok 1 →
      ∃ pre run R rb, [4096] = pre ++ run ∧ (run ++ [4168]).head? = some R ∧
        heapS3.hdr R = some rb ∧ (∀ x ∈ run, ∃ b, heapS3.hdr x = some b ∧ b.used_ = 0) ∧
        (∀ x ∈ run ++ [4168], R ≤ x) ∧
        100 ≤ (Block.mk MAGIC_NUMBER 32 0 4240 4096).size_ + absorbed heapS3.hdr run ∧
        (∀ j, 0 < j → j ≤ run.length →
          (Block.mk MAGIC_NUMBER 32 0 4240 4096).size_ + absorbed heapS3.hdr (run.drop j)
            < 100) ∧
        (Block.mk MAGIC_NUMBER 32 0 4240 4096).next_ = [4240].headD 0 ∧
        ∀ fe, run.length + 1 ≤ fe →
          ∃ s1, backwardBlockMerge fe heapS3 4168 4168 100 0 = .ok (R, s1) ∧
            s1.hdr R = some { rb with
              next_ := [4240].headD 0,
              size_ := (Block.mk MAGIC_NUMBER 32 0 4240 4096).size_ + absorbed heapS3.hdr run,
              used_ := 1 } ∧
            (∀ z zb, [4240].head? = some z → heapS3.hdr z = some zb →
              s1.hdr z = some { zb with prev_ := R }) ∧
            (∀ x, x ≠ R → [4240].head? ≠ some x → s1.hdr x = heapS3.hdr x) ∧
            s1.bytes = heapS3.bytes ∧ s1.brk = heapS3.brk ∧
            s1.blocks_start = heapS3.blocks_start ∧ WellFormed s1 (pre ++ R :: [4240]))) ∧
    checkBackwardMerge 10 heapS3 4168 100 0 = .ok 1 ∧
    checkBackwardMerge 10 heapS3 4168 105 0 = .ok 0 ∧
    32 + absorbed heapS3.hdr [4096] = 104 ∧
    (∃ s1, backwardBlockMerge 10 heapS3 4168 4168 100 0 = .ok (4096, s1) ∧
      s1.hdr 4096 = some (Block.mk MAGIC_NUMBER 104 1 4240 0) ∧
      s1.hdr 4240 = some (Block.mk MAGIC_NUMBER 32 1 0 4096)) :=
  ⟨backward_planner_and_executor_agree heapS3 [4096] [4240] 4168 100
      (Block.mk MAGIC_NUMBER 32 0 4240 4096) heapS3_wf (by decide) rfl rfl,
    rfl, rfl, by decide, ⟨_, rfl, rfl, rfl⟩⟩

theorem payload_header {p : Nat} (hp : p < WORD) : payload (header p) = p := by
  unfold header payload
  simp only [WORD, getMetaSize] at *
  split <;> omega

/-- Claim C18 fails on the code at the input of scenario S5.  In the heap of two live
blocks of 16 bytes, `realloc(4136, 4096)` takes the fallback path and returns the new
pointer 4248; afterwards the old block at 4096 has `used_ = 0` (line 386 cleared the flag
and the fallback path never sets it again), and the next `malloc(8)` returns 4136, the
payload of the old block. -/
theorem resize_fallback_old_block_is_free :
    WellFormed heapB [4096, 4152] ∧ Live heapB [4096, 4152] 4136 16 ∧
    outcome (run 10 heapB [resize 4136 4096]) = some ([4248], 4096, 8344) ∧
    (stateAfter 10 heapB [resize 4136 4096]).hdr 4096
      = some (Block.mk MAGIC_NUMBER 16 0 4152 0) ∧
    outcome (run 10 heapB [resize 4136 4096, allocate 8]) = some ([4248, 4136], 4096, 8344) := by
  refine ⟨heapB_wf, ?_, by decide, by decide, by decide⟩
  exact ⟨4096, Block.mk MAGIC_NUMBER 16 1 4152 0, by decide, rfl, rfl, rfl, rfl⟩

/-- Claim C18 as amended.  Let `a` be the header of a block of a well-formed heap, for
instance of a live pointer `p = a + 40`, and let `realloc(p, n)` with `n` larger than the
size of the block take the fallback path: with the block marked free neither planner
accepts, and the search of the `malloc` call inside performs no merge (`findFreeBlock`
hands back the state it was given).  If `realloc` returns a pointer `r` other than the
failure sentinel, then `r ≠ p` is the payload of another block of the list, in use and
with room for `n` bytes, and the old block has been released, not leaked: the list is
still well formed and contains it (with the new block appended when `malloc` grew the
heap), its header has `used_ = 0` and the size it had, the break has not gone down, and a
following `malloc(k)` with `0 < k ≤ size` returns `p` again when every block in front of
the old block is in use. -/
theorem resize_fallback_releases_old_block (s : State) (l1 l2 : List Nat)
    (fuel a n f r : Nat) (b : Block) (s1 : State)
    (hwf : WellFormed s (l1 ++ a :: l2)) (hbrk : s.brk < WORD)
    (hb : s.hdr a = some b) (hsz : b.size_ < n)
    (hsmall : getMetaSize + n < 2 ^ 63)
    (hfwd : (if b.next_ ≠ 0 then
        checkForwardMerge fuel (put s a { b with used_ := 0 }) a n 0
      else .ok 0) = .ok 0)
    (hbwd : (if b.prev_ ≠ 0 then
        checkBackwardMerge fuel (put s a { b with used_ := 0 }) a n 0
      else .ok 0) = .ok 0)
    (hfind : findFreeBlock fuel (put s a { b with used_ := 0 }) s.blocks_start n
      = .ok (f, put s a { b with used_ := 0 }))
    (h : realloc fuel s (a + getMetaSize) n = .ok (r, s1)) (hrF : r ≠ FAIL) :
    r ≠ a + getMetaSize ∧ s.brk ≤ s1.brk ∧
    (∃ b1, s1.hdr a = some b1 ∧ b1.used_ = 0 ∧ b1.size_ = b.size_) ∧
    ∃ l', ((f ≠ 0 ∧ l' = l2) ∨ (f = 0 ∧ l' = l2 ++ [s.brk])) ∧
      WellFormed s1 (l1 ++ a :: l') ∧
      (∃ c bc, c ∈ l1 ++ l' ∧ r = payload c ∧ s1.hdr c = some bc ∧ bc.used_ = 1 ∧
        n ≤ bc.size_) ∧
      ∀ k fuel2, 0 < k → k ≤ b.size_ → l1.length + 1 ≤ fuel2 →
        (∀ x ∈ l1, ∃ bx, s1.hdr x = some bx ∧ bx.used_ ≠ 0) →
        ∃ s3, malloc fuel2 s1 k = .ok (a + getMetaSize, s3) := by
  have hch := hwf.2
  have hhead := hwf.1
  have hal : a ∈ l1 ++ a :: l2 := by simp
  obtain ⟨b0, hb0, ha0, hmag⟩ := chain_mem _ _ hch a hal
  rw [hb] at hb0; injection hb0 with hb0; subst hb0
  obtain ⟨b0, hb0, hale⟩ := chain_le_brk _ _ hch a hal
  rw [hb] at hb0; injection hb0 with hb0; subst hb0
  have hpay : payload a = a + getMetaSize := payload_eq (by omega)
  have hq0 : a + getMetaSize ≠ 0 := by simp [getMetaSize]
  have hwf1 : WellFormed (put s a { b with used_ := 0 }) (l1 ++ a :: l2) :=
    ⟨hhead, chain_put_used hb _ 0 hch⟩
  have hsa : (put s a { b with used_ := 0 }).hdr a = some { b with used_ := 0 } :=
    put_hdr_self _ _ _
  unfold realloc at h
  rw [if_neg hq0, header_add, load_ok ha0 hb] at h
  simp only [hmag, ne_eq, not_true_eq_false, if_false] at h
  rw [modify_ok _ ha0 hb] at h
  simp only at h
  simp only [ne_eq] at hfwd hbwd
  rw [hfwd] at h
  simp only [not_true_eq_false, if_false] at h
  rw [hbwd] at h
  simp only [not_true_eq_false, if_false] at h
  cases hmal : malloc fuel (put s a { b with used_ := 0 }) n with
  | error e => rw [hmal] at h; cases h
  | ok v =>
    obtain ⟨q, s2⟩ := v
    rw [hmal] at h
    simp only at h
    unfold copyInto at h
    split at h
    · cases h
    · split at h
      · cases h
      · split at h
        · cases h
        · injection h with h
          injection h with h1 h2
          subst h1 h2
          -- the reuse of the old block by a later call, from the list after the call
          have hreuse : ∀ (S : State) (l' : List Nat) (b1 : Block),
              WellFormed S (l1 ++ a :: l') → S.hdr a = some b1 → b1.used_ = 0 →
              b1.size_ = b.size_ →
              ∀ k fuel2, 0 < k → k ≤ b.size_ → l1.length + 1 ≤ fuel2 →
                (∀ x ∈ l1, ∃ bx, S.hdr x = some bx ∧ bx.used_ ≠ 0) →
                ∃ s3, malloc fuel2 S k = .ok (a + getMetaSize, s3) := by
            intro S l' b1 hS hb1 hu1 hs1 k fuel2 hk0 hk hf2 hpre
            refine ⟨put S a { b1 with used_ := 1 }, ?_⟩
            rw [← hpay]
            exact malloc_first_free hS hb1 hu1 hk0 (by omega) hpre hf2
          rcases malloc_no_merge hwf1 (by simp) hbrk (by omega) hsmall hfind hmal hrF with
            ⟨bf, hfl, hf0, hbf, hfu, hfn, hq, hs2⟩ |
            ⟨hf0, hq, hwf2, ⟨bn, hbn, hbnu, hbns⟩, hframe, _, hle2⟩
          · -- a free block of the list is used again
            have hfa : f ≠ a := by
              intro hfa
              rw [hfa, hsa] at hbf
              injection hbf with hbf
              subst hbf
              simp only at hfn
              omega
            obtain ⟨_, _, hfle⟩ := chain_le_brk _ _ hch f hfl
            have hpf : payload f = f + getMetaSize := payload_eq (by omega)
            have ha1 : s2.hdr a = some { b with used_ := 0 } := by
              rw [hs2, put_hdr, if_neg (Ne.symm hfa)]
              exact hsa
            have hwf3 : WellFormed s2 (l1 ++ a :: l2) := by
              rw [hs2]
              exact ⟨hhead, chain_put_used hbf _ 0 hwf1.2⟩
            refine ⟨by rw [hq, hpf]; omega, by rw [hs2]; exact Nat.le_refl _,
              ⟨_, ha1, rfl, rfl⟩, l2, Or.inl ⟨hf0, rfl⟩, hwf3,
              ⟨f, { bf with used_ := 1 }, ?_, hq, ?_, rfl, hfn⟩, ?_⟩
            · rcases List.mem_append.1 hfl with h1 | h1
              · exact List.mem_append_left _ h1
              · rcases List.mem_cons.1 h1 with h1 | h1
                · exact absurd h1 hfa
                · exact List.mem_append_right _ h1
            · rw [hs2]
              exact put_hdr_self _ _ _
            · exact hreuse _ l2 _ hwf3 ha1 rfl rfl
          · -- a block is appended at the break
            obtain ⟨hu2, hz2⟩ := hframe a hal
            rw [hsa] at hu2 hz2
            have hwf3 : WellFormed s2 (l1 ++ a :: (l2 ++ [s.brk])) := by
              have e : (l1 ++ a :: l2) ++ [s.brk] = l1 ++ a :: (l2 ++ [s.brk]) := by simp
              rw [← e]
              exact hwf2
            cases ha1 : s2.hdr a with
            | none => rw [ha1] at hu2; cases hu2
            | some b1 =>
              rw [ha1] at hu2 hz2
              have hu3 : b1.used_ = 0 := by simpa using hu2
              have hz3 : b1.size_ = b.size_ := by simpa using hz2
              refine ⟨?_, hle2, ⟨b1, rfl, hu3, hz3⟩, l2 ++ [s.brk], Or.inr ⟨hf0, rfl⟩,
                hwf3,
                ⟨s.brk, bn, by simp, hq, hbn, hbnu, by omega⟩, ?_⟩
              · rw [hq]
                simp only [payload, put_brk, WORD, getMetaSize] at *
                omega
              · exact hreuse _ _ _ hwf3 ha1 hu3 hz3

theorem heapR_wf : WellFormed heapR [4096, 4152, 4208, 4312] := by
  refine ⟨rfl, ⟨_, rfl, by decide, by decide, by decide, by decide, by decide,
    ⟨_, rfl, by decide, by decide, by decide, by decide, by decide,
    ⟨_, rfl, by decide, by decide, by decide, by decide, by decide,
    ⟨_, rfl, by decide, by decide, by decide, by decide, by decide, trivial⟩⟩⟩⟩⟩

/-- The two fallback paths of claim C18 on concrete heaps.  In the heap of two live blocks
of 16 bytes `realloc(4192, 4096)` on the second block appends a block and returns 4248;
in the heap with a released block of 64 bytes at 4208 `realloc(4136, 60)` uses that block
again and returns 4248.  In both the old block stays in the list with `used_ = 0` and its
16 bytes, and `malloc(8)` returns the old pointer again. -/
theorem resize_fallback_releases_old_block_witness :
    (∃ s1, realloc 10 heapB 4192 4096 = .ok (4248, s1) ∧
      (∃ b1, s1.hdr 4152 = some b1 ∧ b1.used_ = 0 ∧ b1.size_ = 16) ∧
      WellFormed s1 [4096, 4152, 4208] ∧ ∃ s3, malloc 10 s1 8 = .ok (4192, s3)) ∧
    (∃ s1, realloc 10 heapR 4136 60 = .ok (4248, s1) ∧
      (∃ b1, s1.hdr 4096 = some b1 ∧ b1.used_ = 0 ∧ b1.size_ = 16) ∧
      WellFormed s1 [4096, 4152, 4208, 4312] ∧ ∃ s3, malloc 10 s1 8 = .ok (4136, s3)) := by
  constructor
  · have T := resize_fallback_releases_old_block heapB [4096] [] 10 4152 4096 0 4248
      (Block.mk MAGIC_NUMBER 16 1 0 4096) _ heapB_wf (by decide) rfl (by decide) (by decide)
      rfl rfl rfl rfl (by decide)
    obtain ⟨_, _, hb1, l', hl', hwf, _, hre⟩ := T
    refine ⟨_, rfl, hb1, ?_, ?_⟩
    · rcases hl' with ⟨h0, _⟩ | ⟨_, h⟩
      · exact absurd rfl h0
      · subst h
        exact hwf
    · exact hre 8 10 (by decide) (by decide) (by decide)
        (fun x hx => by
          simp at hx
          subst hx
          exact ⟨_, rfl, by decide⟩)
  · have T := resize_fallback_releases_old_block heapR [] [4152, 4208, 4312] 10 4096 60 4208
      4248 (Block.mk MAGIC_NUMBER 16 1 4152 0) _ heapR_wf (by decide) rfl (by decide)
      (by decide) rfl rfl rfl rfl (by decide)
    obtain ⟨_, _, hb1, l', hl', hwf, _, hre⟩ := T
    refine ⟨_, rfl, hb1, ?_, ?_⟩
    · rcases hl' with ⟨_, h⟩ | ⟨h0, _⟩
      · subst h
        exact hwf
      · exact absurd h0 (by decide)
    · exact hre 8 10 (by decide) (by decide) (by decide) (fun x hx => by cases hx)

theorem heapL_wf : WellFormed heapL [4096, 4144, 4248, 4296] := by
  refine ⟨rfl, ⟨_, rfl, by decide, by decide, by decide, by decide, by decide,
    ⟨_, rfl, by decide, by decide, by decide, by decide, by decide,
    ⟨_, rfl, by decide, by decide, by decide, by decide, by decide,
    ⟨_, rfl, by decide, by decide, by decide, by decide, by decide, trivial⟩⟩⟩⟩⟩

/-- Why the amended claim C18 asks for a `malloc` that does not merge.  In the heap with
released blocks of 8 bytes at 4096 and 4248 around the live block of 64 bytes at 4144,
`realloc(4184, 156)` takes the fallback path (both planners return 0), and the `malloc`
inside merges forward from 4096 through the old block: it returns 4136, the list is
`[4096, 4296]` with a block of 160 bytes at 4096, the old block is no longer in the list,
and the next `malloc(8)` appends a block instead of returning 4184. -/
theorem resize_fallback_merge_absorbs_old_block :
    outcome (run 10 heap0 [allocate 8, allocate 64, allocate 8, allocate 8, release 4136,
      release 4288]) = some ([4136, 4184, 4288, 4336, 0, 0], 4096, 4344) ∧
    WellFormed heapL [4096, 4144, 4248, 4296] ∧ Live heapL [4096, 4144, 4248, 4296] 4184 64 ∧
    checkForwardMerge 10 (put heapL 4144 (Block.mk MAGIC_NUMBER 64 0 4248 4096)) 4144 156 0
      = .ok 0 ∧
    checkBackwardMerge 10 (put heapL 4144 (Block.mk MAGIC_NUMBER 64 0 4248 4096)) 4144 156 0
      = .ok 0 ∧
    outcome (run 10 heapL [resize 4184 156]) = some ([4136], 4096, 4344) ∧
    WellFormed (stateAfter 10 heapL [resize 4184 156]) [4096, 4296] ∧
    (stateAfter 10 heapL [resize 4184 156]).hdr 4096
      = some (Block.mk MAGIC_NUMBER 160 1 4296 0) ∧
    outcome (run 10 heapL [resize 4184 156, allocate 8]) = some ([4136, 4384], 4096, 4392) := by
  refine ⟨by decide, heapL_wf, ?_, rfl, rfl, by decide, ?_, by decide, by decide⟩
  · exact ⟨4144, Block.mk MAGIC_NUMBER 64 1 4248 4096, by decide, rfl, rfl, rfl, rfl⟩
  · exact ⟨rfl, ⟨_, rfl, by decide, by decide, by decide, by decide, by decide,
      ⟨_, rfl, by decide, by decide, by decide, by decide, by decide, trivial⟩⟩⟩

theorem heapE_wf : WellFormed heapE [4096, 4152] := by
  refine ⟨rfl, ?_⟩
  simp only [chain]
  decide

/-- Claim C19 fails on the code.  The heap reached from the empty heap by `malloc(16)`,
`malloc(16)`, `free` of the first pointer is well formed, its first block is free with
16 bytes and its second block is in use and the last of the list.  In `malloc(40)` the
planner `checkForwardMerge` accepts the first block, `forwardBlockMerge` walks to the
second block, whose `next_` is `NULL`, and stores through `current->next_`: the call
faults and returns nothing, neither a pointer nor the failure sentinel. -/
theorem allocate_faults_in_reachable_heap :
    outcome (run 10 heap0 [allocate 16, allocate 16, release 4136])
      = some ([4136, 4192, 0], 4096, 4208) ∧
    releasesLive [allocate 16, allocate 16, release 4136] [4136, 4192, 0] [] = true ∧
    WellFormed heapE [4096, 4152] ∧
    heapE.hdr 4096 = some (Block.mk MAGIC_NUMBER 16 0 4152 0) ∧
    heapE.hdr 4152 = some (Block.mk MAGIC_NUMBER 16 1 0 4096) ∧
    checkForwardMerge 10 heapE 4096 40 0 = .ok 1 ∧
    failure (forwardBlockMerge 10 heapE 4096 4096 40 0) = some Err.segv ∧
    failure (forwardLink heapE 4096 4152 72) = some Err.segv ∧
    failure (malloc 10 heapE 40) = some Err.segv ∧
    failure (run 10 heap0 [allocate 16, allocate 16, release 4136, allocate 40])
      = some Err.segv := by
  exact ⟨by decide, by decide, heapE_wf, rfl, rfl, rfl, by decide, by decide, by decide,
    by decide⟩

/-- Claim C20: in a well-formed heap, `realloc(p, n)` on a live pointer `p` whose block
has size `s`, with `0 < n ≤ s`, returns `p` and ends in the state it started from: every
header (size, used flag and links of every block, the size `s` of the block of `p`
included), the payload bytes, the head of the list and the kernel break are as they were
before the call.  The statement covers the three paths: the forward merge when the block
has a successor, the backward merge when it has a predecessor only, the fallback
`malloc` when it is the only block. -/
theorem resize_within_size_is_identity (s : State) (l : List Nat) (fuel q sz n : Nat)
    (hwf : WellFormed s l) (hbrk : s.brk < WORD) (hlive : Live s l q sz)
    (hn : 0 < n) (hle : n ≤ sz) (hfuel : 2 ≤ fuel) :
    realloc fuel s q n = .ok (q, s) := by
  obtain ⟨hhead, hch⟩ := hwf
  obtain ⟨a, b, hal, hb, hused, hsize, hq⟩ := hlive
  obtain ⟨b1, hb1, hale⟩ := chain_le_brk _ _ hch a hal
  rw [hb] at hb1; injection hb1 with hb1; subst hb1
  obtain ⟨l0, l3, hsplit⟩ := List.append_of_mem hal
  subst hsplit
  obtain ⟨b1, hb1, ha0, hmag, hprev, hnext, hend, hrest⟩ :=
    chain_append_right l0 (a :: l3) 0 hch
  rw [hb] at hb1; injection hb1 with hb1; subst hb1
  subst hq hsize
  refine realloc_within_size ha0 (by omega) hb hmag hused hn hle ?_ ?_ hfuel
  · intro hnx
    cases l3 with
    | nil => exact absurd hnext hnx
    | cons y ys =>
      obtain ⟨yb, hy, _, hymag, hyprev, _⟩ := hrest
      have h1 : b.next_ = y := hnext
      have h2 : a + getMetaSize + b.size_ = y := hend
      rw [h1]
      exact ⟨by omega, yb, hy, hymag, hyprev⟩
  · intro hpv _
    have h0 := chain_prev_null hch hb hpv
    subst h0
    exact hhead

/-- The three paths of claim C20 on concrete heaps: the first of two live blocks (forward
merge), the second of two live blocks (backward merge), the only block of the list
(fallback). -/
theorem resize_within_size_is_identity_witness :
    realloc 10 heapB 4136 16 = .ok (4136, heapB) ∧
    realloc 10 heapB 4192 9 = .ok (4192, heapB) ∧
    realloc 10 heapY 4136 8 = .ok (4136, heapY) :=
  ⟨resize_within_size_is_identity heapB [4096, 4152] 10 4136 16 16 heapB_wf (by decide)
      ⟨4096, _, by decide, rfl, rfl, rfl, rfl⟩ (by decide) (by decide) (by decide),
   resize_within_size_is_identity heapB [4096, 4152] 10 4192 16 9 heapB_wf (by decide)
      ⟨4152, _, by decide, rfl, rfl, rfl, rfl⟩ (by decide) (by decide) (by decide),
   resize_within_size_is_identity heapY [4096] 10 4136 8 8
      ⟨rfl, ⟨_, rfl, by decide, by decide, by decide, by decide, by decide, trivial⟩⟩
      (by decide) ⟨4096, _, by decide, rfl, rfl, rfl, rfl⟩ (by decide) (by decide)
      (by decide)⟩

end Malloc
